import Mathlib

/-!
# Row-partitioned integer matrix product (MMP.cpp) and its sequential reference (MMS.cpp)

A shallow embedding of

* `worker_func` of `MMP.cpp` (the triple loop of one worker and its metrics publishing),
* the row distribution loop and the worker set-up of `main` in `MMP.cpp`,
* `multiply` of `MMS.cpp`.

Conventions of the embedding.

* `int` values are `Int`; the two arithmetic operations of the accumulator
  (`A[i][k] * B[k][j]` and `sum += ...`) are reduced to 32 bits by `wrap32`.
  Index and size arithmetic is not reduced: every dimension of the program is an
  `int` read by `main`, so sizes and row indices never leave the `int` range.
* `std::vector::operator[]` outside the vector has no defined result: every access
  is an `Option` and a failed access makes the whole run `none`.
* `double` values are rationals (rounding is not modelled); the two clocks read by the
  worker are given by an environment, indexed by the number of readings taken.
* a `for` loop running `n` times is the function "state after `n` iterations",
  defined by recursion on `n`.
* the mutex of `ThreadMetrics` is not modelled: a worker runs in isolation.
-/

namespace MatMul

/-- The type `using Matrix = std::vector<std::vector<int>>`. -/
abbrev Matrix := List (List Int)

/-- Reduction of an integer to the 32-bit two's complement range. -/
def wrap32 (x : Int) : Int := (x + 2147483648) % 4294967296 - 2147483648

/-- The element read `v[i]` for an `int` index `i`. -/
def idx? {α : Type} (v : List α) (i : Int) : Option α :=
  if 0 ≤ i then v[i.toNat]? else none

/-- The element read `M[i][j]` with natural indices. -/
def entry (M : Matrix) (i j : Nat) : Option Int :=
  match M[i]? with
  | none => none
  | some row => row[j]?

/-- The element read `M[i][j]` where `i` is an `int`. -/
def read (M : Matrix) (i : Int) (j : Nat) : Option Int :=
  match idx? M i with
  | none => none
  | some row => row[j]?

/-- The assignment `C[i][j] = x`. -/
def store (C : Matrix) (i : Int) (j : Nat) (x : Int) : Option Matrix :=
  match idx? C i with
  | none => none
  | some row => if j < row.length then some (C.set i.toNat (row.set j x)) else none

/-- A matrix with `r` rows, all of length `c`. -/
def hasShape (M : Matrix) (r c : Nat) : Prop :=
  M.length = r ∧ ∀ row ∈ M, row.length = c

instance (M : Matrix) (r c : Nat) : Decidable (hasShape M r c) := by
  unfold hasShape; infer_instance

/-- The exact (unbounded) dot product of row `i` of `A` and column `j` of `B`,
over the first `n` indices; absent entries count as `0`. -/
def dot (A B : Matrix) (i j n : Nat) : Int :=
  ∑ k in Finset.range n, ((A.getD i []).getD k 0) * ((B.getD k []).getD j 0)

/-! ## `ThreadMetrics` and the environment of a worker -/

/-- The record `struct ThreadMetrics` (without its mutex). -/
structure ThreadMetrics where
  thread_id : Int := 0
  core_id : Int := 0
  row_start : Int := 0
  row_end : Int := 0
  native_tid : Nat := 0
  rows_done : Int := 0
  total_rows : Int := 0
  progress : ℚ := 0
  cpu_pct : ℚ := 0
  elapsed : ℚ := 0
  total_time : ℚ := 0
  started : Bool := false
  done : Bool := false
  cpu_samples : List ℚ := []
deriving DecidableEq

/-- What a worker reads from its surroundings: the `n`-th reading of
`steady_clock::now()` (in seconds) and of `get_thread_cpu_time()`, and the
thread id returned by `GetCurrentThreadId()` (`none` when not built for
Windows, where `native_tid` is left alone). -/
structure Env where
  wall : Nat → ℚ
  cpu : Nat → ℚ
  tid : Option Nat

/-! ## `worker_func` -/

/-- The `k` loop of `worker_func`: `sum` after `k` iterations of
`sum += A[i][k] * B[k][j]`, starting from `int sum = 0`. -/
def sumLoop (A B : Matrix) (i : Int) (j : Nat) : Nat → Option Int
  | 0 => some 0
  | k + 1 =>
    match sumLoop A B i j k with
    | none => none
    | some sum =>
      match read A i k, entry B k j with
      | some a, some b => some (wrap32 (sum + wrap32 (a * b)))
      | _, _ => none

/-- The output matrix together with the record of the assignments `C[i][j] = sum`
made so far (the record is an observation, the program does not keep it). -/
structure Mem where
  C : Matrix
  writes : List (Int × Nat)

/-- The `j` loop of `worker_func` for row `i`: the memory after `j` iterations of
`{ int sum = 0; for k ...; C[i][j] = sum; }`. -/
def colLoop (A B : Matrix) (i : Int) (cols_a : Nat) : Nat → Mem → Option Mem
  | 0, m => some m
  | j + 1, m =>
    match colLoop A B i cols_a j m with
    | none => none
    | some m1 =>
      match sumLoop A B i j cols_a with
      | none => none
      | some sum =>
        match store m1.C i j sum with
        | none => none
        | some C2 => some ⟨C2, m1.writes ++ [(i, j)]⟩

/-- The local state of `worker_func` during its row loop. -/
structure WState where
  C : Matrix
  info : ThreadMetrics
  prev_cpu : ℚ
  prev_wall : ℚ
  ticks : Nat
  writes : List (Int × Nat)

/-- The body of `if ((idx + 1) % report_interval == 0 || idx == total - 1)`:
read both clocks, compute the sample and publish the snapshot. -/
def publish (env : Env) (total : Int) (start_wall : ℚ) (idx : Nat) (s : WState) : WState :=
  let now := env.wall s.ticks
  let cur_cpu := env.cpu s.ticks
  let dwall := now - s.prev_wall
  let dcpu := cur_cpu - s.prev_cpu
  let pct : ℚ := if dwall > 1 / 1000 then (dcpu / dwall) * 100 else 0
  let el := now - start_wall
  let info1 : ThreadMetrics :=
    { s.info with
      rows_done := (idx : Int) + 1
      progress := (((idx : Int) + 1 : Int) : ℚ) * 100 / (total : ℚ)
      cpu_pct := pct
      elapsed := el
      cpu_samples := s.info.cpu_samples ++ [pct] }
  let info2 : ThreadMetrics :=
    if (idx : Int) = total - 1 then { info1 with done := true, total_time := el } else info1
  { s with info := info2, prev_cpu := cur_cpu, prev_wall := now, ticks := s.ticks + 1 }

/-- The row loop of `worker_func`: the state after `idx` iterations. -/
def rowLoop (A B : Matrix) (env : Env) (row_start total report_interval : Int)
    (cols_a cols_b : Nat) (start_wall : ℚ) : Nat → WState → Option WState
  | 0, s => some s
  | idx + 1, s =>
    match rowLoop A B env row_start total report_interval cols_a cols_b start_wall idx s with
    | none => none
    | some s1 =>
      match colLoop A B (row_start + idx) cols_a cols_b ⟨s1.C, s1.writes⟩ with
      | none => none
      | some m =>
        let s2 : WState := { s1 with C := m.C, writes := m.writes }
        if Int.tmod ((idx : Int) + 1) report_interval = 0 ∨ (idx : Int) = total - 1 then
          some (publish env total start_wall idx s2)
        else some s2

/-- The function
`void worker_func(const Matrix& A, const Matrix& B, Matrix& C, ThreadMetrics& info)`.
The result holds the final `C`, the final `info` and the record of assignments. -/
def worker_func (A B C : Matrix) (info : ThreadMetrics) (env : Env) : Option WState :=
  let info0 : ThreadMetrics := { info with native_tid := env.tid.getD info.native_tid }
  let row_start := info0.row_start
  let row_end := info0.row_end
  let total := row_end - row_start
  match B[0]?, A[0]? with
  | some b0, some a0 =>
    let cols_b := b0.length
    let cols_a := a0.length
    let report_interval := max 1 (Int.tdiv total 20)
    let prev_cpu := env.cpu 0
    let prev_wall := env.wall 0
    let start_wall := prev_wall
    let info1 : ThreadMetrics := { info0 with total_rows := total, started := true }
    rowLoop A B env row_start total report_interval cols_a cols_b start_wall total.toNat
      ⟨C, info1, prev_cpu, prev_wall, 1, []⟩
  | _, _ => none

/-! ## The row distribution and the worker set-up of `main` (MMP.cpp) -/

/-- The variable `num_cores` after `if (num_cores == 0) num_cores = 4;`, for the value `hc`
returned by `std::thread::hardware_concurrency()`. -/
def num_cores (hc : Nat) : Nat := if hc = 0 then 4 else hc

/-- The core count as `main` uses it: `(int)num_cores`. -/
def coreCount (hc : Nat) : Int := wrap32 (num_cores hc)

/-- The variables of the distribution loop. -/
structure DistState where
  distribution : List (Int × Int)
  start : Int

/-- The distribution loop of `main`: the state after `i` iterations. -/
def distLoop (base remainder : Int) : Nat → DistState
  | 0 => ⟨[], 0⟩
  | i + 1 =>
    let s := distLoop base remainder i
    let count := base + (if (i : Int) < remainder then 1 else 0)
    if count > 0 then ⟨s.distribution ++ [(s.start, s.start + count)], s.start + count⟩
    else s

/-- The vector `distribution` built by `main`; `none` when `rows_a / num_threads`
divides by zero. -/
def distribute (hc : Nat) (rows_a : Int) : Option (List (Int × Int)) :=
  let num_threads := min (coreCount hc) rows_a
  if num_threads = 0 then none
  else
    let base := Int.tdiv rows_a num_threads
    let remainder := Int.tmod rows_a num_threads
    some (distLoop base remainder num_threads.toNat).distribution

/-- The value of `num_threads` after `num_threads = (int)distribution.size();`. -/
def final_num_threads (hc : Nat) (rows_a : Int) : Option Int :=
  match distribute hc rows_a with
  | none => none
  | some d => some (d.length : Int)

/-- The first row of the `i`-th chunk when every chunk has `base` rows and the first
`rem` chunks one more (used to describe the result of the distribution loop). -/
def cut (base rem : Int) (i : Nat) : Int := (i : Int) * base + min (i : Int) rem

/-- The ranges `[cut 0, cut 1), ..., [cut (n-1), cut n)`. -/
def chunks (base rem : Int) (n : Nat) : List (Int × Int) :=
  (List.range n).map (fun i => (cut base rem i, cut base rem (i + 1)))

/-- The records `metrics[i]`, `metrics[i+1]`, ... created for the ranges
`distribution[i]`, `distribution[i+1]`, ... -/
def make_metrics (i : Nat) : List (Int × Int) → List ThreadMetrics
  | [] => []
  | p :: ps =>
    { thread_id := i, core_id := i, row_start := p.1, row_end := p.2 } :: make_metrics (i + 1) ps

/-- What the workers share: `A`, `B`, `C` and the vector `metrics`, with the record
of all assignments to `C` made so far, each tagged with the index of its worker. -/
structure World where
  A : Matrix
  B : Matrix
  C : Matrix
  metrics : List ThreadMetrics
  log : List (Nat × Int × Nat)

/-- The state of `main` just before the workers are launched: the partition is
computed, `C` is allocated zeroed and the metrics are created. -/
def main_setup (A B : Matrix) (rows_a cols_b : Int) (hc : Nat) : Option World :=
  match distribute hc rows_a with
  | none => none
  | some d =>
    if 0 ≤ rows_a ∧ 0 ≤ cols_b then
      some ⟨A, B, List.replicate rows_a.toNat (List.replicate cols_b.toNat 0), make_metrics 0 d, []⟩
    else none

/-- One worker thread run to completion:
`worker_func(std::cref(A), std::cref(B), std::ref(C), std::ref(*metrics[t]))`. -/
def run_thread (envs : Nat → Env) (w : World) (t : Nat) : Option World :=
  match w.metrics[t]? with
  | none => none
  | some info =>
    match worker_func w.A w.B w.C info (envs t) with
    | none => none
    | some r =>
      some { w with
        C := r.C
        metrics := w.metrics.set t r.info
        log := w.log ++ r.writes.map (fun c => (t, c.1, c.2)) }

/-- The workers of the list run one after the other, in the order of the list. -/
def run_threads (envs : Nat → Env) : World → List Nat → Option World
  | w, [] => some w
  | w, t :: ts =>
    match run_thread envs w t with
    | none => none
    | some w1 => run_threads envs w1 ts

/-! ## `multiply` (MMS.cpp) -/

/-- The `k` loop of `multiply`: `C` after `k` iterations of
`C[i][j] += A[i][k] * B[k][j]`. -/
def mulK (A B : Matrix) (i j : Nat) : Nat → Matrix → Option Matrix
  | 0, C => some C
  | k + 1, C =>
    match mulK A B i j k C with
    | none => none
    | some C1 =>
      match entry A i k, entry B k j, entry C1 i j with
      | some a, some b, some c => store C1 i j (wrap32 (c + wrap32 (a * b)))
      | _, _, _ => none

/-- The `j` loop of `multiply`. -/
def mulJ (A B : Matrix) (i cols_a : Nat) : Nat → Matrix → Option Matrix
  | 0, C => some C
  | j + 1, C =>
    match mulJ A B i cols_a j C with
    | none => none
    | some C1 => mulK A B i j cols_a C1

/-- The `i` loop of `multiply`. -/
def mulI (A B : Matrix) (cols_a cols_b : Nat) : Nat → Matrix → Option Matrix
  | 0, C => some C
  | i + 1, C =>
    match mulI A B cols_a cols_b i C with
    | none => none
    | some C1 => mulJ A B i cols_a cols_b C1

/-- The function `Matrix multiply(const Matrix& A, const Matrix& B)` of MMS.cpp. -/
def multiply (A B : Matrix) : Option Matrix :=
  match A[0]?, B[0]? with
  | some a0, some b0 =>
    mulI A B a0.length b0.length A.length
      (List.replicate A.length (List.replicate b0.length 0))
  | _, _ => none

/-! ## The worker seen row by row -/

/-- The local state of `worker_func` when it enters its row loop: the first readings of
both clocks are taken and `total_rows`, `started` are set. -/
def worker_start (C : Matrix) (info : ThreadMetrics) (env : Env) : WState :=
  ⟨C, { info with
          native_tid := env.tid.getD info.native_tid
          total_rows := info.row_end - info.row_start
          started := true },
    env.cpu 0, env.wall 0, 1, []⟩

/-- The local state of `worker_func` after the first `n` iterations of its row loop. -/
def worker_state (A B C : Matrix) (info : ThreadMetrics) (env : Env) (n : Nat) : Option WState :=
  match B[0]?, A[0]? with
  | some b0, some a0 =>
    rowLoop A B env info.row_start (info.row_end - info.row_start)
      (max 1 (Int.tdiv (info.row_end - info.row_start) 20)) a0.length b0.length (env.wall 0) n
      (worker_start C info env)
  | _, _ => none

/-- The test `(idx + 1) % report_interval == 0 || idx == total - 1` of `worker_func`, with
`report_interval = std::max(1, total / 20)`. -/
def reports (total : Int) (idx : Nat) : Prop :=
  Int.tmod ((idx : Int) + 1) (max 1 (Int.tdiv total 20)) = 0 ∨ (idx : Int) = total - 1

instance (total : Int) (idx : Nat) : Decidable (reports total idx) := by
  unfold reports; infer_instance

/-- The snapshots that the worker has published in `info` during the first `n`
iterations of its row loop, oldest first. -/
def worker_snapshots (A B C : Matrix) (info : ThreadMetrics) (env : Env) :
    Nat → List ThreadMetrics
  | 0 => []
  | n + 1 =>
    worker_snapshots A B C info env n ++
      (if reports (info.row_end - info.row_start) n then
        match worker_state A B C info env (n + 1) with
        | some s => [s.info]
        | none => []
      else [])

/-- The sample computed at a publish from the two deltas:
`(dwall > 0.001) ? (dcpu / dwall) * 100.0 : 0.0`. -/
def sample (dcpu dwall : ℚ) : ℚ := if dwall > 1 / 1000 then (dcpu / dwall) * 100 else 0

/-- The interval between snapshots as the specification words it: `⌈total_rows / 20⌉`. -/
def spec_interval (total_rows : Int) : Int := ⌈(total_rows : ℚ) / 20⌉

/-- The sample as the specification words it: CPU time delta over wall time delta, times
100, with a denominator of at least 1 ms. -/
def spec_sample (dcpu dwall : ℚ) : ℚ := dcpu / max dwall (1 / 1000) * 100

/-! ## `generate_matrix` and the start of `main` (MMP.cpp) -/

/-- The `j` loop of `generate_matrix` for row `i`: the matrix and the number of values
drawn after `j` iterations of `m[i][j] = dist(rng)`. The function `draw` gives the
successive values of `dist(rng)` for the generator seeded with `SEED`. -/
def genJ (draw : Nat → Int) (i : Nat) : Nat → Matrix × Nat → Option (Matrix × Nat)
  | 0, s => some s
  | j + 1, s =>
    match genJ draw i j s with
    | none => none
    | some s1 =>
      match store s1.1 (i : Int) j (draw s1.2) with
      | none => none
      | some m2 => some (m2, s1.2 + 1)

/-- The `i` loop of `generate_matrix`. -/
def genI (draw : Nat → Int) (cols : Nat) : Nat → Matrix × Nat → Option (Matrix × Nat)
  | 0, s => some s
  | i + 1, s =>
    match genI draw cols i s with
    | none => none
    | some s1 => genJ draw i cols s1

/-- The function `Matrix generate_matrix(int rows, int cols, std::mt19937& rng)`, for a
generator that has already produced `k` values; a negative size makes the constructor
of the vector throw. -/
def generate_matrix (draw : Nat → Int) (rows cols : Int) (k : Nat) : Option (Matrix × Nat) :=
  if 0 ≤ rows ∧ 0 ≤ cols then
    genI draw cols.toNat rows.toNat
      (List.replicate rows.toNat (List.replicate cols.toNat 0), k)
  else none

/-- The run of `main` from the three dimensions read from the input up to the point
where the workers are launched: `A` and `B` are generated, the rows are distributed,
`C` is allocated and the metrics records are created. -/
def main_prepare (draw : Nat → Int) (hc : Nat) (rows_a cols_a cols_b : Int) : Option World :=
  match generate_matrix draw rows_a cols_a 0 with
  | none => none
  | some gA =>
    match generate_matrix draw cols_a cols_b gA.2 with
    | none => none
    | some gB => main_setup gA.1 gB.1 rows_a cols_b hc

/-! ## The final report of `main` (MMP.cpp) -/

/-- The loop `for (double c : m.cpu_samples) { avg_cpu += c; if (c > max_cpu) max_cpu = c; }`
from `avg_cpu = 0.0, max_cpu = 0.0`: the pair `(avg_cpu, max_cpu)` after the loop. -/
def sample_loop (samples : List ℚ) : ℚ × ℚ :=
  samples.foldl (fun st c => (st.1 + c, if c > st.2 then c else st.2)) (0, 0)

/-- The values `avg_cpu` and `max_cpu` printed for one worker. -/
def cpu_stats (samples : List ℚ) : ℚ × ℚ :=
  if samples.isEmpty then (0, 0)
  else ((sample_loop samples).1 / (samples.length : ℚ), (sample_loop samples).2)

/-- What the summary prints for one worker. -/
structure ThreadReport where
  index : Nat
  core_id : Int
  native_tid : Nat
  first_row : Int
  last_row : Int
  rows : Int
  total_time : ℚ
  avg_cpu : ℚ
  max_cpu : ℚ

/-- The per-worker summary loop of `main`: `total_cpu_time` and the printed reports
after `i` iterations. -/
def summaryLoop (metrics : List ThreadMetrics) (distribution : List (Int × Int)) :
    Nat → Option (ℚ × List ThreadReport)
  | 0 => some (0, [])
  | i + 1 =>
    match summaryLoop metrics distribution i with
    | none => none
    | some st =>
      match metrics[i]?, distribution[i]? with
      | some m, some se =>
        some (st.1 + m.total_time,
          st.2 ++ [⟨i, m.core_id, m.native_tid, se.1, se.2 - 1, se.2 - se.1, m.total_time,
            (cpu_stats m.cpu_samples).1, (cpu_stats m.cpu_samples).2⟩])
      | _, _ => none

/-- The last block of the parallelism summary: either the speedup is printed or the
message that the multiplication was too fast to measure. -/
inductive SpeedupReport where
  | speedup (x : ℚ)
  | tooFast
deriving DecidableEq

/-- The test `if (global_elapsed > 0 && total_cpu_time > 0)` and its two branches. -/
def speedup_report (global_elapsed total_cpu_time : ℚ) : SpeedupReport :=
  if global_elapsed > 0 ∧ total_cpu_time > 0 then
    SpeedupReport.speedup (total_cpu_time / global_elapsed)
  else SpeedupReport.tooFast

/-! ## The Run command of the window procedure (MMS.cpp) -/

/-- What the handler of `IDC_RUN` does that is visible from outside: it shows the error
box, or it launches the detached thread that calls `RunComputation(ra, ca, cb)`. -/
inductive GuiEvent where
  | errorBox
  | computation (ra ca cb : Int)
deriving DecidableEq

/-- The state of the window that the handler touches: whether the Run button is enabled,
whether it shows the busy caption, and the events so far. -/
structure Gui where
  run_enabled : Bool
  run_busy : Bool
  events : List GuiEvent
deriving DecidableEq

/-- The `case IDC_RUN` of `WndProc`, for the three integers read from the edit boxes. -/
def on_run (ra ca cb : Int) (g : Gui) : Gui :=
  if ra ≤ 0 ∨ ca ≤ 0 ∨ cb ≤ 0 then
    { g with events := g.events ++ [GuiEvent.errorBox] }
  else
    { g with
      run_enabled := false
      run_busy := true
      events := g.events ++ [GuiEvent.computation ra ca cb] }

/-! ## The monitor thread of `main` (MMP.cpp) -/

/-- The values printed on one line of a monitor snapshot. -/
structure MonitorLine where
  thread_id : Int
  native_tid : Nat
  core_id : Int
  progress : ℚ
  cpu_pct : ℚ
  mem : ℚ
  rows_done : Int
  total_rows : Int
  listo : Bool
deriving DecidableEq

/-- What a snapshot sends to the output: the line of one worker, or the blank line that
closes the snapshot. -/
inductive MonitorOut where
  | line (l : MonitorLine)
  | blank
deriving DecidableEq

/-- The line printed for the record `m`, `mem` being the value of `get_memory_mb()`. -/
def monitor_line (m : ThreadMetrics) (mem : ℚ) : MonitorLine :=
  ⟨m.thread_id, m.native_tid, m.core_id, m.progress, m.cpu_pct, mem, m.rows_done,
    m.total_rows, m.done⟩

/-- The `for` loop of one snapshot: what has been printed and `any_active` after `i`
iterations. -/
def snapshotLoop (metrics : List ThreadMetrics) (mem : ℚ) :
    Nat → Option (List MonitorOut × Bool)
  | 0 => some ([], false)
  | i + 1 =>
    match snapshotLoop metrics mem i with
    | none => none
    | some st =>
      match metrics[i]? with
      | none => none
      | some m =>
        if !m.started then some st
        else some (st.1 ++ [MonitorOut.line (monitor_line m mem)], true)

/-- One snapshot of the monitor: the loop over the `num_threads` records, then
`if (any_active) std::cout << "\n"`. -/
def monitor_snapshot (metrics : List ThreadMetrics) (num_threads : Nat) (mem : ℚ) :
    Option (List MonitorOut) :=
  match snapshotLoop metrics mem num_threads with
  | none => none
  | some st => if st.2 then some (st.1 ++ [MonitorOut.blank]) else some st.1

/-- The `for` loop of the waiting phase: `any_started` after `i` iterations (after the
`break` nothing more is read). -/
def startedLoop (metrics : List ThreadMetrics) : Nat → Option Bool
  | 0 => some false
  | i + 1 =>
    match startedLoop metrics i with
    | none => none
    | some true => some true
    | some false =>
      match metrics[i]? with
      | none => none
      | some m => some m.started

/-- What the monitor thread does, as seen from outside: a load of `all_done`, a scan of
the records for a started one, a `yield`, a `sleep_for` of the given number of
milliseconds, and a snapshot made on the given pass over the records. -/
inductive MonitorEvent where
  | load (value : Bool)
  | scan (found : Bool)
  | yield
  | sleep (ms : Nat)
  | snapshot (pass : Nat)
deriving DecidableEq

/-- The three states of the monitor: in its first loop, in its second loop, returned. -/
inductive Phase where
  | waiting
  | polling
  | stopped
deriving DecidableEq

/-- What the monitor reads from the rest of the program: the value returned by the
`n`-th `all_done.load()`, the records as read by its `n`-th pass over `metrics`, and
the value of `get_memory_mb()` at that pass. -/
structure MonitorEnv where
  flag : Nat → Bool
  metrics : Nat → List ThreadMetrics
  mem : Nat → ℚ

/-- The local state of the monitor thread, with the number of loads and passes made,
the events so far and everything printed so far. -/
structure MonitorState where
  phase : Phase
  first_print : Bool
  loads : Nat
  passes : Nat
  trace : List MonitorEvent
  output : List MonitorOut

/-- The monitor thread when it starts. -/
def monitor_init : MonitorState := ⟨Phase.waiting, true, 0, 0, [], []⟩

/-- One iteration of the loop the monitor is in: the test `while (!all_done.load())`
and, when it passes, the body of the loop. -/
def monitor_iter (env : MonitorEnv) (s : MonitorState) : Option MonitorState :=
  match s.phase with
  | Phase.stopped => some s
  | Phase.waiting =>
    if env.flag s.loads then
      some { s with
        phase := Phase.polling
        loads := s.loads + 1
        trace := s.trace ++ [MonitorEvent.load true] }
    else
      match startedLoop (env.metrics s.passes) (env.metrics s.passes).length with
      | none => none
      | some true =>
        some { s with
          phase := Phase.polling
          loads := s.loads + 1
          passes := s.passes + 1
          trace := s.trace ++ [MonitorEvent.load false, MonitorEvent.scan true] }
      | some false =>
        some { s with
          loads := s.loads + 1
          passes := s.passes + 1
          trace := s.trace
            ++ [MonitorEvent.load false, MonitorEvent.scan false, MonitorEvent.yield] }
  | Phase.polling =>
    if env.flag s.loads then
      some { s with
        phase := Phase.stopped
        loads := s.loads + 1
        trace := s.trace ++ [MonitorEvent.load true] }
    else if s.first_print then
      match monitor_snapshot (env.metrics s.passes) (env.metrics s.passes).length
          (env.mem s.passes) with
      | none => none
      | some out =>
        some { s with
          first_print := false
          loads := s.loads + 1
          passes := s.passes + 1
          trace := s.trace ++ [MonitorEvent.load false, MonitorEvent.snapshot s.passes]
          output := s.output ++ out }
    else if env.flag (s.loads + 1) then
      some { s with
        phase := Phase.stopped
        loads := s.loads + 2
        trace := s.trace
          ++ [MonitorEvent.load false, MonitorEvent.sleep 50, MonitorEvent.load true] }
    else
      match monitor_snapshot (env.metrics s.passes) (env.metrics s.passes).length
          (env.mem s.passes) with
      | none => none
      | some out =>
        some { s with
          first_print := false
          loads := s.loads + 2
          passes := s.passes + 1
          trace := s.trace
            ++ [MonitorEvent.load false, MonitorEvent.sleep 50, MonitorEvent.load false,
                MonitorEvent.snapshot s.passes]
          output := s.output ++ out }

/-- The monitor after `n` loop iterations from the state `s`. -/
def monitor_from (env : MonitorEnv) (s : MonitorState) : Nat → Option MonitorState
  | 0 => some s
  | n + 1 =>
    match monitor_from env s n with
    | none => none
    | some s1 => monitor_iter env s1

/-- The monitor thread after `n` loop iterations. -/
def monitor_run (env : MonitorEnv) (n : Nat) : Option MonitorState :=
  monitor_from env monitor_init n

/-- The events of `n` iterations of the waiting loop in which nothing is seen. -/
def quiet_rounds : Nat → List MonitorEvent
  | 0 => []
  | n + 1 =>
    quiet_rounds n
      ++ [MonitorEvent.load false, MonitorEvent.scan false, MonitorEvent.yield]

/-- The events of the first `k` snapshots of the polling loop entered at pass `p`: the
first snapshot comes right after a load, each later one after a load, one sleep of 50 ms
and a second load. -/
def poll_rounds (p : Nat) : Nat → List MonitorEvent
  | 0 => []
  | 1 => [MonitorEvent.load false, MonitorEvent.snapshot p]
  | k + 2 =>
    poll_rounds p (k + 1)
      ++ [MonitorEvent.load false, MonitorEvent.sleep 50, MonitorEvent.load false,
          MonitorEvent.snapshot (p + k + 1)]

/-- The number of loads of the flag made for the first `k` snapshots of the polling
loop: one for the first snapshot, two for each later one. -/
def poll_loads : Nat → Nat
  | 0 => 0
  | k + 1 => 2 * k + 1

/-- What the first `k` snapshots of the polling loop entered at pass `p` print: for each
pass, in turn, one line for every record read with `started` set, in index order, and
the blank line when there is such a record. -/
def poll_output (env : MonitorEnv) (p : Nat) : Nat → List MonitorOut
  | 0 => []
  | k + 1 =>
    poll_output env p k
      ++ (((env.metrics (p + k)).filter (fun m => m.started)).map
            (fun m => MonitorOut.line (monitor_line m (env.mem (p + k))))
          ++ (if (env.metrics (p + k)).any (fun m => m.started)
              then [MonitorOut.blank] else []))

/-- Nothing is seen in the first `n` iterations of the waiting loop: the flag is read
`false` and no record is read with `started` set. -/
def quiet (env : MonitorEnv) (n : Nat) : Prop :=
  ∀ i, i < n → env.flag i = false ∧ (env.metrics i).any (fun m => m.started) = false

/-! ## The accesses to a `ThreadMetrics` record and to its mutex -/

/-- The fields of `ThreadMetrics` that are read or written once the threads run. -/
inductive MetricsField where
  | thread_id
  | core_id
  | native_tid
  | total_rows
  | started
  | rows_done
  | progress
  | cpu_pct
  | elapsed
  | cpu_samples
  | done
  | total_time
deriving DecidableEq

/-- What a thread does with one record: it enters or leaves the scope of a
`std::lock_guard` on `mtx`, or it writes or reads a field. -/
inductive Access where
  | lock
  | unlock
  | write (f : MetricsField)
  | read (f : MetricsField)
deriving DecidableEq

/-- The lock scopes and the writes to `info` of `worker_func` before its row loop:
under `_WIN32` the assignment `info.native_tid = GetCurrentThreadId()`, then the block
that sets `total_rows` and `started`. -/
def worker_start_accesses (env : Env) : List Access :=
  (match env.tid with
    | some _ => [Access.write MetricsField.native_tid]
    | none => [])
  ++ [Access.lock, Access.write MetricsField.total_rows, Access.write MetricsField.started,
      Access.unlock]

/-- The lock scope and the writes to `info` of the publishing block of `worker_func` in
iteration `idx`. -/
def publish_accesses (total : Int) (idx : Nat) : List Access :=
  [Access.lock, Access.write MetricsField.rows_done, Access.write MetricsField.progress,
    Access.write MetricsField.cpu_pct, Access.write MetricsField.elapsed,
    Access.write MetricsField.cpu_samples]
  ++ (if (idx : Int) = total - 1
      then [Access.write MetricsField.done, Access.write MetricsField.total_time] else [])
  ++ [Access.unlock]

/-- The lock scopes and the writes to `info` of `worker_func` up to the end of the first
`n` iterations of its row loop. -/
def worker_accesses (env : Env) (total : Int) : Nat → List Access
  | 0 => worker_start_accesses env
  | n + 1 =>
    worker_accesses env total n
      ++ (if reports total n then publish_accesses total n else [])

/-- The accesses of the monitor to one record in its waiting loop. -/
def scan_accesses : List Access :=
  [Access.lock, Access.read MetricsField.started, Access.unlock]

/-- The accesses of the monitor to the record `m` in one snapshot. -/
def snapshot_accesses (m : ThreadMetrics) : List Access :=
  [Access.lock, Access.read MetricsField.started]
  ++ (if !m.started then []
      else [Access.read MetricsField.thread_id, Access.read MetricsField.native_tid,
        Access.read MetricsField.core_id, Access.read MetricsField.progress,
        Access.read MetricsField.cpu_pct, Access.read MetricsField.rows_done,
        Access.read MetricsField.total_rows, Access.read MetricsField.done])
  ++ [Access.unlock]

/-- The accesses of the per-worker summary loop of `main` to one record. -/
def summary_accesses : List Access :=
  [Access.lock, Access.read MetricsField.cpu_samples, Access.read MetricsField.total_time,
    Access.read MetricsField.core_id, Access.read MetricsField.native_tid,
    Access.read MetricsField.total_time, Access.unlock]

/-- The reads and writes of a thread that it makes while it does not hold the mutex;
`held` says whether it holds the mutex at the start. -/
def unguarded : Bool → List Access → List Access
  | _, [] => []
  | _, Access.lock :: rest => unguarded true rest
  | _, Access.unlock :: rest => unguarded false rest
  | held, Access.write f :: rest =>
    if held then unguarded held rest else Access.write f :: unguarded held rest
  | held, Access.read f :: rest =>
    if held then unguarded held rest else Access.read f :: unguarded held rest

/-- Whether the thread holds the mutex after the accesses. -/
def held_after : Bool → List Access → Bool
  | held, [] => held
  | _, Access.lock :: rest => held_after true rest
  | _, Access.unlock :: rest => held_after false rest
  | held, Access.write _ :: rest => held_after held rest
  | held, Access.read _ :: rest => held_after held rest

/-- Every entry of the matrix lies in `[0, 9]`, the range of
`std::uniform_int_distribution<int> dist(0, 9)`. -/
def digits (M : Matrix) : Prop := ∀ row ∈ M, ∀ x ∈ row, 0 ≤ x ∧ x ≤ 9

instance (M : Matrix) : Decidable (digits M) := by
  unfold digits; infer_instance

/-- The cells assigned by a worker that starts at row `rs` and handles `n` rows of
`cb` columns, in the order of assignment. -/
def cells (rs : Int) (cb n : Nat) : List (Int × Nat) :=
  (List.range n).flatMap (fun idx => (List.range cb).map (fun j => (rs + (idx : Int), j)))

/-- The assignments that worker `t` makes when its range is the `t`-th range of `d`
and `C` has `cb` columns, tagged with `t`. -/
def threadCells (d : List (Int × Int)) (cb : Nat) (t : Nat) : List (Nat × Int × Nat) :=
  match d[t]? with
  | none => []
  | some p => (cells p.1 cb (p.2 - p.1).toNat).map (fun c => (t, c.1, c.2))

/-- The record `metrics[t]` exists and carries the `t`-th range of `d`. -/
def carries (d : List (Int × Int)) (ms : List ThreadMetrics) (t : Nat) : Prop :=
  ∃ info p, ms[t]? = some info ∧ d[t]? = some p ∧ info.row_start = p.1 ∧ info.row_end = p.2

/-- Row `i` lies in the range of one of the workers listed in `ts`. -/
def covers (d : List (Int × Int)) (ts : List Nat) (i : Nat) : Prop :=
  ∃ t ∈ ts, ∃ p, d[t]? = some p ∧ p.1 ≤ (i : Int) ∧ (i : Int) < p.2

/-! ## Basic facts: 32-bit reduction, element access, assignment -/

theorem wrap32_modEq (x : Int) : wrap32 x ≡ x [ZMOD 4294967296] := by
  have h := (Int.mod_modEq (x + 2147483648) 4294967296).sub_right 2147483648
  simpa [wrap32] using h

theorem wrap32_congr {x y : Int} (h : x ≡ y [ZMOD 4294967296]) : wrap32 x = wrap32 y := by
  have h1 : (x + 2147483648) % 4294967296 = (y + 2147483648) % 4294967296 :=
    h.add_right 2147483648
  simp [wrap32, h1]

theorem wrap32_acc (s p : Int) : wrap32 (wrap32 s + wrap32 p) = wrap32 (s + p) :=
  wrap32_congr ((wrap32_modEq s).add (wrap32_modEq p))

theorem wrap32_zero : wrap32 0 = 0 := by decide

theorem idx?_natCast {α : Type} (v : List α) (n : Nat) : idx? v (n : Int) = v[n]? := by
  simp [idx?]

theorem read_natCast (M : Matrix) (i j : Nat) : read M (i : Int) j = entry M i j := by
  simp [read, entry, idx?_natCast]

theorem hasShape_row {M : Matrix} {r c : Nat} (h : hasShape M r c) {i : Nat} {row : List Int}
    (hi : M[i]? = some row) : row.length = c :=
  h.2 row (List.mem_iff_getElem?.2 ⟨i, hi⟩)

theorem entry_of_shape {M : Matrix} {r c : Nat} (h : hasShape M r c) {i j : Nat}
    (hi : i < r) (hj : j < c) : entry M i j = some ((M.getD i []).getD j 0) := by
  have hi2 : i < M.length := by rw [h.1]; exact hi
  have hrow : M[i]? = some M[i] := List.getElem?_eq_getElem hi2
  have hlen : (M[i]).length = c := hasShape_row h hrow
  have hj2 : j < (M[i]).length := by rw [hlen]; exact hj
  simp [entry, hrow, List.getD_eq_getElem?_getD, List.getElem?_eq_getElem hj2]

/-- Two matrices of the same shape with the same entries are equal. -/
theorem matrix_ext {M N : Matrix} {r c : Nat} (hM : hasShape M r c) (hN : hasShape N r c)
    (h : ∀ i j, i < r → j < c → entry M i j = entry N i j) : M = N := by
  apply List.ext_getElem?
  intro i
  by_cases hi : i < r
  · have hi1 : i < M.length := by rw [hM.1]; exact hi
    have hi2 : i < N.length := by rw [hN.1]; exact hi
    have h1 : M[i]? = some M[i] := List.getElem?_eq_getElem hi1
    have h2 : N[i]? = some N[i] := List.getElem?_eq_getElem hi2
    have l1 : (M[i]).length = c := hasShape_row hM h1
    have l2 : (N[i]).length = c := hasShape_row hN h2
    rw [h1, h2]
    congr 1
    apply List.ext_getElem?
    intro j
    by_cases hj : j < c
    · have := h i j hi hj
      simpa [entry, h1, h2] using this
    · have e1 : (M[i])[j]? = none := List.getElem?_eq_none (by omega)
      have e2 : (N[i])[j]? = none := List.getElem?_eq_none (by omega)
      rw [e1, e2]
  · have e1 : M[i]? = none := List.getElem?_eq_none (by rw [hM.1]; omega)
    have e2 : N[i]? = none := List.getElem?_eq_none (by rw [hN.1]; omega)
    rw [e1, e2]

/-- What a successful assignment `C[i][j] = x` leaves alone: the number of rows and
every row other than `i`. -/
theorem store_frame {C C2 : Matrix} {i : Int} {j : Nat} {x : Int}
    (h : store C i j x = some C2) :
    C2.length = C.length ∧ ∀ i2 : Nat, (i2 : Int) ≠ i → C2[i2]? = C[i2]? := by
  unfold store at h
  cases hrow : idx? C i with
  | none => simp [hrow] at h
  | some row =>
    simp only [hrow] at h
    by_cases hj : j < row.length
    · simp only [hj, if_true, Option.some.injEq] at h
      subst h
      refine ⟨List.length_set _ _ _, ?_⟩
      intro i2 hne
      have h0 : 0 ≤ i := by
        by_contra hneg
        simp [idx?, hneg] at hrow
      have : i.toNat ≠ i2 := by
        intro e
        apply hne
        rw [← e, Int.toNat_of_nonneg h0]
      exact List.getElem?_set_ne this
    · simp [hj] at h

/-- The assignment `C[i][j] = x` inside a matrix of shape `r × c`. -/
theorem store_ok {C : Matrix} {r c : Nat} (hC : hasShape C r c) {i j : Nat}
    (hi : i < r) (hj : j < c) (x : Int) :
    ∃ C2, store C (i : Int) j x = some C2 ∧ hasShape C2 r c ∧
      entry C2 i j = some x ∧ ∀ j2, j2 ≠ j → entry C2 i j2 = entry C i j2 := by
  have hi2 : i < C.length := by rw [hC.1]; exact hi
  have hrow : C[i]? = some C[i] := List.getElem?_eq_getElem hi2
  have hlen : (C[i]).length = c := hasShape_row hC hrow
  have hj2 : j < (C[i]).length := by rw [hlen]; exact hj
  refine ⟨C.set i ((C[i]).set j x), ?_, ?_, ?_, ?_⟩
  · simp [store, idx?_natCast, hrow, hj2]
  · refine ⟨by rw [List.length_set]; exact hC.1, ?_⟩
    intro row hmem
    obtain ⟨n, hn⟩ := List.mem_iff_getElem?.1 hmem
    rw [List.getElem?_set] at hn
    by_cases e : i = n
    · subst e
      rw [if_pos rfl, if_pos hi2] at hn
      cases hn
      rw [List.length_set]
      exact hlen
    · simp only [e, if_false] at hn
      exact hasShape_row hC hn
  · simp [entry, List.getElem?_set, hi2, hj2]
  · intro j2 hne
    simp [entry, List.getElem?_set, hi2, hrow, Ne.symm hne]

theorem entry_congr_row {M N : Matrix} {i : Nat} (h : M[i]? = N[i]?) (j : Nat) :
    entry M i j = entry N i j := by
  simp [entry, h]

/-! ## The loops of `worker_func` -/

theorem dot_succ (A B : Matrix) (i j k : Nat) :
    dot A B i j (k + 1) = dot A B i j k + ((A.getD i []).getD k 0) * ((B.getD k []).getD j 0) := by
  simp [dot, Finset.sum_range_succ]

/-- The accumulator after `k` iterations is the 32-bit reduction of the exact partial sum. -/
theorem sumLoop_ok {A B : Matrix} {ra ca cb : Nat} (hA : hasShape A ra ca)
    (hB : hasShape B ca cb) {i j : Nat} (hi : i < ra) (hj : j < cb) :
    ∀ k, k ≤ ca → sumLoop A B (i : Int) j k = some (wrap32 (dot A B i j k)) := by
  intro k
  induction k with
  | zero => intro _; simp [sumLoop, dot, wrap32_zero]
  | succ k ih =>
    intro hk
    have hk1 : k < ca := hk
    rw [sumLoop, ih (Nat.le_of_lt hk1), read_natCast, entry_of_shape hA hi hk1,
      entry_of_shape hB hk1 hj]
    simp only [Option.some.injEq]
    rw [dot_succ]
    apply wrap32_congr
    exact (wrap32_modEq _).add (wrap32_modEq _)

/-- What a successful run of the `j` loop leaves alone, and the assignments it makes. -/
theorem colLoop_frame {A B : Matrix} {i : Int} {ca : Nat} :
    ∀ (n : Nat) (m m2 : Mem), colLoop A B i ca n m = some m2 →
      m2.C.length = m.C.length ∧ (∀ i2 : Nat, (i2 : Int) ≠ i → m2.C[i2]? = m.C[i2]?) ∧
      m2.writes = m.writes ++ (List.range n).map (fun j => (i, j)) := by
  intro n
  induction n with
  | zero =>
    intro m m2 h
    simp only [colLoop, Option.some.injEq] at h
    subst h
    simp
  | succ n ih =>
    intro m m2 h
    rw [colLoop] at h
    cases h1 : colLoop A B i ca n m with
    | none => simp [h1] at h
    | some m1 =>
      simp only [h1] at h
      cases h2 : sumLoop A B i n ca with
      | none => simp [h2] at h
      | some sum =>
        simp only [h2] at h
        cases h3 : store m1.C i n sum with
        | none => simp [h3] at h
        | some C2 =>
          simp only [h3, Option.some.injEq] at h
          subst h
          obtain ⟨l1, f1, w1⟩ := ih m m1 h1
          obtain ⟨l2, f2⟩ := store_frame h3
          refine ⟨by simp [l2, l1], ?_, ?_⟩
          · intro i2 hne
            simp [f2 i2 hne, f1 i2 hne]
          · simp [w1, List.range_succ]

/-- The `j` loop on row `i` of well-shaped matrices runs to its end and leaves in each
column `j < n` of row `i` the 32-bit reduction of the dot product. -/
theorem colLoop_ok {A B : Matrix} {ra ca cb : Nat} (hA : hasShape A ra ca)
    (hB : hasShape B ca cb) {i : Nat} (hi : i < ra) :
    ∀ (n : Nat) (m : Mem), n ≤ cb → hasShape m.C ra cb →
      ∃ m2, colLoop A B (i : Int) ca n m = some m2 ∧ hasShape m2.C ra cb ∧
        ∀ j, j < n → entry m2.C i j = some (wrap32 (dot A B i j ca)) := by
  intro n
  induction n with
  | zero =>
    intro m _ hC
    exact ⟨m, rfl, hC, fun j hj => absurd hj (Nat.not_lt_zero j)⟩
  | succ n ih =>
    intro m hn hC
    have hn1 : n < cb := hn
    obtain ⟨m1, e1, s1, v1⟩ := ih m (Nat.le_of_lt hn1) hC
    obtain ⟨C2, e2, s2, v2, f2⟩ := store_ok s1 hi hn1 (wrap32 (dot A B i n ca))
    refine ⟨⟨C2, m1.writes ++ [((i : Int), n)]⟩, ?_, s2, ?_⟩
    · rw [colLoop, e1]
      simp only [sumLoop_ok hA hB hi hn1 ca (Nat.le_refl ca), e2]
    · intro j hj
      by_cases e : j = n
      · subst e; exact v2
      · have hj2 : j < n := by omega
        show entry C2 i j = _
        rw [f2 j e]
        exact v1 j hj2

theorem publish_C (env : Env) (total : Int) (sw : ℚ) (idx : Nat) (s : WState) :
    (publish env total sw idx s).C = s.C := rfl

theorem publish_writes (env : Env) (total : Int) (sw : ℚ) (idx : Nat) (s : WState) :
    (publish env total sw idx s).writes = s.writes := rfl

/-- One more iteration of the row loop, as an equation on the matrix and the record
of assignments. -/
theorem rowLoop_succ_mem {A B : Matrix} {env : Env} {rs total ri : Int} {ca cb : Nat} {sw : ℚ}
    {n : Nat} {s s2 : WState}
    (h : rowLoop A B env rs total ri ca cb sw (n + 1) s = some s2) :
    ∃ s1 m, rowLoop A B env rs total ri ca cb sw n s = some s1 ∧
      colLoop A B (rs + n) ca cb ⟨s1.C, s1.writes⟩ = some m ∧
      s2.C = m.C ∧ s2.writes = m.writes := by
  rw [rowLoop] at h
  cases h1 : rowLoop A B env rs total ri ca cb sw n s with
  | none => simp [h1] at h
  | some s1 =>
    simp only [h1] at h
    cases h2 : colLoop A B (rs + n) ca cb ⟨s1.C, s1.writes⟩ with
    | none => simp [h2] at h
    | some m =>
      simp only [h2] at h
      refine ⟨s1, m, rfl, h2, ?_⟩
      split at h
      · simp only [Option.some.injEq] at h
        subst h
        exact ⟨rfl, rfl⟩
      · simp only [Option.some.injEq] at h
        subst h
        exact ⟨rfl, rfl⟩

/-- What a successful run of the row loop leaves alone, and the assignments it makes. -/
theorem rowLoop_frame {A B : Matrix} {env : Env} {rs total ri : Int} {ca cb : Nat} {sw : ℚ} :
    ∀ (n : Nat) (s s2 : WState), rowLoop A B env rs total ri ca cb sw n s = some s2 →
      s2.C.length = s.C.length ∧
      (∀ i2 : Nat, ((i2 : Int) < rs ∨ rs + n ≤ i2) → s2.C[i2]? = s.C[i2]?) ∧
      s2.writes = s.writes ++ cells rs cb n := by
  intro n
  induction n with
  | zero =>
    intro s s2 h
    simp only [rowLoop, Option.some.injEq] at h
    subst h
    simp [cells]
  | succ n ih =>
    intro s s2 h
    obtain ⟨s1, m, e1, e2, hC, hW⟩ := rowLoop_succ_mem h
    obtain ⟨l1, f1, w1⟩ := ih s s1 e1
    obtain ⟨l2, f2, w2⟩ := colLoop_frame cb _ m e2
    refine ⟨by rw [hC, l2, l1], ?_, ?_⟩
    · intro i2 hi2
      rw [hC, f2 i2 (by push_cast at hi2 ⊢; omega)]
      exact f1 i2 (by push_cast at hi2 ⊢; omega)
    · rw [hW, w2]
      simp [w1, cells, List.range_succ, List.flatMap_append]

/-- The row loop over rows `rs, ..., rs + n - 1` of well-shaped matrices runs to its end
and leaves in each of these rows the 32-bit reductions of the dot products. -/
theorem rowLoop_ok {A B : Matrix} {ra ca cb : Nat} (hA : hasShape A ra ca)
    (hB : hasShape B ca cb) (env : Env) (total ri : Int) (sw : ℚ) (rs : Nat) :
    ∀ (n : Nat) (s : WState), rs + n ≤ ra → hasShape s.C ra cb →
      ∃ s2, rowLoop A B env (rs : Int) total ri ca cb sw n s = some s2 ∧ hasShape s2.C ra cb ∧
        ∀ i j, rs ≤ i → i < rs + n → j < cb →
          entry s2.C i j = some (wrap32 (dot A B i j ca)) := by
  intro n
  induction n with
  | zero =>
    intro s _ hC
    exact ⟨s, rfl, hC, fun i j h1 h2 _ => by omega⟩
  | succ n ih =>
    intro s hn hC
    obtain ⟨s1, e1, sh1, v1⟩ := ih s (by omega) hC
    have hi : rs + n < ra := by omega
    obtain ⟨m, e2, sh2, v2⟩ :=
      colLoop_ok hA hB hi cb ⟨s1.C, s1.writes⟩ (Nat.le_refl cb) sh1
    have e2b : colLoop A B ((rs : Int) + (n : Int)) ca cb ⟨s1.C, s1.writes⟩ = some m := by
      have : ((rs : Int) + (n : Int)) = ((rs + n : Nat) : Int) := by push_cast; rfl
      rw [this]; exact e2
    obtain ⟨_, f2, _⟩ := colLoop_frame cb _ m e2b
    have key : ∀ s3 : WState, s3.C = m.C →
        hasShape s3.C ra cb ∧ ∀ i j, rs ≤ i → i < rs + (n + 1) → j < cb →
          entry s3.C i j = some (wrap32 (dot A B i j ca)) := by
      intro s3 h3
      rw [h3]
      refine ⟨sh2, ?_⟩
      intro i j h1 h2 hj
      by_cases e : i = rs + n
      · subst e; exact v2 j hj
      · have hrow : m.C[i]? = s1.C[i]? := f2 i (by omega)
        rw [entry_congr_row hrow j]
        exact v1 i j h1 (by omega) hj
    rw [rowLoop, e1]
    simp only [e2b]
    split
    · exact ⟨_, rfl, key _ rfl⟩
    · exact ⟨_, rfl, key _ rfl⟩

/-- The first row of a matrix with at least one row. -/
theorem first_row {M : Matrix} {r c : Nat} (h : hasShape M r c) (hr : 1 ≤ r) :
    ∃ row, M[0]? = some row ∧ row.length = c := by
  have h0 : 0 < M.length := by rw [h.1]; exact hr
  exact ⟨M[0], List.getElem?_eq_getElem h0, hasShape_row h (List.getElem?_eq_getElem h0)⟩

/-- A worker on well-shaped matrices with a range inside `[0, rows_a)` returns, and the
rows of its range then hold the 32-bit reductions of the dot products. -/
theorem worker_ok {A B C : Matrix} {ra ca cb : Nat} (hA : hasShape A ra ca)
    (hB : hasShape B ca cb) (hC : hasShape C ra cb) (hra : 1 ≤ ra) (hca : 1 ≤ ca)
    (info : ThreadMetrics) (env : Env)
    (h0 : 0 ≤ info.row_start) (h1 : info.row_start ≤ info.row_end)
    (h2 : info.row_end ≤ (ra : Int)) :
    ∃ r, worker_func A B C info env = some r ∧ hasShape r.C ra cb ∧
      ∀ i j : Nat, info.row_start ≤ (i : Int) → (i : Int) < info.row_end → j < cb →
        entry r.C i j = some (wrap32 (dot A B i j ca)) := by
  obtain ⟨a0, ea, la⟩ := first_row hA hra
  obtain ⟨b0, eb, lb⟩ := first_row hB hca
  obtain ⟨rs, hrs⟩ := Int.eq_ofNat_of_zero_le h0
  obtain ⟨n, hn⟩ := Int.eq_ofNat_of_zero_le (sub_nonneg.2 h1)
  have hbound : rs + n ≤ ra := by omega
  have key := fun (i0 : ThreadMetrics) =>
    rowLoop_ok hA hB env (info.row_end - info.row_start)
      (max 1 (Int.tdiv (info.row_end - info.row_start) 20)) (env.wall 0) rs n
      ⟨C, i0, env.cpu 0, env.wall 0, 1, []⟩ hbound hC
  obtain ⟨s2, e, sh, v⟩ := key
    { thread_id := info.thread_id, core_id := info.core_id, row_start := info.row_start,
      row_end := info.row_end, native_tid := env.tid.getD info.native_tid,
      rows_done := info.rows_done, total_rows := info.row_end - info.row_start,
      progress := info.progress, cpu_pct := info.cpu_pct, elapsed := info.elapsed,
      total_time := info.total_time, started := true, done := info.done,
      cpu_samples := info.cpu_samples }
  refine ⟨s2, ?_, sh, ?_⟩
  · unfold worker_func
    simp only [ea, eb, la, lb]
    rw [hn, Int.toNat_ofNat, ← hn, hrs]
    rw [hrs] at e
    exact e
  · intro i j hi1 hi2 hj
    exact v i j (by omega) (by omega) hj

/-- What a returning worker leaves alone and which assignments it makes: the number of
rows of `C` is kept, every row outside `[row_start, row_end)` is kept, and the cells
assigned are those of the rows of the range, each column once, in order. -/
theorem worker_frame {A B C : Matrix} {info : ThreadMetrics} {env : Env} {r : WState}
    (h : worker_func A B C info env = some r) :
    r.C.length = C.length ∧
    (∀ i2 : Nat, ((i2 : Int) < info.row_start ∨ info.row_end ≤ (i2 : Int)) → r.C[i2]? = C[i2]?) ∧
    ∃ b0, B[0]? = some b0 ∧
      r.writes = cells info.row_start b0.length (info.row_end - info.row_start).toNat := by
  unfold worker_func at h
  cases eb : B[0]? with
  | none => simp [eb] at h
  | some b0 =>
    cases ea : A[0]? with
    | none => simp [eb, ea] at h
    | some a0 =>
      simp only [eb, ea] at h
      obtain ⟨l, f, w⟩ := rowLoop_frame _ _ _ h
      refine ⟨l, ?_, b0, rfl, by simpa using w⟩
      intro i2 hi2
      apply f i2
      omega

/-! ## The contract of one worker -/

/-- The product `[5] × [6]` computed by one worker over the single row. -/
theorem worker_one_by_one (c : Int) (info : ThreadMetrics) (env : Env)
    (h0 : info.row_start = 0) (h1 : info.row_end = 1) :
    ∃ r, worker_func [[5]] [[6]] [[c]] info env = some r ∧ r.C = [[30]] := by
  have hA : hasShape [[5]] 1 1 := by decide
  have hB : hasShape [[6]] 1 1 := by decide
  have hC : hasShape [[c]] 1 1 := by simp [hasShape]
  obtain ⟨r, e, sh, v⟩ := worker_ok hA hB hC (Nat.le_refl 1) (Nat.le_refl 1) info env
    (by rw [h0]) (by rw [h0, h1]; decide) (by rw [h1]; decide)
  refine ⟨r, e, ?_⟩
  apply matrix_ext sh (by decide : hasShape [[30]] 1 1)
  intro i j hi hj
  have hi0 : i = 0 := by omega
  have hj0 : j = 0 := by omega
  subst hi0 hj0
  rw [v 0 0 (by rw [h0]; decide) (by rw [h1]; decide) (by decide)]
  simp [dot, entry]
  decide

/-- C1. For `A` of shape `rows_a × cols_a`, `B` of shape `cols_a × cols_b`, `C` of shape
`rows_a × cols_b` and a range `0 ≤ row_start < row_end ≤ rows_a`: whenever `worker_func`
returns, every cell `C[i][j]` with `i` in the range and `j < cols_b` holds the sum over
`k < cols_a` of `A[i][k] * B[k][j]` reduced to 32 bits; the worker does return as soon as
`B` has a first row (`cols_a ≥ 1`); and the worker on `[5]`, `[6]` leaves `[30]` in `C`. -/
theorem worker_func_computes_product (A B C : Matrix) (rows_a cols_a cols_b : Nat)
    (info : ThreadMetrics) (env : Env)
    (hA : hasShape A rows_a cols_a) (hB : hasShape B cols_a cols_b)
    (hC : hasShape C rows_a cols_b)
    (h0 : 0 ≤ info.row_start) (h1 : info.row_start < info.row_end)
    (h2 : info.row_end ≤ (rows_a : Int)) :
    (∀ r, worker_func A B C info env = some r →
      ∀ i j : Nat, info.row_start ≤ (i : Int) → (i : Int) < info.row_end → j < cols_b →
        entry r.C i j = some (wrap32 (dot A B i j cols_a))) ∧
    (1 ≤ cols_a → ∃ r, worker_func A B C info env = some r) ∧
    (∀ c : Int, ∃ r, worker_func [[5]] [[6]] [[c]] { info with row_start := 0, row_end := 1 } env
        = some r ∧ r.C = [[30]]) := by
  have hra : 1 ≤ rows_a := by omega
  refine ⟨?_, ?_, ?_⟩
  · intro r hr
    obtain ⟨_, _, b0, eb, _⟩ := worker_frame hr
    have hca : 1 ≤ cols_a := by
      rw [← hB.1]
      cases B with
      | nil => simp at eb
      | cons x xs => simp
    obtain ⟨r2, e, _, v⟩ := worker_ok hA hB hC hra hca info env h0 (le_of_lt h1) h2
    rw [hr] at e
    cases e
    exact v
  · intro hca
    obtain ⟨r2, e, _, _⟩ := worker_ok hA hB hC hra hca info env h0 (le_of_lt h1) h2
    exact ⟨r2, e⟩
  · intro c
    exact worker_one_by_one c _ env rfl rfl

/-- A 2 × 3 by 3 × 2 product computed by one worker over both rows (clock readings and
thread id are irrelevant to the statement). -/
theorem worker_func_computes_product_witness :
    ∃ r, worker_func [[1, 2, 3], [4, 5, 6]] [[1, 0], [0, 1], [2, 2]] [[9, 9], [9, 9]]
        { row_start := 0, row_end := 2 } ⟨fun n => n, fun n => n, none⟩ = some r :=
  (worker_func_computes_product [[1, 2, 3], [4, 5, 6]] [[1, 0], [0, 1], [2, 2]] [[9, 9], [9, 9]]
    2 3 2 { row_start := 0, row_end := 2 } ⟨fun n => n, fun n => n, none⟩
    (by decide) (by decide) (by decide) (by decide) (by decide) (by decide)).2.1 (by decide)

/-! ## The row distribution of `main` -/

theorem cut_zero {base rem : Int} (h : 0 ≤ rem) : cut base rem 0 = 0 := by
  simp [cut, h]

theorem cut_succ (base rem : Int) (i : Nat) :
    cut base rem (i + 1) = cut base rem i + (base + (if (i : Int) < rem then 1 else 0)) := by
  unfold cut
  push_cast
  split_ifs with h
  · rw [min_eq_left (by omega : (i : Int) + 1 ≤ rem), min_eq_left (by omega : (i : Int) ≤ rem)]
    ring
  · rw [min_eq_right (by omega : rem ≤ (i : Int) + 1), min_eq_right (by omega : rem ≤ (i : Int))]
    ring

theorem cut_lt_succ {base : Int} (rem : Int) (hb : 1 ≤ base) (i : Nat) :
    cut base rem i < cut base rem (i + 1) := by
  rw [cut_succ]
  split_ifs <;> omega

theorem cut_mono {base : Int} (rem : Int) (hb : 1 ≤ base) {i j : Nat} (h : i ≤ j) :
    cut base rem i ≤ cut base rem j := by
  induction j with
  | zero =>
    have : i = 0 := by omega
    subst this
    exact le_refl _
  | succ j ih =>
    by_cases e : i = j + 1
    · subst e; exact le_refl _
    · exact le_trans (ih (by omega)) (le_of_lt (cut_lt_succ rem hb j))

theorem cut_top {base rem : Int} {T : Nat} (h : rem ≤ (T : Int)) :
    cut base rem T = (T : Int) * base + rem := by
  simp [cut, h]

theorem chunks_succ (base rem : Int) (n : Nat) :
    chunks base rem (n + 1) = chunks base rem n ++ [(cut base rem n, cut base rem (n + 1))] := by
  simp [chunks, List.range_succ]

theorem chunks_length (base rem : Int) (n : Nat) : (chunks base rem n).length = n := by
  simp [chunks]

theorem chunks_get (base rem : Int) {n i : Nat} (h : i < n) :
    (chunks base rem n)[i]? = some (cut base rem i, cut base rem (i + 1)) := by
  simp [chunks, List.getElem?_map, List.getElem?_range h]

theorem chunks_get_inv {base rem : Int} {n i : Nat} {p : Int × Int}
    (h : (chunks base rem n)[i]? = some p) :
    i < n ∧ p = (cut base rem i, cut base rem (i + 1)) := by
  have hi : i < n := by
    by_contra hn
    have : (chunks base rem n)[i]? = none :=
      List.getElem?_eq_none (by rw [chunks_length]; omega)
    rw [this] at h
    cases h
  rw [chunks_get base rem hi] at h
  cases h
  exact ⟨hi, rfl⟩

theorem chunks_mem {base rem : Int} {n : Nat} {p : Int × Int} (h : p ∈ chunks base rem n) :
    ∃ i, i < n ∧ p = (cut base rem i, cut base rem (i + 1)) := by
  obtain ⟨i, hi⟩ := List.mem_iff_getElem?.1 h
  exact ⟨i, chunks_get_inv hi⟩

/-- With at least one row per chunk, the distribution loop never skips a slot: after
`n` iterations it has produced the first `n` chunks. -/
theorem distLoop_eq {base rem : Int} (hb : 1 ≤ base) (hr : 0 ≤ rem) :
    ∀ n, distLoop base rem n = ⟨chunks base rem n, cut base rem n⟩ := by
  intro n
  induction n with
  | zero => simp [distLoop, chunks, cut_zero hr]
  | succ n ih =>
    have hpos : base + (if (n : Int) < rem then 1 else 0) > 0 := by
      split_ifs <;> omega
    rw [distLoop, ih]
    simp only [hpos, if_true]
    rw [chunks_succ, cut_succ]

/-- The partition computed by `main` for `rows_a ≥ 1` and a core count `≥ 1`: with
`T = min(core count, rows_a)`, the chunks of base size `rows_a / T` of which the first
`rows_a % T` have one more row. -/
theorem distribute_spec (hc : Nat) (rows_a : Int) (h1 : 1 ≤ rows_a) (h2 : 1 ≤ coreCount hc) :
    ∃ (T : Nat) (base rem : Int),
      (T : Int) = min (coreCount hc) rows_a ∧ 1 ≤ T ∧ 1 ≤ base ∧ 0 ≤ rem ∧ rem < (T : Int) ∧
      base = rows_a / (T : Int) ∧ rem = rows_a % (T : Int) ∧
      (T : Int) * base + rem = rows_a ∧
      distribute hc rows_a = some (chunks base rem T) := by
  have hT1 : 1 ≤ min (coreCount hc) rows_a := le_min h2 h1
  obtain ⟨T, hT⟩ := Int.eq_ofNat_of_zero_le (by omega : 0 ≤ min (coreCount hc) rows_a)
  have hTpos : (0 : Int) < (T : Int) := by omega
  have hTle : (T : Int) ≤ rows_a := by rw [← hT]; exact min_le_right _ _
  have hbase : 1 ≤ rows_a / (T : Int) := by
    apply Int.le_ediv_of_mul_le hTpos
    omega
  have hrem0 : 0 ≤ rows_a % (T : Int) := Int.emod_nonneg _ (by omega)
  have hremT : rows_a % (T : Int) < (T : Int) := Int.emod_lt_of_pos _ hTpos
  refine ⟨T, rows_a / (T : Int), rows_a % (T : Int), hT.symm, by omega, hbase, hrem0, hremT,
    rfl, rfl, Int.ediv_add_emod rows_a T, ?_⟩
  unfold distribute
  simp only [hT]
  rw [if_neg (by omega), Int.tdiv_eq_ediv (by omega) (by omega),
    Int.tmod_eq_emod (by omega) (by omega), Int.toNat_ofNat, distLoop_eq hbase hrem0]

/-- Among the first `n` chunks, the number of those containing row `r`. -/
theorem chunks_countP {base rem : Int} (hb : 1 ≤ base) (hr : 0 ≤ rem) (r : Int) :
    ∀ n, (chunks base rem n).countP (fun p => decide (p.1 ≤ r ∧ r < p.2))
      = if 0 ≤ r ∧ r < cut base rem n then 1 else 0 := by
  intro n
  induction n with
  | zero =>
    have hn : ¬ (0 ≤ r ∧ r < cut base rem 0) := by rw [cut_zero hr]; omega
    simp [chunks, hn]
  | succ n ih =>
    rw [chunks_succ, List.countP_append, ih]
    have h0 : (0 : Int) ≤ cut base rem n := by
      have := cut_mono rem hb (Nat.zero_le n)
      rwa [cut_zero hr] at this
    have h1 := cut_lt_succ rem hb n
    by_cases c1 : r < cut base rem n
    · by_cases c0 : 0 ≤ r
      · have : ¬ (cut base rem n ≤ r) := by omega
        simp [List.countP_cons, c1, c0, this, (by omega : r < cut base rem (n + 1))]
      · have : ¬ (cut base rem n ≤ r) := by omega
        simp [List.countP_cons, c0, this]
    · have c0 : 0 ≤ r := by omega
      by_cases c2 : r < cut base rem (n + 1)
      · simp [List.countP_cons, c1, c0, c2, (by omega : cut base rem n ≤ r)]
      · simp [List.countP_cons, c1, c0, c2]

/-! ## The partition contract -/

/-- C3. For `rows_a ≥ 1` and a core count `≥ 1` the list of ranges built by the
distribution loop of `main` is contiguous and covers `[0, rows_a)` exactly once: the
first range starts at `0`, each later range starts where the previous one ends, the
last range ends at `rows_a`, and every row index of `[0, rows_a)` lies in exactly one
range. -/
theorem distribution_contiguous_cover (hc : Nat) (rows_a : Int) (h1 : 1 ≤ rows_a)
    (h2 : 1 ≤ coreCount hc) :
    ∃ d, distribute hc rows_a = some d ∧
      (∃ p, d.head? = some p ∧ p.1 = 0) ∧
      (∀ i p q, d[i]? = some p → d[i + 1]? = some q → q.1 = p.2) ∧
      (∃ p, d.getLast? = some p ∧ p.2 = rows_a) ∧
      (∀ r, 0 ≤ r → r < rows_a → d.countP (fun p => decide (p.1 ≤ r ∧ r < p.2)) = 1) := by
  obtain ⟨T, base, rem, _, hT1, hb, hr0, hrT, _, _, hsum, hd⟩ := distribute_spec hc rows_a h1 h2
  have htop : cut base rem T = rows_a := by rw [cut_top (le_of_lt hrT)]; exact hsum
  refine ⟨_, hd, ?_, ?_, ?_, ?_⟩
  · refine ⟨(cut base rem 0, cut base rem (0 + 1)), ?_, cut_zero hr0⟩
    rw [List.head?_eq_getElem?]
    exact chunks_get base rem (by omega)
  · intro i p q hp hq
    obtain ⟨_, ep⟩ := chunks_get_inv hp
    obtain ⟨_, eq⟩ := chunks_get_inv hq
    rw [ep, eq]
  · refine ⟨(cut base rem (T - 1), cut base rem (T - 1 + 1)), ?_, ?_⟩
    · rw [List.getLast?_eq_getElem?, chunks_length]
      exact chunks_get base rem (by omega)
    · show cut base rem (T - 1 + 1) = rows_a
      rw [Nat.sub_add_cancel hT1]
      exact htop
  · intro r hr1 hr2
    rw [chunks_countP hb hr0 r T, htop, if_pos ⟨hr1, hr2⟩]

/-- Ten rows on three cores: the ranges are contiguous and cover `[0, 10)` exactly once. -/
theorem distribution_contiguous_cover_witness :
    ∃ d, distribute 3 10 = some d ∧
      (∃ p, d.head? = some p ∧ p.1 = 0) ∧
      (∀ i p q, d[i]? = some p → d[i + 1]? = some q → q.1 = p.2) ∧
      (∃ p, d.getLast? = some p ∧ p.2 = 10) ∧
      (∀ r, 0 ≤ r → r < 10 → d.countP (fun p => decide (p.1 ≤ r ∧ r < p.2)) = 1) :=
  distribution_contiguous_cover 3 10 (by decide) (by decide)

/-- C4. For `rows_a ≥ 1` and a core count `T ≥ 1` the number of ranges produced by the
distribution loop, and the final value of `num_threads`, is `min(T, rows_a)`. -/
theorem distribution_length (hc : Nat) (rows_a : Int) (h1 : 1 ≤ rows_a)
    (h2 : 1 ≤ coreCount hc) :
    ∃ d, distribute hc rows_a = some d ∧
      (d.length : Int) = min (coreCount hc) rows_a ∧
      final_num_threads hc rows_a = some (min (coreCount hc) rows_a) := by
  obtain ⟨T, base, rem, hT, _, _, _, _, _, _, _, hd⟩ := distribute_spec hc rows_a h1 h2
  refine ⟨_, hd, ?_, ?_⟩
  · rw [chunks_length]; exact hT
  · simp only [final_num_threads, hd, chunks_length, hT]

/-- Two rows on eight cores give two ranges; the final `num_threads` is `2`. -/
theorem distribution_length_witness :
    ∃ d, distribute 8 2 = some d ∧
      (d.length : Int) = min (coreCount 8) 2 ∧
      final_num_threads 8 2 = some (min (coreCount 8) 2) :=
  distribution_length 8 2 (by decide) (by decide)

/-- C5. For `rows_a ≥ 1` and a core count `≥ 1`, with `T = min(core count, rows_a)`, the
`i`-th range (`0 ≤ i < T`) has `rows_a / T` rows plus one more when `i < rows_a % T`, and
the ranges come in increasing row order. -/
theorem distribution_sizes (hc : Nat) (rows_a : Int) (h1 : 1 ≤ rows_a)
    (h2 : 1 ≤ coreCount hc) :
    ∃ d, distribute hc rows_a = some d ∧
      (∀ i : Nat, (i : Int) < min (coreCount hc) rows_a →
        ∃ p, d[i]? = some p ∧
          p.2 - p.1 = rows_a / min (coreCount hc) rows_a
            + (if (i : Int) < rows_a % min (coreCount hc) rows_a then 1 else 0)) ∧
      (∀ (i j : Nat) (p q : Int × Int), i < j → d[i]? = some p → d[j]? = some q → p.2 ≤ q.1) := by
  obtain ⟨T, base, rem, hT, _, hb, _, _, hbase, hrem, _, hd⟩ := distribute_spec hc rows_a h1 h2
  refine ⟨_, hd, ?_, ?_⟩
  · intro i hi
    rw [← hT] at hi ⊢
    refine ⟨_, chunks_get base rem (by omega), ?_⟩
    show cut base rem (i + 1) - cut base rem i = _
    rw [cut_succ, ← hbase, ← hrem]
    ring
  · intro i j p q hij hp hq
    obtain ⟨_, ep⟩ := chunks_get_inv hp
    obtain ⟨_, eq⟩ := chunks_get_inv hq
    rw [ep, eq]
    exact cut_mono rem hb (by omega : i + 1 ≤ j)

/-- Ten rows on four cores: sizes `10 / 4` plus one for the first `10 % 4` ranges. -/
theorem distribution_sizes_witness :
    ∃ d, distribute 4 10 = some d ∧
      (∀ i : Nat, (i : Int) < min (coreCount 4) 10 →
        ∃ p, d[i]? = some p ∧
          p.2 - p.1 = 10 / min (coreCount 4) 10
            + (if (i : Int) < 10 % min (coreCount 4) 10 then 1 else 0)) ∧
      (∀ (i j : Nat) (p q : Int × Int), i < j → d[i]? = some p → d[j]? = some q → p.2 ≤ q.1) :=
  distribution_sizes 4 10 (by decide) (by decide)

/-- The size of every chunk is `base` or `base + 1`. -/
theorem chunks_size {base rem : Int} {n : Nat} {p : Int × Int} (h : p ∈ chunks base rem n) :
    p.2 - p.1 = base ∨ p.2 - p.1 = base + 1 := by
  obtain ⟨i, _, e⟩ := chunks_mem h
  rw [e]
  show cut base rem (i + 1) - cut base rem i = base ∨ cut base rem (i + 1) - cut base rem i = base + 1
  rw [cut_succ]
  split_ifs
  · right; ring
  · left; ring

/-- C6. For `rows_a ≥ 1` and a core count `≥ 1` the sizes `row_end - row_start` of any
two ranges of the partition differ by at most `1`. -/
theorem distribution_balanced (hc : Nat) (rows_a : Int) (h1 : 1 ≤ rows_a)
    (h2 : 1 ≤ coreCount hc) :
    ∃ d, distribute hc rows_a = some d ∧
      ∀ p ∈ d, ∀ q ∈ d, |(p.2 - p.1) - (q.2 - q.1)| ≤ 1 := by
  obtain ⟨T, base, rem, _, _, _, _, _, _, _, _, hd⟩ := distribute_spec hc rows_a h1 h2
  refine ⟨_, hd, ?_⟩
  intro p hp q hq
  rw [abs_le]
  rcases chunks_size hp with e1 | e1 <;> rcases chunks_size hq with e2 | e2 <;>
    rw [e1, e2] <;> constructor <;> omega

/-- Eleven rows on four cores: any two range sizes differ by at most one. -/
theorem distribution_balanced_witness :
    ∃ d, distribute 4 11 = some d ∧
      ∀ p ∈ d, ∀ q ∈ d, |(p.2 - p.1) - (q.2 - q.1)| ≤ 1 :=
  distribution_balanced 4 11 (by decide) (by decide)

theorem make_metrics_mem {m : ThreadMetrics} :
    ∀ (d : List (Int × Int)) (i : Nat), m ∈ make_metrics i d →
      ∃ p ∈ d, m.row_start = p.1 ∧ m.row_end = p.2 := by
  intro d
  induction d with
  | nil => intro i h; simp [make_metrics] at h
  | cons p ps ih =>
    intro i h
    simp only [make_metrics, List.mem_cons] at h
    rcases h with h | h
    · exact ⟨p, List.mem_cons_self _ _, by rw [h], by rw [h]⟩
    · obtain ⟨q, hq, e⟩ := ih (i + 1) h
      exact ⟨q, List.mem_cons_of_mem _ hq, e⟩

/-- C7. For `rows_a ≥ 1` and a core count `≥ 1` every range of the partition is
non-empty (`row_start < row_end`), and so is the range of every metrics record
created from it: no worker has zero rows. -/
theorem distribution_nonempty (hc : Nat) (rows_a : Int) (h1 : 1 ≤ rows_a)
    (h2 : 1 ≤ coreCount hc) :
    ∃ d, distribute hc rows_a = some d ∧ (∀ p ∈ d, p.1 < p.2) ∧
      ∀ m ∈ make_metrics 0 d, m.row_start < m.row_end := by
  obtain ⟨T, base, rem, _, _, hb, _, _, _, _, _, hd⟩ := distribute_spec hc rows_a h1 h2
  have key : ∀ p ∈ chunks base rem T, p.1 < p.2 := by
    intro p hp
    obtain ⟨i, _, e⟩ := chunks_mem hp
    rw [e]
    exact cut_lt_succ rem hb i
  refine ⟨_, hd, key, ?_⟩
  intro m hm
  obtain ⟨p, hp, e1, e2⟩ := make_metrics_mem _ _ hm
  rw [e1, e2]
  exact key p hp

/-- Three rows on sixteen cores: every range and every worker record is non-empty. -/
theorem distribution_nonempty_witness :
    ∃ d, distribute 16 3 = some d ∧ (∀ p ∈ d, p.1 < p.2) ∧
      ∀ m ∈ make_metrics 0 d, m.row_start < m.row_end :=
  distribution_nonempty 16 3 (by decide) (by decide)

/-- C8. When the core count is at least `rows_a ≥ 1` the partition has exactly `rows_a`
ranges and the `i`-th is `[i, i + 1)`: one row per worker. For `rows_a = 2` and 8 cores
the ranges are `[0, 1)` and `[1, 2)`. -/
theorem distribution_one_row_each (hc : Nat) (rows_a : Int) (h1 : 1 ≤ rows_a)
    (h2 : rows_a ≤ coreCount hc) :
    (∃ d, distribute hc rows_a = some d ∧ (d.length : Int) = rows_a ∧
      ∀ i : Nat, (i : Int) < rows_a → d[i]? = some ((i : Int), (i : Int) + 1)) ∧
    distribute 8 2 = some [(0, 1), (1, 2)] := by
  refine ⟨?_, by decide⟩
  obtain ⟨T, base, rem, hT, _, _, _, _, hbase, hrem, _, hd⟩ :=
    distribute_spec hc rows_a h1 (le_trans h1 h2)
  have hTr : (T : Int) = rows_a := by rw [hT]; exact min_eq_right h2
  have hb1 : base = 1 := by rw [hbase, hTr]; exact Int.ediv_self (by omega)
  have hr0 : rem = 0 := by rw [hrem, hTr]; exact Int.emod_self
  refine ⟨_, hd, by rw [chunks_length]; exact hTr, ?_⟩
  intro i hi
  rw [chunks_get base rem (by omega), hb1, hr0]
  simp [cut]
  omega

/-- Five rows on five or more cores (here 12): five ranges of one row. -/
theorem distribution_one_row_each_witness :
    (∃ d, distribute 12 5 = some d ∧ (d.length : Int) = 5 ∧
      ∀ i : Nat, (i : Int) < 5 → d[i]? = some ((i : Int), (i : Int) + 1)) ∧
    distribute 8 2 = some [(0, 1), (1, 2)] :=
  distribution_one_row_each 12 5 (by decide) (by decide)

/-! ## The sequential `multiply` -/

/-- The assignment `C[i][j] = x` inside a matrix of shape `r × c`, with its effect on
every entry. -/
theorem store_entries {C : Matrix} {r c : Nat} (hC : hasShape C r c) {i j : Nat}
    (hi : i < r) (hj : j < c) (x : Int) :
    ∃ C2, store C (i : Int) j x = some C2 ∧ hasShape C2 r c ∧
      entry C2 i j = some x ∧
      ∀ i2 j2, (i2 ≠ i ∨ j2 ≠ j) → entry C2 i2 j2 = entry C i2 j2 := by
  obtain ⟨C2, e, sh, v, f⟩ := store_ok hC hi hj x
  obtain ⟨_, fr⟩ := store_frame e
  refine ⟨C2, e, sh, v, ?_⟩
  intro i2 j2 h
  by_cases hi2 : i2 = i
  · subst hi2
    rcases h with h | h
    · exact absurd rfl h
    · exact f j2 h
  · exact entry_congr_row (fr i2 (by omega)) j2

/-- The `k` loop of `multiply` on a cell that starts at `0`. -/
theorem mulK_ok {A B : Matrix} {ra ca cb : Nat} (hA : hasShape A ra ca)
    (hB : hasShape B ca cb) {i j : Nat} (hi : i < ra) (hj : j < cb) {C : Matrix}
    (hC : hasShape C ra cb) (hz : entry C i j = some 0) :
    ∀ k, k ≤ ca → ∃ C2, mulK A B i j k C = some C2 ∧ hasShape C2 ra cb ∧
      entry C2 i j = some (wrap32 (dot A B i j k)) ∧
      ∀ i2 j2, (i2 ≠ i ∨ j2 ≠ j) → entry C2 i2 j2 = entry C i2 j2 := by
  intro k
  induction k with
  | zero =>
    intro _
    exact ⟨C, rfl, hC, by simp [dot, wrap32_zero, hz], fun _ _ _ => rfl⟩
  | succ k ih =>
    intro hk
    have hk1 : k < ca := hk
    obtain ⟨C1, e1, sh1, v1, f1⟩ := ih (Nat.le_of_lt hk1)
    obtain ⟨C2, e2, sh2, v2, f2⟩ := store_entries sh1 hi hj
      (wrap32 (wrap32 (dot A B i j k)
        + wrap32 (((A.getD i []).getD k 0) * ((B.getD k []).getD j 0))))
    refine ⟨C2, ?_, sh2, ?_, ?_⟩
    · rw [mulK, e1]
      simp only [entry_of_shape hA hi hk1, entry_of_shape hB hk1 hj, v1]
      exact e2
    · rw [v2, dot_succ, wrap32_acc]
    · intro i2 j2 h
      rw [f2 i2 j2 h, f1 i2 j2 h]

/-- The `j` loop of `multiply` on a row that starts zeroed. -/
theorem mulJ_ok {A B : Matrix} {ra ca cb : Nat} (hA : hasShape A ra ca)
    (hB : hasShape B ca cb) {i : Nat} (hi : i < ra) {C : Matrix}
    (hC : hasShape C ra cb) (hz : ∀ j, j < cb → entry C i j = some 0) :
    ∀ n, n ≤ cb → ∃ C2, mulJ A B i ca n C = some C2 ∧ hasShape C2 ra cb ∧
      (∀ j, j < n → entry C2 i j = some (wrap32 (dot A B i j ca))) ∧
      ∀ i2 j2, (i2 ≠ i ∨ n ≤ j2) → entry C2 i2 j2 = entry C i2 j2 := by
  intro n
  induction n with
  | zero =>
    intro _
    exact ⟨C, rfl, hC, fun j hj => absurd hj (Nat.not_lt_zero j), fun _ _ _ => rfl⟩
  | succ n ih =>
    intro hn
    have hn1 : n < cb := hn
    obtain ⟨C1, e1, sh1, v1, f1⟩ := ih (Nat.le_of_lt hn1)
    have hz1 : entry C1 i n = some 0 := by
      rw [f1 i n (Or.inr (Nat.le_refl n))]
      exact hz n hn1
    obtain ⟨C2, e2, sh2, v2, f2⟩ := mulK_ok hA hB hi hn1 sh1 hz1 ca (Nat.le_refl ca)
    refine ⟨C2, ?_, sh2, ?_, ?_⟩
    · rw [mulJ, e1]
      exact e2
    · intro j hj
      by_cases e : j = n
      · subst e; exact v2
      · rw [f2 i j (Or.inr e)]
        exact v1 j (by omega)
    · intro i2 j2 h
      rw [f2 i2 j2 (by omega), f1 i2 j2 (by omega)]

/-- The `i` loop of `multiply` on a matrix that starts zeroed. -/
theorem mulI_ok {A B : Matrix} {ra ca cb : Nat} (hA : hasShape A ra ca)
    (hB : hasShape B ca cb) {C : Matrix} (hC : hasShape C ra cb)
    (hz : ∀ i j, i < ra → j < cb → entry C i j = some 0) :
    ∀ n, n ≤ ra → ∃ C2, mulI A B ca cb n C = some C2 ∧ hasShape C2 ra cb ∧
      (∀ i j, i < n → j < cb → entry C2 i j = some (wrap32 (dot A B i j ca))) ∧
      ∀ i2 j2, n ≤ i2 → entry C2 i2 j2 = entry C i2 j2 := by
  intro n
  induction n with
  | zero =>
    intro _
    exact ⟨C, rfl, hC, fun i j hi _ => absurd hi (Nat.not_lt_zero i), fun _ _ _ => rfl⟩
  | succ n ih =>
    intro hn
    have hn1 : n < ra := hn
    obtain ⟨C1, e1, sh1, v1, f1⟩ := ih (Nat.le_of_lt hn1)
    have hz1 : ∀ j, j < cb → entry C1 n j = some 0 := by
      intro j hj
      rw [f1 n j (Nat.le_refl n)]
      exact hz n j hn1 hj
    obtain ⟨C2, e2, sh2, v2, f2⟩ := mulJ_ok hA hB hn1 sh1 hz1 cb (Nat.le_refl cb)
    refine ⟨C2, ?_, sh2, ?_, ?_⟩
    · rw [mulI, e1]
      exact e2
    · intro i j hi hj
      by_cases e : i = n
      · subst e; exact v2 j hj
      · rw [f2 i j (Or.inl e)]
        exact v1 i j (by omega) hj
    · intro i2 j2 h
      rw [f2 i2 j2 (Or.inl (by omega)), f1 i2 j2 (by omega)]

/-- The zero matrix allocated by `Matrix C(r, std::vector<int>(c, 0))`. -/
theorem zeros_shape (r c : Nat) :
    hasShape (List.replicate r (List.replicate c (0 : Int))) r c := by
  refine ⟨List.length_replicate _ _, ?_⟩
  intro row hrow
  rw [List.eq_of_mem_replicate hrow, List.length_replicate]

theorem zeros_entry {r c i j : Nat} (hi : i < r) (hj : j < c) :
    entry (List.replicate r (List.replicate c (0 : Int))) i j = some 0 := by
  simp [entry, List.getElem?_replicate, hi, hj]

/-- The function `multiply` on well-shaped non-empty operands returns the `rows_a × cols_b` matrix of
the 32-bit reductions of the dot products. -/
theorem multiply_ok {A B : Matrix} {ra ca cb : Nat} (hA : hasShape A ra ca)
    (hB : hasShape B ca cb) (hra : 1 ≤ ra) (hca : 1 ≤ ca) :
    ∃ Cm, multiply A B = some Cm ∧ hasShape Cm ra cb ∧
      ∀ i j, i < ra → j < cb → entry Cm i j = some (wrap32 (dot A B i j ca)) := by
  obtain ⟨a0, ea, la⟩ := first_row hA hra
  obtain ⟨b0, eb, lb⟩ := first_row hB hca
  obtain ⟨C2, e, sh, v, _⟩ := mulI_ok hA hB (zeros_shape ra cb)
    (fun i j hi hj => zeros_entry hi hj) ra (Nat.le_refl ra)
  refine ⟨C2, ?_, sh, v⟩
  unfold multiply
  simp only [ea, eb, la, lb, hA.1]
  exact e

/-! ## Running the workers of a partition -/

theorem make_metrics_get :
    ∀ (d : List (Int × Int)) (k t : Nat) (p : Int × Int), d[t]? = some p →
      ∃ info, (make_metrics k d)[t]? = some info ∧ info.row_start = p.1 ∧ info.row_end = p.2 := by
  intro d
  induction d with
  | nil => intro k t p h; simp at h
  | cons q qs ih =>
    intro k t p h
    cases t with
    | zero =>
      simp only [List.getElem?_cons_zero, Option.some.injEq] at h
      subst h
      refine ⟨{ thread_id := k, core_id := k, row_start := q.1, row_end := q.2 }, ?_, rfl, rfl⟩
      simp [make_metrics]
    | succ t =>
      simp only [List.getElem?_cons_succ] at h
      obtain ⟨info, e, r⟩ := ih (k + 1) t p h
      exact ⟨info, by simpa [make_metrics] using e, r⟩

theorem make_metrics_length : ∀ (d : List (Int × Int)) (k : Nat),
    (make_metrics k d).length = d.length := by
  intro d
  induction d with
  | nil => intro k; rfl
  | cons q qs ih => intro k; simp [make_metrics, ih]

theorem carries_make_metrics {d : List (Int × Int)} {t : Nat} (h : t < d.length) :
    carries d (make_metrics 0 d) t := by
  obtain ⟨info, e, r1, r2⟩ := make_metrics_get d 0 t d[t] (List.getElem?_eq_getElem h)
  exact ⟨info, d[t], e, List.getElem?_eq_getElem h, r1, r2⟩

theorem carries_set {d : List (Int × Int)} {ms : List ThreadMetrics} {t t2 : Nat}
    (hne : t2 ≠ t) (x : ThreadMetrics) (h : carries d ms t2) : carries d (ms.set t x) t2 := by
  obtain ⟨info, p, e1, e2, r⟩ := h
  exact ⟨info, p, by rw [List.getElem?_set_ne (Ne.symm hne)]; exact e1, e2, r⟩

/-- A returning worker thread, taken apart. -/
theorem run_thread_some {envs : Nat → Env} {w w1 : World} {t : Nat}
    (h : run_thread envs w t = some w1) :
    ∃ info r, w.metrics[t]? = some info ∧ worker_func w.A w.B w.C info (envs t) = some r ∧
      w1.A = w.A ∧ w1.B = w.B ∧ w1.C = r.C ∧ w1.metrics = w.metrics.set t r.info ∧
      w1.log = w.log ++ r.writes.map (fun c => (t, c.1, c.2)) := by
  unfold run_thread at h
  cases e1 : w.metrics[t]? with
  | none => simp [e1] at h
  | some info =>
    simp only [e1] at h
    cases e2 : worker_func w.A w.B w.C info (envs t) with
    | none => simp [e2] at h
    | some r =>
      simp only [e2, Option.some.injEq] at h
      subst h
      exact ⟨info, r, rfl, e2, rfl, rfl, rfl, rfl, rfl⟩

theorem run_thread_of_worker {envs : Nat → Env} {w : World} {t : Nat} {info : ThreadMetrics}
    {r : WState} (e1 : w.metrics[t]? = some info)
    (e2 : worker_func w.A w.B w.C info (envs t) = some r) :
    run_thread envs w t = some { w with
        C := r.C
        metrics := w.metrics.set t r.info
        log := w.log ++ r.writes.map (fun c => (t, c.1, c.2)) } := by
  unfold run_thread
  simp only [e1, e2]

theorem covers_cons {d : List (Int × Int)} {t : Nat} {ts : List Nat} {i : Nat} :
    covers d (t :: ts) i ↔
      (∃ p, d[t]? = some p ∧ p.1 ≤ (i : Int) ∧ (i : Int) < p.2) ∨ covers d ts i := by
  simp [covers]

/-- Running the listed workers (each at most once) on well-shaped matrices: all of them
return; afterwards every row covered by one of them holds the products and every other
row is as before. -/
theorem run_threads_ok {ra ca cb : Nat} (hra : 1 ≤ ra) (hca : 1 ≤ ca)
    {d : List (Int × Int)} (hd : ∀ p ∈ d, 0 ≤ p.1 ∧ p.1 ≤ p.2 ∧ p.2 ≤ (ra : Int))
    (envs : Nat → Env) :
    ∀ (ts : List Nat) (w : World), ts.Nodup → hasShape w.A ra ca → hasShape w.B ca cb →
      hasShape w.C ra cb → (∀ t ∈ ts, carries d w.metrics t) →
      ∃ w2, run_threads envs w ts = some w2 ∧ hasShape w2.C ra cb ∧
        (∀ i : Nat, covers d ts i → ∀ j, j < cb →
          entry w2.C i j = some (wrap32 (dot w.A w.B i j ca))) ∧
        (∀ i : Nat, ¬ covers d ts i → w2.C[i]? = w.C[i]?) := by
  intro ts
  induction ts with
  | nil =>
    intro w _ _ _ hC _
    refine ⟨w, rfl, hC, ?_, fun _ _ => rfl⟩
    intro i hc
    obtain ⟨t, ht, _⟩ := hc
    cases ht
  | cons t ts ih =>
    intro w hnd hA hB hC hcar
    obtain ⟨hnot, hnd2⟩ := List.nodup_cons.1 hnd
    obtain ⟨info, p, e1, e2, r1, r2⟩ := hcar t (List.mem_cons_self _ _)
    obtain ⟨hp0, hp1, hp2⟩ := hd p (List.mem_iff_getElem?.2 ⟨t, e2⟩)
    obtain ⟨r, er, shr, vr⟩ := worker_ok hA hB hC hra hca info (envs t)
      (by rw [r1]; exact hp0) (by rw [r1, r2]; exact hp1) (by rw [r2]; exact hp2)
    obtain ⟨_, fr, _⟩ := worker_frame er
    have hrun := run_thread_of_worker e1 er
    have hcar2 : ∀ t2 ∈ ts, carries d (w.metrics.set t r.info) t2 := by
      intro t2 ht2
      have hne : t2 ≠ t := by
        intro e; subst e; exact hnot ht2
      exact carries_set hne _ (hcar t2 (List.mem_cons_of_mem _ ht2))
    obtain ⟨w2, e3, sh2, v2, f2⟩ := ih
      { w with
        C := r.C
        metrics := w.metrics.set t r.info
        log := w.log ++ r.writes.map (fun c => (t, c.1, c.2)) } hnd2 hA hB shr hcar2
    refine ⟨w2, ?_, sh2, ?_, ?_⟩
    · rw [run_threads, hrun]
      exact e3
    · intro i hc j hj
      by_cases hts : covers d ts i
      · exact v2 i hts j hj
      · rw [entry_congr_row (f2 i hts) j]
        rcases covers_cons.1 hc with ⟨q, eq, hq1, hq2⟩ | hc2
        · rw [e2] at eq
          cases eq
          exact vr i j (by rw [r1]; exact hq1) (by rw [r2]; exact hq2) hj
        · exact absurd hc2 hts
    · intro i hc
      have hts : ¬ covers d ts i := fun h => hc (covers_cons.2 (Or.inr h))
      rw [f2 i hts]
      apply fr i
      rw [r1, r2]
      by_contra hcon
      apply hc
      apply covers_cons.2
      left
      exact ⟨p, e2, by omega, by omega⟩

theorem chunks_within {base rem : Int} (hb : 1 ≤ base) (hr : 0 ≤ rem) {n : Nat}
    {p : Int × Int} (h : p ∈ chunks base rem n) :
    0 ≤ p.1 ∧ p.1 < p.2 ∧ p.2 ≤ cut base rem n := by
  obtain ⟨i, hi, e⟩ := chunks_mem h
  rw [e]
  refine ⟨?_, cut_lt_succ rem hb i, cut_mono rem hb (by omega : i + 1 ≤ n)⟩
  have := cut_mono rem hb (Nat.zero_le i)
  rwa [cut_zero hr] at this

/-- Every row below `cut n` lies in one of the first `n` chunks. -/
theorem chunks_cover {base rem : Int} (hr : 0 ≤ rem) (r : Int) (h0 : 0 ≤ r) :
    ∀ n, r < cut base rem n → ∃ t, t < n ∧ cut base rem t ≤ r ∧ r < cut base rem (t + 1) := by
  intro n
  induction n with
  | zero =>
    intro h
    rw [cut_zero hr] at h
    omega
  | succ n ih =>
    intro h
    by_cases c : r < cut base rem n
    · obtain ⟨t, ht, h1, h2⟩ := ih c
      exact ⟨t, by omega, h1, h2⟩
    · exact ⟨n, by omega, by omega, h⟩

/-- A row cannot lie in two different chunks. -/
theorem chunks_disjoint {base rem : Int} (hb : 1 ≤ base) {r : Int} {t t2 : Nat}
    (h1 : cut base rem t ≤ r) (h2 : r < cut base rem (t + 1))
    (h3 : cut base rem t2 ≤ r) (h4 : r < cut base rem (t2 + 1)) : t = t2 := by
  by_contra hne
  rcases Nat.lt_or_gt_of_ne hne with h | h
  · have := cut_mono rem hb (by omega : t + 1 ≤ t2)
    omega
  · have := cut_mono rem hb (by omega : t2 + 1 ≤ t)
    omega

/-- The state of `main` before the workers are launched, for `rows_a ≥ 1`, `cols_b ≥ 0`
and a core count `≥ 1`. -/
theorem main_setup_spec (A B : Matrix) (ra cb hc : Nat) (h1 : 1 ≤ ra) (h2 : 1 ≤ coreCount hc) :
    ∃ (T : Nat) (base rem : Int), 1 ≤ base ∧ 0 ≤ rem ∧ cut base rem T = (ra : Int) ∧
      distribute hc (ra : Int) = some (chunks base rem T) ∧
      main_setup A B (ra : Int) (cb : Int) hc = some
        ⟨A, B, List.replicate ra (List.replicate cb 0), make_metrics 0 (chunks base rem T), []⟩ := by
  obtain ⟨T, base, rem, _, _, hb, hr0, hrT, _, _, hsum, hd⟩ :=
    distribute_spec hc (ra : Int) (by omega) h2
  refine ⟨T, base, rem, hb, hr0, by rw [cut_top (le_of_lt hrT)]; exact hsum, hd, ?_⟩
  have hdim : (0 : Int) ≤ (ra : Int) ∧ (0 : Int) ≤ (cb : Int) := ⟨by omega, by omega⟩
  rw [main_setup, hd]
  simp only [if_pos hdim, Int.toNat_ofNat]

/-- The workers of the partition, run in any order on the zeroed `C`, all return and
leave in `C` the matrix of the 32-bit reductions of the dot products. -/
theorem parallel_run (A B : Matrix) (ra ca cb hc : Nat) (envs : Nat → Env)
    (hA : hasShape A ra ca) (hB : hasShape B ca cb)
    (h1 : 1 ≤ ra) (h2 : 1 ≤ ca) (h4 : 1 ≤ coreCount hc) :
    ∃ w0, main_setup A B (ra : Int) (cb : Int) hc = some w0 ∧
      ∀ order : List Nat, order.Perm (List.range w0.metrics.length) →
        ∃ w, run_threads envs w0 order = some w ∧ hasShape w.C ra cb ∧
          ∀ i j, i < ra → j < cb → entry w.C i j = some (wrap32 (dot A B i j ca)) := by
  obtain ⟨T, base, rem, hb, hr0, htop, _, hset⟩ := main_setup_spec A B ra cb hc h1 h4
  refine ⟨_, hset, ?_⟩
  intro order hperm
  simp only [make_metrics_length, chunks_length] at hperm
  have hnd : order.Nodup := hperm.symm.nodup (List.nodup_range T)
  have hd : ∀ p ∈ chunks base rem T, 0 ≤ p.1 ∧ p.1 ≤ p.2 ∧ p.2 ≤ (ra : Int) := by
    intro p hp
    obtain ⟨a, b, c⟩ := chunks_within hb hr0 hp
    exact ⟨a, le_of_lt b, by rw [← htop]; exact c⟩
  have hcar : ∀ t ∈ order, carries (chunks base rem T) (make_metrics 0 (chunks base rem T)) t := by
    intro t ht
    have : t < T := List.mem_range.1 ((hperm.mem_iff).1 ht)
    exact carries_make_metrics (by rw [chunks_length]; exact this)
  obtain ⟨w, e, sh, v, _⟩ := run_threads_ok h1 h2 hd envs order
    ⟨A, B, List.replicate ra (List.replicate cb 0), make_metrics 0 (chunks base rem T), []⟩
    hnd hA hB (zeros_shape ra cb) hcar
  refine ⟨w, e, sh, ?_⟩
  intro i j hi hj
  apply v i _ j hj
  obtain ⟨t, ht, c1, c2⟩ := chunks_cover hr0 (i : Int) (by omega) T (by rw [htop]; omega)
  exact ⟨t, (hperm.mem_iff).2 (List.mem_range.2 ht), _, chunks_get base rem ht, c1, c2⟩

/-- C2. For `A` and `B` of compatible shape with `rows_a, cols_a, cols_b ≥ 1` and a core
count `≥ 1`: `main` sets up the partition and the zeroed `C`, `multiply(A, B)` of MMS.cpp
returns a matrix, and running `worker_func` once for each range, in any order, returns
and leaves in `C` exactly that matrix. For `A = [[1,2],[3,4]]`, `B = [[5,6],[7,8]]` the
result is `[[19,22],[43,50]]` for every core count and every order. -/
theorem parallel_equals_sequential (A B : Matrix) (rows_a cols_a cols_b hc : Nat)
    (envs : Nat → Env) (hA : hasShape A rows_a cols_a) (hB : hasShape B cols_a cols_b)
    (h1 : 1 ≤ rows_a) (h2 : 1 ≤ cols_a) (_h3 : 1 ≤ cols_b) (h4 : 1 ≤ coreCount hc) :
    (∃ w0 Cm, main_setup A B (rows_a : Int) (cols_b : Int) hc = some w0 ∧
      multiply A B = some Cm ∧
      ∀ order : List Nat, order.Perm (List.range w0.metrics.length) →
        ∃ w, run_threads envs w0 order = some w ∧ w.C = Cm) ∧
    (∀ cores : Nat, 1 ≤ coreCount cores →
      ∃ w0, main_setup [[1, 2], [3, 4]] [[5, 6], [7, 8]] 2 2 cores = some w0 ∧
        ∀ order : List Nat, order.Perm (List.range w0.metrics.length) →
          ∃ w, run_threads envs w0 order = some w ∧ w.C = [[19, 22], [43, 50]]) := by
  have general : ∀ (A B : Matrix) (ra ca cb hc : Nat), hasShape A ra ca → hasShape B ca cb →
      1 ≤ ra → 1 ≤ ca → 1 ≤ coreCount hc →
      ∃ w0 Cm, main_setup A B (ra : Int) (cb : Int) hc = some w0 ∧ multiply A B = some Cm ∧
        ∀ order : List Nat, order.Perm (List.range w0.metrics.length) →
          ∃ w, run_threads envs w0 order = some w ∧ w.C = Cm := by
    intro A B ra ca cb hc hA hB h1 h2 h4
    obtain ⟨w0, e0, hrun⟩ := parallel_run A B ra ca cb hc envs hA hB h1 h2 h4
    obtain ⟨Cm, em, shm, vm⟩ := multiply_ok hA hB h1 h2
    refine ⟨w0, Cm, e0, em, ?_⟩
    intro order hperm
    obtain ⟨w, e, sh, v⟩ := hrun order hperm
    refine ⟨w, e, matrix_ext sh shm ?_⟩
    intro i j hi hj
    rw [v i j hi hj, vm i j hi hj]
  refine ⟨general A B rows_a cols_a cols_b hc hA hB h1 h2 h4, ?_⟩
  intro cores hcores
  obtain ⟨w0, Cm, e0, em, hrun⟩ := general [[1, 2], [3, 4]] [[5, 6], [7, 8]] 2 2 2 cores
    (by decide) (by decide) (by decide) (by decide) hcores
  have hCm : Cm = [[19, 22], [43, 50]] := by
    have : multiply [[1, 2], [3, 4]] [[5, 6], [7, 8]] = some [[19, 22], [43, 50]] := by decide
    rw [this] at em
    cases em
    rfl
  rw [hCm] at hrun
  exact ⟨w0, e0, hrun⟩

/-- A 2 × 3 by 3 × 2 product on two cores: the workers, in any order, reproduce
`multiply`. -/
theorem parallel_equals_sequential_witness :
    ∃ w0 Cm, main_setup [[1, 2, 3], [4, 5, 6]] [[1, 0], [0, 1], [2, 2]] 2 2 2 = some w0 ∧
      multiply [[1, 2, 3], [4, 5, 6]] [[1, 0], [0, 1], [2, 2]] = some Cm ∧
      ∀ order : List Nat, order.Perm (List.range w0.metrics.length) →
        ∃ w, run_threads (fun _ => ⟨fun n => n, fun n => n, none⟩) w0 order = some w ∧ w.C = Cm :=
  (parallel_equals_sequential [[1, 2, 3], [4, 5, 6]] [[1, 0], [0, 1], [2, 2]] 2 3 2 2
    (fun _ => ⟨fun n => n, fun n => n, none⟩)
    (by decide) (by decide) (by decide) (by decide) (by decide) (by decide)).1

/-! ## The write regions -/

theorem count_row_cells (x y : Int) (j cb : Nat) :
    List.count (x, j) ((List.range cb).map (fun j2 => (y, j2)))
      = if x = y ∧ j < cb then 1 else 0 := by
  induction cb with
  | zero => simp
  | succ n ih =>
    rw [List.range_succ, List.map_append, List.count_append, ih]
    simp only [List.map_cons, List.map_nil, List.count_singleton, beq_iff_eq, Prod.mk.injEq]
    by_cases hx : x = y
    · by_cases hj : j < n
      · rw [if_pos ⟨hx, hj⟩, if_neg (by omega), if_pos ⟨hx, by omega⟩]
      · by_cases hjn : j = n
        · rw [if_neg (fun h => hj h.2), if_pos ⟨hx.symm, hjn.symm⟩, if_pos ⟨hx, by omega⟩]
        · rw [if_neg (fun h => hj h.2), if_neg (fun h => hjn h.2.symm),
            if_neg (fun h => by have := h.2; omega)]
    · rw [if_neg (fun h => hx h.1), if_neg (fun h => hx h.1.symm), if_neg (fun h => hx h.1)]

theorem count_map_tag (t : Nat) (x : Int) (j : Nat) (l : List (Int × Nat)) :
    List.count (t, x, j) (l.map (fun c => (t, c.1, c.2))) = List.count (x, j) l := by
  induction l with
  | nil => simp
  | cons c cs ih =>
    rw [List.map_cons, List.count_cons, List.count_cons, ih]
    simp only [beq_iff_eq, Prod.mk.injEq, true_and, Prod.ext_iff]

/-- How often a cell occurs among the assignments of one worker. -/
theorem count_cells (rs x : Int) (j cb : Nat) :
    ∀ n : Nat, List.count (x, j) (cells rs cb n)
      = if rs ≤ x ∧ x < rs + (n : Int) ∧ j < cb then 1 else 0 := by
  intro n
  induction n with
  | zero =>
    have : ¬ (rs ≤ x ∧ x < rs + ((0 : Nat) : Int) ∧ j < cb) := by
      intro h; have := h.1; have := h.2.1; omega
    rw [if_neg this]
    simp [cells]
  | succ n ih =>
    have hsplit : cells rs cb (n + 1)
        = cells rs cb n ++ (List.range cb).map (fun j2 => (rs + (n : Int), j2)) := by
      simp [cells, List.range_succ, List.flatMap_append]
    rw [hsplit, List.count_append, ih, count_row_cells]
    split_ifs <;> omega

theorem threadCells_tag {d : List (Int × Int)} {cb t : Nat} {e : Nat × Int × Nat}
    (h : e ∈ threadCells d cb t) : e.1 = t := by
  unfold threadCells at h
  cases hd : d[t]? with
  | none => simp [hd] at h
  | some p =>
    simp only [hd] at h
    obtain ⟨c, _, ec⟩ := List.mem_map.1 h
    rw [← ec]

theorem count_threadCells {d : List (Int × Int)} {cb t : Nat} {p : Int × Int}
    (hd : d[t]? = some p) (x : Int) (j : Nat) :
    List.count (t, x, j) (threadCells d cb t)
      = if p.1 ≤ x ∧ x < p.1 + ((p.2 - p.1).toNat : Int) ∧ j < cb then 1 else 0 := by
  unfold threadCells
  simp only [hd]
  rw [count_map_tag, count_cells]

/-- In the joint record of workers run at most once each, an assignment tagged `t2` can
only come from worker `t2`. -/
theorem count_flatMap_threadCells (d : List (Int × Int)) (cb t2 : Nat) (c : Int × Nat) :
    ∀ order : List Nat, order.Nodup →
      List.count (t2, c) (order.flatMap (threadCells d cb))
        = if t2 ∈ order then List.count (t2, c) (threadCells d cb t2) else 0 := by
  intro order
  induction order with
  | nil => intro _; simp
  | cons t ts ih =>
    intro hnd
    obtain ⟨hnot, hnd2⟩ := List.nodup_cons.1 hnd
    rw [List.flatMap_cons, List.count_append, ih hnd2]
    by_cases e : t2 = t
    · subst e
      rw [if_neg hnot, if_pos (List.mem_cons_self _ _)]
      rfl
    · have hz : List.count (t2, c) (threadCells d cb t) = 0 := by
        apply List.count_eq_zero_of_not_mem
        intro h
        exact e (threadCells_tag h)
      rw [hz, Nat.zero_add]
      by_cases hm : t2 ∈ ts
      · rw [if_pos hm, if_pos (List.mem_cons_of_mem _ hm)]
      · rw [if_neg hm, if_neg (fun h => by
          rcases List.mem_cons.1 h with h | h
          · exact e h
          · exact hm h)]

/-- The joint record of assignments after the listed workers (each at most once) have
all returned. -/
theorem run_threads_log {ca cb : Nat} {d : List (Int × Int)} (envs : Nat → Env) :
    ∀ (ts : List Nat) (w w2 : World), run_threads envs w ts = some w2 → ts.Nodup →
      hasShape w.B ca cb → (∀ t ∈ ts, carries d w.metrics t) →
      w2.log = w.log ++ ts.flatMap (threadCells d cb) := by
  intro ts
  induction ts with
  | nil =>
    intro w w2 h _ _ _
    simp only [run_threads, Option.some.injEq] at h
    subst h
    simp
  | cons t ts ih =>
    intro w w2 h hnd hB hcar
    obtain ⟨hnot, hnd2⟩ := List.nodup_cons.1 hnd
    rw [run_threads] at h
    cases e1 : run_thread envs w t with
    | none => simp [e1] at h
    | some w1 =>
      simp only [e1] at h
      obtain ⟨info, r, ei, er, _, eB, _, eM, eL⟩ := run_thread_some e1
      obtain ⟨info2, p, c1, c2, r1, r2⟩ := hcar t (List.mem_cons_self _ _)
      rw [ei] at c1
      cases c1
      obtain ⟨_, _, b0, eb, ew⟩ := worker_frame er
      have hb0 : b0.length = cb := hasShape_row hB eb
      have hcar2 : ∀ t2 ∈ ts, carries d w1.metrics t2 := by
        intro t2 ht2
        have hne : t2 ≠ t := by
          intro e; subst e; exact hnot ht2
        rw [eM]
        exact carries_set hne _ (hcar t2 (List.mem_cons_of_mem _ ht2))
      rw [ih w1 w2 h hnd2 (by rw [eB]; exact hB) hcar2, eL, ew, hb0, r1, r2,
        List.flatMap_cons, List.append_assoc]
      congr 2
      unfold threadCells
      simp only [c2]

/-- C9. For `rows_a, cols_b ≥ 1` and a core count `≥ 1` (with `A`, `B` as `main` has
them, `rows_a × cols_a` and `cols_a × cols_b`): when the workers created from the
partition have run, in any order, every cell `(i, j)` with `i < rows_a`, `j < cols_b`
has been assigned by exactly one worker `t`, and by that worker exactly once: the joint
record of assignments holds `(t, i, j)` once and `(t2, i, j)` for no other `t2`. The
workers do all return when `cols_a ≥ 1`. -/
theorem write_regions_cover_once (A B : Matrix) (rows_a cols_a cols_b hc : Nat)
    (envs : Nat → Env) (hA : hasShape A rows_a cols_a) (hB : hasShape B cols_a cols_b)
    (h1 : 1 ≤ rows_a) (_h3 : 1 ≤ cols_b) (h4 : 1 ≤ coreCount hc) :
    ∃ w0, main_setup A B (rows_a : Int) (cols_b : Int) hc = some w0 ∧
      ∀ order : List Nat, order.Perm (List.range w0.metrics.length) →
        (∀ w, run_threads envs w0 order = some w →
          ∀ i j : Nat, i < rows_a → j < cols_b →
            ∃ t, t < w0.metrics.length ∧
              ∀ t2, List.count (t2, (i : Int), j) w.log = if t2 = t then 1 else 0) ∧
        (1 ≤ cols_a → ∃ w, run_threads envs w0 order = some w) := by
  obtain ⟨T, base, rem, hb, hr0, htop, _, hset⟩ := main_setup_spec A B rows_a cols_b hc h1 h4
  refine ⟨_, hset, ?_⟩
  intro order hperm
  simp only [make_metrics_length, chunks_length] at hperm ⊢
  have hnd : order.Nodup := hperm.symm.nodup (List.nodup_range T)
  have hcar : ∀ t ∈ order, carries (chunks base rem T) (make_metrics 0 (chunks base rem T)) t := by
    intro t ht
    have : t < T := List.mem_range.1 ((hperm.mem_iff).1 ht)
    exact carries_make_metrics (by rw [chunks_length]; exact this)
  constructor
  · intro w hrun i j hi hj
    have hlog := run_threads_log envs order _ w hrun hnd hB hcar
    simp only [List.nil_append] at hlog
    obtain ⟨t, ht, c1, c2⟩ := chunks_cover hr0 (i : Int) (by omega) T (by rw [htop]; omega)
    refine ⟨t, ht, ?_⟩
    intro t2
    rw [hlog, count_flatMap_threadCells _ _ _ _ order hnd]
    by_cases hm : t2 ∈ order
    · have ht2 : t2 < T := List.mem_range.1 ((hperm.mem_iff).1 hm)
      have hlt := cut_lt_succ rem hb t2
      rw [if_pos hm, count_threadCells (chunks_get base rem ht2) (i : Int) j]
      show (if cut base rem t2 ≤ (i : Int) ∧
              (i : Int) < cut base rem t2
                + (((cut base rem (t2 + 1) - cut base rem t2).toNat : Nat) : Int) ∧
              j < cols_b then 1 else 0) = _
      rw [Int.toNat_of_nonneg (by omega)]
      by_cases e : t2 = t
      · subst e
        rw [if_pos ⟨c1, by omega, hj⟩, if_pos rfl]
      · rw [if_neg e, if_neg]
        intro h
        exact e (chunks_disjoint hb h.1 (by have := h.2.1; omega) c1 c2)
    · have e : t2 ≠ t := by
        intro e; subst e
        exact hm ((hperm.mem_iff).2 (List.mem_range.2 ht))
      rw [if_neg hm, if_neg e]
  · intro h2
    have hd : ∀ p ∈ chunks base rem T, 0 ≤ p.1 ∧ p.1 ≤ p.2 ∧ p.2 ≤ (rows_a : Int) := by
      intro p hp
      obtain ⟨a, b, c⟩ := chunks_within hb hr0 hp
      exact ⟨a, le_of_lt b, by rw [← htop]; exact c⟩
    obtain ⟨w, e, _⟩ := run_threads_ok h1 h2 hd envs order
      ⟨A, B, List.replicate rows_a (List.replicate cols_b 0),
        make_metrics 0 (chunks base rem T), []⟩
      hnd hA hB (zeros_shape rows_a cols_b) hcar
    exact ⟨w, e⟩

/-- A 3 × 2 result on two cores: every cell is assigned by one worker, once. -/
theorem write_regions_cover_once_witness :
    ∃ w0, main_setup [[1], [2], [3]] [[4, 5]] 3 2 2 = some w0 ∧
      ∀ order : List Nat, order.Perm (List.range w0.metrics.length) →
        (∀ w, run_threads (fun _ => ⟨fun n => n, fun n => n, none⟩) w0 order = some w →
          ∀ i j : Nat, i < 3 → j < 2 →
            ∃ t, t < w0.metrics.length ∧
              ∀ t2, List.count (t2, (i : Int), j) w.log = if t2 = t then 1 else 0) ∧
        (1 ≤ 1 → ∃ w, run_threads (fun _ => ⟨fun n => n, fun n => n, none⟩) w0 order = some w) :=
  write_regions_cover_once [[1], [2], [3]] [[4, 5]] 3 1 2 2
    (fun _ => ⟨fun n => n, fun n => n, none⟩)
    (by decide) (by decide) (by decide) (by decide) (by decide)

/-! ## The frame of one worker -/

/-- C10. A worker thread that runs to completion on record `metrics[t]` changes only
that record and rows of `C` inside `[row_start, row_end)`: `A` and `B` are the same
before and after, every other metrics record is the same, the number of records and the
number of rows of `C` are the same, and every row of `C` outside the range is the same. -/
theorem worker_changes_only_its_rows (envs : Nat → Env) (w w2 : World) (t : Nat)
    (info : ThreadMetrics) (hinfo : w.metrics[t]? = some info)
    (hrun : run_thread envs w t = some w2) :
    w2.A = w.A ∧ w2.B = w.B ∧
    (∀ t2, t2 ≠ t → w2.metrics[t2]? = w.metrics[t2]?) ∧
    w2.metrics.length = w.metrics.length ∧
    w2.C.length = w.C.length ∧
    ∀ i : Nat, ((i : Int) < info.row_start ∨ info.row_end ≤ (i : Int)) → w2.C[i]? = w.C[i]? := by
  obtain ⟨info2, r, ei, er, eA, eB, eC, eM, _⟩ := run_thread_some hrun
  rw [hinfo] at ei
  cases ei
  obtain ⟨l, f, _⟩ := worker_frame er
  refine ⟨eA, eB, ?_, ?_, ?_, ?_⟩
  · intro t2 hne
    rw [eM, List.getElem?_set_ne (Ne.symm hne)]
  · rw [eM, List.length_set]
  · rw [eC, l]
  · intro i hi
    rw [eC]
    exact f i hi

/-- The second of two workers on a 2 × 2 product: it returns, and row 0 of `C`, the
record of worker 0, `A` and `B` are untouched. -/
theorem worker_changes_only_its_rows_witness :
    ∃ w2 : World,
      w2.A = [[1, 2], [3, 4]] ∧ w2.B = [[5, 6], [7, 8]] ∧
      (∀ t2, t2 ≠ 1 → w2.metrics[t2]? =
        ([{ row_start := 0, row_end := 1 },
          { thread_id := 1, core_id := 1, row_start := 1, row_end := 2 }]
            : List ThreadMetrics)[t2]?) ∧
      w2.metrics.length = 2 ∧ w2.C.length = 2 ∧
      ∀ i : Nat, ((i : Int) < 1 ∨ 2 ≤ (i : Int)) → w2.C[i]? = ([[9, 9], [9, 9]] : Matrix)[i]? := by
  obtain ⟨r, er, _⟩ := worker_ok
    (by decide : hasShape [[1, 2], [3, 4]] 2 2) (by decide : hasShape [[5, 6], [7, 8]] 2 2)
    (by decide : hasShape [[9, 9], [9, 9]] 2 2) (by decide) (by decide)
    { thread_id := 1, core_id := 1, row_start := 1, row_end := 2 }
    ⟨fun n => n, fun n => n, none⟩ (by decide) (by decide) (by decide)
  exact ⟨_, worker_changes_only_its_rows (fun _ => ⟨fun n => n, fun n => n, none⟩)
    ⟨[[1, 2], [3, 4]], [[5, 6], [7, 8]], [[9, 9], [9, 9]],
      [{ row_start := 0, row_end := 1 },
       { thread_id := 1, core_id := 1, row_start := 1, row_end := 2 }], []⟩
    _ 1 { thread_id := 1, core_id := 1, row_start := 1, row_end := 2 } rfl
    (run_thread_of_worker (w := ⟨[[1, 2], [3, 4]], [[5, 6], [7, 8]], [[9, 9], [9, 9]],
      [{ row_start := 0, row_end := 1 },
       { thread_id := 1, core_id := 1, row_start := 1, row_end := 2 }], []⟩)
      (t := 1) rfl er)⟩

/-! ## The worker seen row by row: basic facts -/

/-- One more iteration of the row loop, as an equation on the whole local state. -/
theorem rowLoop_succ_eq {A B : Matrix} {env : Env} {rs total ri : Int} {ca cb : Nat} {sw : ℚ}
    {n : Nat} {s s2 : WState}
    (h : rowLoop A B env rs total ri ca cb sw (n + 1) s = some s2) :
    ∃ s1 m, rowLoop A B env rs total ri ca cb sw n s = some s1 ∧
      colLoop A B (rs + n) ca cb ⟨s1.C, s1.writes⟩ = some m ∧
      s2 = (if Int.tmod ((n : Int) + 1) ri = 0 ∨ (n : Int) = total - 1 then
              publish env total sw n { s1 with C := m.C, writes := m.writes }
            else { s1 with C := m.C, writes := m.writes }) := by
  rw [rowLoop] at h
  cases h1 : rowLoop A B env rs total ri ca cb sw n s with
  | none => simp [h1] at h
  | some s1 =>
    simp only [h1] at h
    cases h2 : colLoop A B (rs + n) ca cb ⟨s1.C, s1.writes⟩ with
    | none => simp [h2] at h
    | some m =>
      simp only [h2] at h
      refine ⟨s1, m, rfl, h2, ?_⟩
      split at h
      · rename_i hc
        simp only [Option.some.injEq] at h
        rw [if_pos hc]
        exact h.symm
      · rename_i hc
        simp only [Option.some.injEq] at h
        rw [if_neg hc]
        exact h.symm

/-- The result of `worker_func` is the local state after `total` rows. -/
theorem worker_func_eq_state (A B C : Matrix) (info : ThreadMetrics) (env : Env) :
    worker_func A B C info env
      = worker_state A B C info env (info.row_end - info.row_start).toNat := by
  unfold worker_func worker_state
  cases B[0]? with
  | none => rfl
  | some b0 =>
    cases A[0]? with
    | none => rfl
    | some a0 => rfl

theorem worker_state_zero {A B C : Matrix} {info : ThreadMetrics} {env : Env} {s : WState}
    (h : worker_state A B C info env 0 = some s) : s = worker_start C info env := by
  unfold worker_state at h
  cases eb : B[0]? with
  | none => simp [eb] at h
  | some b0 =>
    cases ea : A[0]? with
    | none => simp [eb, ea] at h
    | some a0 =>
      simp only [eb, ea, rowLoop, Option.some.injEq] at h
      exact h.symm

/-- One more row of the worker: either the snapshot is published from the state before,
or the metrics and the clock variables stay as they are. -/
theorem worker_state_succ {A B C : Matrix} {info : ThreadMetrics} {env : Env} {n : Nat}
    {s2 : WState} (h : worker_state A B C info env (n + 1) = some s2) :
    ∃ s1, worker_state A B C info env n = some s1 ∧
      (reports (info.row_end - info.row_start) n →
        s2.info = (publish env (info.row_end - info.row_start) (env.wall 0) n s1).info ∧
        s2.ticks = s1.ticks + 1 ∧ s2.prev_cpu = env.cpu s1.ticks ∧
        s2.prev_wall = env.wall s1.ticks) ∧
      (¬ reports (info.row_end - info.row_start) n →
        s2.info = s1.info ∧ s2.ticks = s1.ticks ∧ s2.prev_cpu = s1.prev_cpu ∧
        s2.prev_wall = s1.prev_wall) := by
  unfold worker_state at h ⊢
  cases eb : B[0]? with
  | none => simp [eb] at h
  | some b0 =>
    cases ea : A[0]? with
    | none => simp [eb, ea] at h
    | some a0 =>
      simp only [eb, ea] at h ⊢
      obtain ⟨s1, m, e1, _, e3⟩ := rowLoop_succ_eq h
      refine ⟨s1, e1, ?_, ?_⟩
      · intro hr
        have hr2 : Int.tmod ((n : Int) + 1) (max 1 (Int.tdiv (info.row_end - info.row_start) 20)) = 0
            ∨ (n : Int) = info.row_end - info.row_start - 1 := hr
        rw [if_pos hr2] at e3
        subst e3
        exact ⟨rfl, rfl, rfl, rfl⟩
      · intro hr
        have hr2 : ¬ (Int.tmod ((n : Int) + 1)
            (max 1 (Int.tdiv (info.row_end - info.row_start) 20)) = 0
            ∨ (n : Int) = info.row_end - info.row_start - 1) := hr
        rw [if_neg hr2] at e3
        subst e3
        exact ⟨rfl, rfl, rfl, rfl⟩

/-- On well-shaped matrices the worker gets through each of the rows of its range. -/
theorem worker_state_ok {A B C : Matrix} {ra ca cb : Nat} (hA : hasShape A ra ca)
    (hB : hasShape B ca cb) (hC : hasShape C ra cb) (hra : 1 ≤ ra) (hca : 1 ≤ ca)
    (info : ThreadMetrics) (env : Env) (h0 : 0 ≤ info.row_start) (n : Nat)
    (h2 : info.row_start + (n : Int) ≤ (ra : Int)) :
    ∃ s, worker_state A B C info env n = some s := by
  obtain ⟨a0, ea, la⟩ := first_row hA hra
  obtain ⟨b0, eb, lb⟩ := first_row hB hca
  obtain ⟨rs, hrs⟩ := Int.eq_ofNat_of_zero_le h0
  obtain ⟨s2, e, _⟩ :=
    rowLoop_ok hA hB env (info.row_end - info.row_start)
      (max 1 (Int.tdiv (info.row_end - info.row_start) 20)) (env.wall 0) rs n
      (worker_start C info env) (by omega) hC
  refine ⟨s2, ?_⟩
  unfold worker_state
  simp only [ea, eb, la, lb]
  rw [hrs] at e ⊢
  exact e

/-- What never changes in the local state once the row loop is entered, and how the
clock variables relate to the readings: `total_rows` and `started` stay as set, and
`prev_cpu`, `prev_wall` are the readings taken last. -/
theorem worker_state_static {A B C : Matrix} {info : ThreadMetrics} {env : Env} :
    ∀ (n : Nat) (s : WState), worker_state A B C info env n = some s →
      s.info.total_rows = info.row_end - info.row_start ∧ s.info.started = true ∧
      s.info.row_start = info.row_start ∧ s.info.row_end = info.row_end ∧
      1 ≤ s.ticks ∧ s.prev_cpu = env.cpu (s.ticks - 1) ∧ s.prev_wall = env.wall (s.ticks - 1) := by
  intro n
  induction n with
  | zero =>
    intro s h
    rw [worker_state_zero h]
    exact ⟨rfl, rfl, rfl, rfl, Nat.le_refl 1, rfl, rfl⟩
  | succ n ih =>
    intro s h
    obtain ⟨s1, e1, hp, hn⟩ := worker_state_succ h
    obtain ⟨a, b, c, d, e, f, g⟩ := ih s1 e1
    by_cases hr : reports (info.row_end - info.row_start) n
    · obtain ⟨i1, i2, i3, i4⟩ := hp hr
      rw [i1, i2, i3, i4]
      refine ⟨?_, ?_, ?_, ?_, by omega, by simp, by simp⟩
      · simp only [publish]; split <;> exact a
      · simp only [publish]; split <;> exact b
      · simp only [publish]; split <;> exact c
      · simp only [publish]; split <;> exact d
    · obtain ⟨i1, i2, i3, i4⟩ := hn hr
      rw [i1, i2, i3, i4]
      exact ⟨a, b, c, d, e, f, g⟩

/-- If the worker gets through `n` rows it got through every smaller number of rows. -/
theorem worker_state_prefix {A B C : Matrix} {info : ThreadMetrics} {env : Env} :
    ∀ (n : Nat) (s : WState), worker_state A B C info env n = some s →
      ∀ m, m ≤ n → ∃ s1, worker_state A B C info env m = some s1 := by
  intro n
  induction n with
  | zero =>
    intro s h m hm
    have : m = 0 := by omega
    subst this
    exact ⟨s, h⟩
  | succ n ih =>
    intro s h m hm
    by_cases e : m = n + 1
    · subst e; exact ⟨s, h⟩
    · obtain ⟨s1, e1, _⟩ := worker_state_succ h
      exact ih s1 e1 m (by omega)

/-! ## What one publish writes -/

theorem publish_rows_done (env : Env) (total : Int) (sw : ℚ) (idx : Nat) (s : WState) :
    (publish env total sw idx s).info.rows_done = (idx : Int) + 1 := by
  simp only [publish]; split <;> rfl

theorem publish_total_rows (env : Env) (total : Int) (sw : ℚ) (idx : Nat) (s : WState) :
    (publish env total sw idx s).info.total_rows = s.info.total_rows := by
  simp only [publish]; split <;> rfl

theorem publish_progress (env : Env) (total : Int) (sw : ℚ) (idx : Nat) (s : WState) :
    (publish env total sw idx s).info.progress
      = (((idx : Int) + 1 : Int) : ℚ) * 100 / (total : ℚ) := by
  simp only [publish]; split <;> rfl

theorem publish_elapsed (env : Env) (total : Int) (sw : ℚ) (idx : Nat) (s : WState) :
    (publish env total sw idx s).info.elapsed = env.wall s.ticks - sw := by
  simp only [publish]; split <;> rfl

theorem publish_cpu_pct (env : Env) (total : Int) (sw : ℚ) (idx : Nat) (s : WState) :
    (publish env total sw idx s).info.cpu_pct
      = sample (env.cpu s.ticks - s.prev_cpu) (env.wall s.ticks - s.prev_wall) := by
  simp only [publish, sample]; split <;> rfl

theorem publish_cpu_samples (env : Env) (total : Int) (sw : ℚ) (idx : Nat) (s : WState) :
    (publish env total sw idx s).info.cpu_samples
      = s.info.cpu_samples
        ++ [sample (env.cpu s.ticks - s.prev_cpu) (env.wall s.ticks - s.prev_wall)] := by
  simp only [publish, sample]; split <;> rfl

theorem publish_last (env : Env) {total : Int} (sw : ℚ) {idx : Nat} (s : WState)
    (h : (idx : Int) = total - 1) :
    (publish env total sw idx s).info.done = true ∧
    (publish env total sw idx s).info.total_time = env.wall s.ticks - sw := by
  simp only [publish, h, if_true, and_self]

/-- The last row is always followed by a publish. -/
theorem reports_last {total : Int} {k : Nat} (h : (k : Int) + 1 = total) : reports total k :=
  Or.inr (by omega)

/-- C11. For a worker whose range has at least one row, with non-decreasing readings of
the steady clock: whenever `worker_func` returns, its metrics have
`rows_done = total_rows`, `progress = 100`, `done = true`, `total_time = elapsed` and
`total_time ≥ 0`; and on well-shaped matrices with the range inside `[0, rows_a)` and
`cols_a ≥ 1` it does return. -/
theorem worker_final_metrics (A B C : Matrix) (info : ThreadMetrics) (env : Env)
    (h1 : info.row_start < info.row_end) (hmono : Monotone env.wall) :
    (∀ r, worker_func A B C info env = some r →
      r.info.rows_done = r.info.total_rows ∧ r.info.progress = 100 ∧ r.info.done = true ∧
      r.info.total_time = r.info.elapsed ∧ 0 ≤ r.info.total_time) ∧
    (∀ ra ca cb : Nat, hasShape A ra ca → hasShape B ca cb → hasShape C ra cb → 1 ≤ ca →
      0 ≤ info.row_start → info.row_end ≤ (ra : Int) →
      ∃ r, worker_func A B C info env = some r) := by
  constructor
  · intro r hr
    rw [worker_func_eq_state] at hr
    obtain ⟨k, hk⟩ : ∃ k : Nat, (info.row_end - info.row_start).toNat = k + 1 :=
      ⟨(info.row_end - info.row_start).toNat - 1, by omega⟩
    have hk2 : (k : Int) + 1 = info.row_end - info.row_start := by omega
    rw [hk] at hr
    obtain ⟨s1, e1, hp, _⟩ := worker_state_succ hr
    obtain ⟨i1, _, _, _⟩ := hp (reports_last hk2)
    obtain ⟨htot, _⟩ := worker_state_static k s1 e1
    obtain ⟨hdone, htime⟩ := publish_last env (env.wall 0) s1
      (by omega : (k : Int) = info.row_end - info.row_start - 1)
    rw [i1, publish_rows_done, publish_total_rows, publish_progress, publish_elapsed, htot,
      hdone, htime]
    refine ⟨hk2, ?_, rfl, rfl, sub_nonneg.2 (hmono (Nat.zero_le _))⟩
    rw [hk2]
    have hne : ((info.row_end - info.row_start : Int) : ℚ) ≠ 0 := by
      have : info.row_end - info.row_start ≠ 0 := by omega
      exact_mod_cast this
    rw [mul_comm, mul_div_assoc, div_self hne, mul_one]
  · intro ra ca cb hA hB hC hca h0 h2
    obtain ⟨r, e, _⟩ := worker_ok hA hB hC (by omega) hca info env h0 (le_of_lt h1) h2
    exact ⟨r, e⟩

/-- A worker over both rows of a 2 × 1 by 1 × 1 product, with the steady clock
advancing by one second per reading. -/
theorem worker_final_metrics_witness :
    (∀ r, worker_func [[1], [2]] [[3]] [[0], [0]] { row_start := 0, row_end := 2 }
        ⟨fun n => n, fun _ => 0, none⟩ = some r →
      r.info.rows_done = r.info.total_rows ∧ r.info.progress = 100 ∧ r.info.done = true ∧
      r.info.total_time = r.info.elapsed ∧ 0 ≤ r.info.total_time) ∧
    (∀ ra ca cb : Nat, hasShape [[1], [2]] ra ca → hasShape [[3]] ca cb →
      hasShape [[0], [0]] ra cb → 1 ≤ ca →
      0 ≤ ({ row_start := 0, row_end := 2 } : ThreadMetrics).row_start →
      ({ row_start := 0, row_end := 2 } : ThreadMetrics).row_end ≤ (ra : Int) →
      ∃ r, worker_func [[1], [2]] [[3]] [[0], [0]] { row_start := 0, row_end := 2 }
        ⟨fun n => n, fun _ => 0, none⟩ = some r) :=
  worker_final_metrics [[1], [2]] [[3]] [[0], [0]] { row_start := 0, row_end := 2 }
    ⟨fun n => n, fun _ => 0, none⟩ (by decide)
    (fun a b h => by
      show ((a : Nat) : ℚ) ≤ ((b : Nat) : ℚ)
      exact_mod_cast h)

/-! ## Publishes during the run of a worker -/

/-- A publish after row `idx`: the record after the row is the one written by `publish`
from the state before the row. -/
theorem worker_publish_step {A B C : Matrix} {info : ThreadMetrics} {env : Env} {idx : Nat}
    {s1 s2 : WState} (h1 : worker_state A B C info env idx = some s1)
    (h2 : worker_state A B C info env (idx + 1) = some s2)
    (hr : reports (info.row_end - info.row_start) idx) :
    s2.info = (publish env (info.row_end - info.row_start) (env.wall 0) idx s1).info ∧
    s2.ticks = s1.ticks + 1 := by
  obtain ⟨s, e, hp, _⟩ := worker_state_succ h2
  rw [h1] at e
  cases e
  obtain ⟨a, b, _⟩ := hp hr
  exact ⟨a, b⟩

/-- A row that is not followed by a publish leaves the record as it is. -/
theorem worker_silent_step {A B C : Matrix} {info : ThreadMetrics} {env : Env} {idx : Nat}
    {s1 s2 : WState} (h1 : worker_state A B C info env idx = some s1)
    (h2 : worker_state A B C info env (idx + 1) = some s2)
    (hr : ¬ reports (info.row_end - info.row_start) idx) :
    s2.info = s1.info ∧ s2.ticks = s1.ticks := by
  obtain ⟨s, e, _, hn⟩ := worker_state_succ h2
  rw [h1] at e
  cases e
  obtain ⟨a, b, _⟩ := hn hr
  exact ⟨a, b⟩

/-- C20. At a publish made after the row with offset `idx` of the range of a worker, the
record is updated to `rows_done = idx + 1` and `progress = rows_done * 100 / total_rows`,
the new sample is appended to `cpu_samples` and `cpu_pct` is that same sample. -/
theorem publish_updates_record (A B C : Matrix) (info : ThreadMetrics) (env : Env) (idx : Nat)
    (s1 s2 : WState) (h1 : worker_state A B C info env idx = some s1)
    (h2 : worker_state A B C info env (idx + 1) = some s2)
    (hr : reports (info.row_end - info.row_start) idx) :
    s2.info.rows_done = (idx : Int) + 1 ∧
    s2.info.progress = (s2.info.rows_done : ℚ) * 100 / (s2.info.total_rows : ℚ) ∧
    s2.info.cpu_samples = s1.info.cpu_samples ++ [s2.info.cpu_pct] := by
  obtain ⟨e, _⟩ := worker_publish_step h1 h2 hr
  obtain ⟨htot, _⟩ := worker_state_static idx s1 h1
  rw [e, publish_rows_done, publish_progress, publish_total_rows, publish_cpu_samples,
    publish_cpu_pct, htot]
  exact ⟨rfl, rfl, rfl⟩

/-- The publish after the only row of a one-row worker. -/
theorem publish_updates_record_witness :
    ∃ s1 s2 : WState,
      worker_state [[5]] [[6]] [[0]] { row_start := 0, row_end := 1 }
        ⟨fun n => n, fun n => n, none⟩ 0 = some s1 ∧
      worker_state [[5]] [[6]] [[0]] { row_start := 0, row_end := 1 }
        ⟨fun n => n, fun n => n, none⟩ (0 + 1) = some s2 ∧
      s2.info.rows_done = ((0 : Nat) : Int) + 1 ∧
      s2.info.progress = (s2.info.rows_done : ℚ) * 100 / (s2.info.total_rows : ℚ) ∧
      s2.info.cpu_samples = s1.info.cpu_samples ++ [s2.info.cpu_pct] := by
  obtain ⟨s2, e2⟩ := worker_state_ok (by decide : hasShape [[5]] 1 1)
    (by decide : hasShape [[6]] 1 1) (by decide : hasShape [[0]] 1 1) (by decide) (by decide)
    { row_start := 0, row_end := 1 } ⟨fun n => n, fun n => n, none⟩ (by decide) 1 (by decide)
  obtain ⟨s1, e1⟩ := worker_state_prefix 1 s2 e2 0 (by decide)
  exact ⟨s1, s2, e1, e2, publish_updates_record [[5]] [[6]] [[0]]
    { row_start := 0, row_end := 1 } ⟨fun n => n, fun n => n, none⟩ 0 s1 s2 e1 e2 (by decide)⟩

/-- C19 (as the code has it). At every publish the sample is `(CPU time delta / wall time
delta) × 100` when the wall-time delta since the previous reading is above 1 ms, and
`0` when that delta is 1 ms or less: no quotient with a denominator of 1 ms or less is
ever formed. The deltas are taken between the reading made at this publish and the
one made before it. -/
theorem publish_sample_guarded (A B C : Matrix) (info : ThreadMetrics) (env : Env) (idx : Nat)
    (s1 s2 : WState) (h1 : worker_state A B C info env idx = some s1)
    (h2 : worker_state A B C info env (idx + 1) = some s2)
    (hr : reports (info.row_end - info.row_start) idx) :
    s2.info.cpu_pct =
      (if env.wall s1.ticks - env.wall (s1.ticks - 1) > 1 / 1000 then
        (env.cpu s1.ticks - env.cpu (s1.ticks - 1))
          / (env.wall s1.ticks - env.wall (s1.ticks - 1)) * 100
      else 0) ∧
    s1.prev_cpu = env.cpu (s1.ticks - 1) ∧ s1.prev_wall = env.wall (s1.ticks - 1) := by
  obtain ⟨e, _⟩ := worker_publish_step h1 h2 hr
  obtain ⟨_, _, _, _, _, hc, hw⟩ := worker_state_static idx s1 h1
  rw [e, publish_cpu_pct, hc, hw]
  exact ⟨rfl, rfl, rfl⟩

/-- The publish of a one-row worker whose readings are 2 ms apart: the deltas are taken
against the reading made when the worker started. -/
theorem publish_sample_guarded_witness :
    ∃ s1 s2 : WState,
      worker_state [[5]] [[6]] [[0]] { row_start := 0, row_end := 1 }
        ⟨fun n => n / 500, fun n => n / 1000, none⟩ 0 = some s1 ∧
      worker_state [[5]] [[6]] [[0]] { row_start := 0, row_end := 1 }
        ⟨fun n => n / 500, fun n => n / 1000, none⟩ (0 + 1) = some s2 ∧
      s1.prev_cpu = (⟨fun n => n / 500, fun n => n / 1000, none⟩ : Env).cpu (s1.ticks - 1) ∧
      s1.prev_wall = (⟨fun n => n / 500, fun n => n / 1000, none⟩ : Env).wall (s1.ticks - 1) := by
  obtain ⟨s2, e2⟩ := worker_state_ok (by decide : hasShape [[5]] 1 1)
    (by decide : hasShape [[6]] 1 1) (by decide : hasShape [[0]] 1 1) (by decide) (by decide)
    { row_start := 0, row_end := 1 } ⟨fun n => n / 500, fun n => n / 1000, none⟩
    (by decide) 1 (by decide)
  obtain ⟨s1, e1⟩ := worker_state_prefix 1 s2 e2 0 (by decide)
  exact ⟨s1, s2, e1, e2, (publish_sample_guarded [[5]] [[6]] [[0]]
    { row_start := 0, row_end := 1 } ⟨fun n => n / 500, fun n => n / 1000, none⟩
    0 s1 s2 e1 e2 (by decide)).2⟩

/-- A one-row worker whose two readings of both clocks are 0 s and 0.0005 s: the
published sample is `0`, whereas a denominator of 1 ms would give `50`. -/
theorem sample_below_one_ms_is_zero :
    ∃ s1 s2 : WState,
      worker_state [[5]] [[6]] [[0]] { row_start := 0, row_end := 1 }
        ⟨fun n => n / 2000, fun n => n / 2000, none⟩ 0 = some s1 ∧
      worker_state [[5]] [[6]] [[0]] { row_start := 0, row_end := 1 }
        ⟨fun n => n / 2000, fun n => n / 2000, none⟩ 1 = some s2 ∧
      reports (1 - 0) 0 ∧
      s2.info.cpu_pct = 0 ∧
      spec_sample ((1 : ℚ) / 2000 - 0 / 2000) ((1 : ℚ) / 2000 - 0 / 2000) = 50 ∧
      s2.info.cpu_pct ≠ spec_sample ((1 : ℚ) / 2000 - 0 / 2000) ((1 : ℚ) / 2000 - 0 / 2000) := by
  obtain ⟨s2, e2⟩ := worker_state_ok (by decide : hasShape [[5]] 1 1)
    (by decide : hasShape [[6]] 1 1) (by decide : hasShape [[0]] 1 1) (by decide) (by decide)
    { row_start := 0, row_end := 1 } ⟨fun n => n / 2000, fun n => n / 2000, none⟩
    (by decide) 1 (by decide)
  obtain ⟨s1, e1⟩ := worker_state_prefix 1 s2 e2 0 (by decide)
  have hr : reports (({ row_start := 0, row_end := 1 } : ThreadMetrics).row_end
      - ({ row_start := 0, row_end := 1 } : ThreadMetrics).row_start) 0 := by decide
  obtain ⟨e, _⟩ := worker_publish_step e1 e2 hr
  have hs1 := worker_state_zero e1
  have hpct : s2.info.cpu_pct = 0 := by
    rw [e, publish_cpu_pct, hs1]
    simp only [worker_start, sample]
    norm_num
  have hspec : spec_sample ((1 : ℚ) / 2000 - 0 / 2000) ((1 : ℚ) / 2000 - 0 / 2000) = 50 := by
    simp only [spec_sample]
    norm_num
  refine ⟨s1, s2, e1, e2, by decide, hpct, hspec, ?_⟩
  rw [hpct, hspec]
  norm_num

/-! ## The schedule of publishes -/

/-- The test of the code in words: for a worker with at least one row, the row with
offset `idx` is followed by a publish exactly when `idx + 1` is a multiple of
`max(1, total / 20)` or the row is the last one. -/
theorem reports_iff {total : Int} (ht : 1 ≤ total) (idx : Nat) :
    reports total idx ↔
      (max 1 (total / 20) ∣ (idx : Int) + 1 ∨ (idx : Int) + 1 = total) := by
  unfold reports
  have h1 : Int.tdiv total 20 = total / 20 := Int.tdiv_eq_ediv (by omega) (by omega)
  have h2 : (0 : Int) ≤ max 1 (total / 20) := le_trans (by omega) (le_max_left _ _)
  rw [h1, Int.tmod_eq_emod (by omega) h2, Int.dvd_iff_emod_eq_zero]
  constructor
  · rintro (h | h)
    · exact Or.inl h
    · exact Or.inr (by omega)
  · rintro (h | h)
    · exact Or.inl h
    · exact Or.inr (by omega)

/-- C18 (as the code has it). For a worker with `total_rows ≥ 1` rows, a snapshot is
published after the `r`-th row of its range (`1 ≤ r ≤ total_rows`) exactly when `r` is a
multiple of `max(1, total_rows / 20)` (integer division, rounded down) or
`r = total_rows`: in that case a sample is appended and `rows_done` becomes `r`,
otherwise the record stays as it was. -/
theorem publish_schedule (A B C : Matrix) (info : ThreadMetrics) (env : Env) (r : Nat)
    (s1 s2 : WState) (hr1 : 1 ≤ r) (hr2 : (r : Int) ≤ info.row_end - info.row_start)
    (h1 : worker_state A B C info env (r - 1) = some s1)
    (h2 : worker_state A B C info env r = some s2) :
    (s2.info.cpu_samples.length = s1.info.cpu_samples.length + 1 ↔
      (max 1 ((info.row_end - info.row_start) / 20) ∣ (r : Int)
        ∨ (r : Int) = info.row_end - info.row_start)) ∧
    ((max 1 ((info.row_end - info.row_start) / 20) ∣ (r : Int)
        ∨ (r : Int) = info.row_end - info.row_start) → s2.info.rows_done = (r : Int)) ∧
    (¬ (max 1 ((info.row_end - info.row_start) / 20) ∣ (r : Int)
        ∨ (r : Int) = info.row_end - info.row_start) → s2.info = s1.info) := by
  obtain ⟨idx, hidx⟩ : ∃ idx : Nat, r = idx + 1 := ⟨r - 1, by omega⟩
  subst hidx
  simp only [Nat.add_sub_cancel] at h1
  have hiff := reports_iff (by omega : 1 ≤ info.row_end - info.row_start) idx
  have hcast : ((idx + 1 : Nat) : Int) = (idx : Int) + 1 := by push_cast; rfl
  rw [hcast]
  by_cases hr : reports (info.row_end - info.row_start) idx
  · obtain ⟨e, _⟩ := worker_publish_step h1 h2 hr
    have hc := hiff.1 hr
    refine ⟨⟨fun _ => hc, fun _ => ?_⟩, fun _ => ?_, fun hn => absurd hc hn⟩
    · rw [e, publish_cpu_samples]
      simp
    · rw [e, publish_rows_done]
  · obtain ⟨e, _⟩ := worker_silent_step h1 h2 hr
    have hc : ¬ (max 1 ((info.row_end - info.row_start) / 20) ∣ (idx : Int) + 1
        ∨ (idx : Int) + 1 = info.row_end - info.row_start) := fun h => hr (hiff.2 h)
    refine ⟨⟨fun h => ?_, fun h => absurd h hc⟩, fun h => absurd h hc, fun _ => e⟩
    rw [e] at h
    omega

/-- A worker with 45 rows: the interval is `45 / 20 = 2`; the second row is followed by a
publish. -/
theorem publish_schedule_witness :
    ∃ s1 s2 : WState,
      worker_state (List.replicate 45 [1]) [[1]] (List.replicate 45 [0])
        { row_start := 0, row_end := 45 } ⟨fun n => n, fun n => n, none⟩ (2 - 1) = some s1 ∧
      worker_state (List.replicate 45 [1]) [[1]] (List.replicate 45 [0])
        { row_start := 0, row_end := 45 } ⟨fun n => n, fun n => n, none⟩ 2 = some s2 ∧
      s2.info.rows_done = 2 := by
  obtain ⟨s2, e2⟩ := worker_state_ok (by decide : hasShape (List.replicate 45 [1]) 45 1)
    (by decide : hasShape [[1]] 1 1) (by decide : hasShape (List.replicate 45 [0]) 45 1)
    (by decide) (by decide)
    { row_start := 0, row_end := 45 } ⟨fun n => n, fun n => n, none⟩ (by decide) 2 (by decide)
  obtain ⟨s1, e1⟩ := worker_state_prefix 2 s2 e2 (2 - 1) (by decide)
  exact ⟨s1, s2, e1, e2, (publish_schedule (List.replicate 45 [1]) [[1]] (List.replicate 45 [0])
    { row_start := 0, row_end := 45 } ⟨fun n => n, fun n => n, none⟩ 2 s1 s2 (by decide)
    (by decide) e1 e2).2.1 (by decide)⟩

/-- A worker with 30 rows publishes after its first row, although `1` is neither a
multiple of `⌈30 / 20⌉ = 2` nor equal to `30`. -/
theorem publish_after_first_row_of_thirty :
    ∃ s1 s2 : WState,
      worker_state (List.replicate 30 [1]) [[1]] (List.replicate 30 [0])
        { row_start := 0, row_end := 30 } ⟨fun n => n, fun n => n, none⟩ 0 = some s1 ∧
      worker_state (List.replicate 30 [1]) [[1]] (List.replicate 30 [0])
        { row_start := 0, row_end := 30 } ⟨fun n => n, fun n => n, none⟩ 1 = some s2 ∧
      s2.info.cpu_samples.length = s1.info.cpu_samples.length + 1 ∧
      s2.info.rows_done = 1 ∧
      spec_interval 30 = 2 ∧
      ¬ (spec_interval 30 ∣ (1 : Int) ∨ (1 : Int) = 30) := by
  obtain ⟨s2, e2⟩ := worker_state_ok (by decide : hasShape (List.replicate 30 [1]) 30 1)
    (by decide : hasShape [[1]] 1 1) (by decide : hasShape (List.replicate 30 [0]) 30 1)
    (by decide) (by decide)
    { row_start := 0, row_end := 30 } ⟨fun n => n, fun n => n, none⟩ (by decide) 1 (by decide)
  obtain ⟨s1, e1⟩ := worker_state_prefix 1 s2 e2 0 (by decide)
  have hr : reports (({ row_start := 0, row_end := 30 } : ThreadMetrics).row_end
      - ({ row_start := 0, row_end := 30 } : ThreadMetrics).row_start) 0 := by decide
  obtain ⟨e, _⟩ := worker_publish_step e1 e2 hr
  have hspec : spec_interval 30 = 2 := by
    unfold spec_interval
    rw [Int.ceil_eq_iff]
    norm_num
  refine ⟨s1, s2, e1, e2, ?_, ?_, hspec, ?_⟩
  · rw [e, publish_cpu_samples]
    simp
  · rw [e, publish_rows_done]
    rfl
  · rw [hspec]
    decide

/-! ## The successive snapshots of one worker -/

theorem worker_snapshots_succ (A B C : Matrix) (info : ThreadMetrics) (env : Env) (n : Nat) :
    worker_snapshots A B C info env (n + 1) =
      worker_snapshots A B C info env n ++
        (if reports (info.row_end - info.row_start) n then
          match worker_state A B C info env (n + 1) with
          | some s => [s.info]
          | none => []
        else []) := rfl

/-- What holds of the snapshots published during the first `n` rows: their `rows_done`
increase strictly and are at most `n`, each `elapsed` is a reading of the steady clock
(one already taken) minus the first reading, and there is one snapshot per row that is
followed by a publish. -/
theorem worker_snapshots_inv (A B C : Matrix) (info : ThreadMetrics) (env : Env) :
    ∀ n : Nat,
      List.Pairwise (fun a b : ThreadMetrics => a.rows_done < b.rows_done)
        (worker_snapshots A B C info env n) ∧
      (∀ a ∈ worker_snapshots A B C info env n, a.rows_done ≤ (n : Int)) ∧
      (∀ a ∈ worker_snapshots A B C info env n, ∃ k : Nat,
        a.elapsed = env.wall k - env.wall 0 ∧
        ∀ s, worker_state A B C info env n = some s → k < s.ticks) ∧
      (∀ s, worker_state A B C info env n = some s →
        (worker_snapshots A B C info env n).length
          = (List.range n).countP
              (fun idx => decide (reports (info.row_end - info.row_start) idx))) := by
  intro n
  induction n with
  | zero =>
    refine ⟨List.Pairwise.nil, ?_, ?_, ?_⟩
    · intro a ha; cases ha
    · intro a ha; cases ha
    · intro s _; rfl
  | succ n ih =>
    obtain ⟨p1, p2, p3, p5⟩ := ih
    rw [worker_snapshots_succ]
    by_cases hr : reports (info.row_end - info.row_start) n
    · rw [if_pos hr]
      cases h2 : worker_state A B C info env (n + 1) with
      | none =>
        simp only [List.append_nil]
        refine ⟨p1, ?_, ?_, ?_⟩
        · intro a ha
          have := p2 a ha
          push_cast
          omega
        · intro a ha
          obtain ⟨k, hk, _⟩ := p3 a ha
          exact ⟨k, hk, fun s hs => by cases hs⟩
        · intro s hs; cases hs
      | some s2 =>
        obtain ⟨s1, e1, hp, _⟩ := worker_state_succ h2
        obtain ⟨i1, i2, _, _⟩ := hp hr
        have hrd : s2.info.rows_done = (n : Int) + 1 := by rw [i1, publish_rows_done]
        have hel : s2.info.elapsed = env.wall s1.ticks - env.wall 0 := by
          rw [i1, publish_elapsed]
        refine ⟨?_, ?_, ?_, ?_⟩
        · rw [List.pairwise_append]
          refine ⟨p1, List.pairwise_singleton _ _, ?_⟩
          intro a ha b hb
          rw [List.mem_singleton] at hb
          subst hb
          have := p2 a ha
          show a.rows_done < s2.info.rows_done
          omega
        · intro a ha
          rcases List.mem_append.1 ha with h | h
          · have := p2 a h
            push_cast
            omega
          · rw [List.mem_singleton] at h
            subst h
            push_cast
            omega
        · intro a ha
          rcases List.mem_append.1 ha with h | h
          · obtain ⟨k, hk, hlt⟩ := p3 a h
            refine ⟨k, hk, ?_⟩
            intro s hs
            cases hs
            have := hlt s1 e1
            omega
          · rw [List.mem_singleton] at h
            subst h
            refine ⟨s1.ticks, hel, ?_⟩
            intro s hs
            cases hs
            omega
        · intro s _
          rw [List.length_append, p5 s1 e1, List.range_succ, List.countP_append]
          simp [hr]
    · rw [if_neg hr]
      simp only [List.append_nil]
      refine ⟨p1, ?_, ?_, ?_⟩
      · intro a ha
        have := p2 a ha
        push_cast
        omega
      · intro a ha
        obtain ⟨k, hk, hlt⟩ := p3 a ha
        refine ⟨k, hk, ?_⟩
        intro s hs
        obtain ⟨s1, e1, _, hn⟩ := worker_state_succ hs
        obtain ⟨_, i2, _, _⟩ := hn hr
        have := hlt s1 e1
        omega
      · intro s hs
        obtain ⟨s1, e1, _⟩ := worker_state_succ hs
        rw [p5 s1 e1, List.range_succ, List.countP_append]
        simp [hr]

/-- With non-decreasing readings of the steady clock, `elapsed` does not decrease from
one published snapshot to a later one. -/
theorem worker_snapshots_elapsed (A B C : Matrix) (info : ThreadMetrics) (env : Env)
    (hmono : Monotone env.wall) :
    ∀ n : Nat, List.Pairwise (fun a b : ThreadMetrics => a.elapsed ≤ b.elapsed)
      (worker_snapshots A B C info env n) := by
  intro n
  induction n with
  | zero => exact List.Pairwise.nil
  | succ n ih =>
    rw [worker_snapshots_succ]
    by_cases hr : reports (info.row_end - info.row_start) n
    · rw [if_pos hr]
      cases h2 : worker_state A B C info env (n + 1) with
      | none => simpa using ih
      | some s2 =>
        obtain ⟨s1, e1, hp, _⟩ := worker_state_succ h2
        obtain ⟨i1, _, _, _⟩ := hp hr
        obtain ⟨_, _, p3, _⟩ := worker_snapshots_inv A B C info env n
        rw [List.pairwise_append]
        refine ⟨ih, List.pairwise_singleton _ _, ?_⟩
        intro a ha b hb
        rw [List.mem_singleton] at hb
        subst hb
        obtain ⟨k, hk, hlt⟩ := p3 a ha
        show a.elapsed ≤ s2.info.elapsed
        rw [hk, i1, publish_elapsed]
        exact sub_le_sub_right (hmono (le_of_lt (hlt s1 e1))) _
    · rw [if_neg hr]
      simpa using ih

/-- C17. Over the successive snapshots published by one worker, `rows_done` strictly
increases from one publish to any later one, and with non-decreasing readings of the
steady clock `elapsed` never decreases. The snapshots are those of the rows that are
followed by a publish, one for each such row. -/
theorem snapshots_monotone (A B C : Matrix) (info : ThreadMetrics) (env : Env) (n : Nat) :
    List.Pairwise (fun a b : ThreadMetrics => a.rows_done < b.rows_done)
      (worker_snapshots A B C info env n) ∧
    (Monotone env.wall →
      List.Pairwise (fun a b : ThreadMetrics => a.elapsed ≤ b.elapsed)
        (worker_snapshots A B C info env n)) ∧
    (∀ s, worker_state A B C info env n = some s →
      (worker_snapshots A B C info env n).length
        = (List.range n).countP
            (fun idx => decide (reports (info.row_end - info.row_start) idx))) := by
  obtain ⟨p1, _, _, p5⟩ := worker_snapshots_inv A B C info env n
  exact ⟨p1, fun hmono => worker_snapshots_elapsed A B C info env hmono n, p5⟩

/-- A worker with three rows and a steady clock advancing by one second per reading:
`elapsed` never decreases over its snapshots. -/
theorem snapshots_monotone_witness :
    List.Pairwise (fun a b : ThreadMetrics => a.elapsed ≤ b.elapsed)
      (worker_snapshots [[1], [2], [3]] [[4]] [[0], [0], [0]] { row_start := 0, row_end := 3 }
        ⟨fun n => n, fun _ => 0, none⟩ 3) :=
  (snapshots_monotone [[1], [2], [3]] [[4]] [[0], [0], [0]] { row_start := 0, row_end := 3 }
    ⟨fun n => n, fun _ => 0, none⟩ 3).2.1
    (fun a b h => by
      show ((a : Nat) : ℚ) ≤ ((b : Nat) : ℚ)
      exact_mod_cast h)

/-! ## The Run command (MMS.cpp) -/

/-- C13. The Run command of the window starts `RunComputation` (on its own thread) if and
only if the three entered dimensions are all greater than `0`; when one of them is
`≤ 0` the error box is shown, nothing else happens (no computation thread) and the
Run button is left as it was (enabled); when they are all positive the button is
disabled while the computation runs. -/
theorem run_command_validates (ra ca cb : Int) (g : Gui) :
    ((on_run ra ca cb g).events = g.events ++ [GuiEvent.computation ra ca cb] ↔
      (0 < ra ∧ 0 < ca ∧ 0 < cb)) ∧
    ((ra ≤ 0 ∨ ca ≤ 0 ∨ cb ≤ 0) →
      (on_run ra ca cb g).events = g.events ++ [GuiEvent.errorBox] ∧
      (on_run ra ca cb g).run_enabled = g.run_enabled ∧
      (on_run ra ca cb g).run_busy = g.run_busy) ∧
    ((0 < ra ∧ 0 < ca ∧ 0 < cb) →
      (on_run ra ca cb g).run_enabled = false ∧ (on_run ra ca cb g).run_busy = true) := by
  by_cases h : ra ≤ 0 ∨ ca ≤ 0 ∨ cb ≤ 0
  · have hn : ¬ (0 < ra ∧ 0 < ca ∧ 0 < cb) := by omega
    have e : on_run ra ca cb g = { g with events := g.events ++ [GuiEvent.errorBox] } := by
      unfold on_run
      rw [if_pos h]
    refine ⟨⟨fun h2 => ?_, fun h2 => absurd h2 hn⟩, fun _ => ?_, fun h2 => absurd h2 hn⟩
    · rw [e] at h2
      have h3 := List.append_cancel_left h2
      simp at h3
    · rw [e]
      exact ⟨rfl, rfl, rfl⟩
  · have hp : 0 < ra ∧ 0 < ca ∧ 0 < cb := by omega
    have e : on_run ra ca cb g = { g with
        run_enabled := false
        run_busy := true
        events := g.events ++ [GuiEvent.computation ra ca cb] } := by
      unfold on_run
      rw [if_neg h]
    refine ⟨⟨fun _ => hp, fun _ => ?_⟩, fun h2 => absurd h2 h, fun _ => ?_⟩
    · rw [e]
    · rw [e]
      exact ⟨rfl, rfl⟩

/-- The Run command with a zero inner dimension on an idle window. -/
theorem run_command_validates_witness :
    (on_run 3 0 2 ⟨true, false, []⟩).events = [] ++ [GuiEvent.errorBox] ∧
    (on_run 3 0 2 ⟨true, false, []⟩).run_enabled = true ∧
    (on_run 3 0 2 ⟨true, false, []⟩).run_busy = false :=
  (run_command_validates 3 0 2 ⟨true, false, []⟩).2.1 (by decide)

/-! ## The final report -/

/-- The summary loop over all the workers: it returns, `total_cpu_time` is the sum of
the `total_time` of the records, and the `i`-th report carries the statistics of the
samples of `metrics[i]`. -/
theorem summaryLoop_ok (ms : List ThreadMetrics) (d : List (Int × Int)) :
    ∀ n, n ≤ ms.length → n ≤ d.length →
      ∃ out, summaryLoop ms d n = some (((ms.take n).map (fun m => m.total_time)).sum, out) ∧
        out.length = n ∧
        ∀ i m, i < n → ms[i]? = some m →
          ∃ rep, out[i]? = some rep ∧ rep.total_time = m.total_time ∧
            rep.avg_cpu = (cpu_stats m.cpu_samples).1 ∧
            rep.max_cpu = (cpu_stats m.cpu_samples).2 := by
  intro n
  induction n with
  | zero =>
    intro _ _
    exact ⟨[], by simp [summaryLoop], rfl, fun i m hi _ => absurd hi (Nat.not_lt_zero i)⟩
  | succ n ih =>
    intro h1 h2
    obtain ⟨out, e, hl, hrep⟩ := ih (by omega) (by omega)
    have hm : ms[n]? = some ms[n] := List.getElem?_eq_getElem (by omega)
    have hd : d[n]? = some d[n] := List.getElem?_eq_getElem (by omega)
    refine ⟨out ++ [⟨n, (ms[n]).core_id, (ms[n]).native_tid, (d[n]).1, (d[n]).2 - 1,
      (d[n]).2 - (d[n]).1, (ms[n]).total_time, (cpu_stats (ms[n]).cpu_samples).1,
      (cpu_stats (ms[n]).cpu_samples).2⟩], ?_, ?_, ?_⟩
    · have hs : ((ms.take (n + 1)).map (fun m => m.total_time)).sum
          = ((ms.take n).map (fun m => m.total_time)).sum + (ms[n]).total_time := by
        rw [List.take_succ, hm]
        simp only [Option.toList, List.map_append, List.sum_append, List.map_cons, List.map_nil,
          List.sum_cons, List.sum_nil, add_zero]
      rw [summaryLoop, e, hs]
      simp only [hm, hd]
    · rw [List.length_append, hl]
      rfl
    · intro i m hi hmi
      by_cases c : i = n
      · subst c
        rw [hm] at hmi
        cases hmi
        refine ⟨⟨i, (ms[i]).core_id, (ms[i]).native_tid, (d[i]).1, (d[i]).2 - 1,
          (d[i]).2 - (d[i]).1, (ms[i]).total_time, (cpu_stats (ms[i]).cpu_samples).1,
          (cpu_stats (ms[i]).cpu_samples).2⟩, ?_, rfl, rfl, rfl⟩
        rw [List.getElem?_append_right (by omega), hl]
        simp
      · obtain ⟨rep, e1, e2⟩ := hrep i m (by omega) hmi
        exact ⟨rep, by rw [List.getElem?_append_left (by omega)]; exact e1, e2⟩

/-- C15. The cumulative CPU time computed by the summary loop is the sum of the
`total_time` of every worker; the speedup is reported only when the wall-clock time
and the cumulative CPU time are both `> 0`, is then their quotient and is
non-negative; in every other case (zero wall time included) the report is the
"too fast to measure" message, that branch containing no division. -/
theorem speedup_summary (ms : List ThreadMetrics) (d : List (Int × Int))
    (hlen : d.length = ms.length) (global_elapsed total_cpu_time : ℚ) :
    (∃ out, summaryLoop ms d ms.length
        = some ((ms.map (fun m => m.total_time)).sum, out)) ∧
    (∀ x, speedup_report global_elapsed total_cpu_time = SpeedupReport.speedup x →
      0 < global_elapsed ∧ 0 < total_cpu_time ∧ x = total_cpu_time / global_elapsed ∧ 0 ≤ x) ∧
    (0 < global_elapsed ∧ 0 < total_cpu_time →
      speedup_report global_elapsed total_cpu_time
        = SpeedupReport.speedup (total_cpu_time / global_elapsed)) ∧
    (¬ (0 < global_elapsed ∧ 0 < total_cpu_time) →
      speedup_report global_elapsed total_cpu_time = SpeedupReport.tooFast) ∧
    speedup_report 0 total_cpu_time = SpeedupReport.tooFast := by
  refine ⟨?_, ?_, ?_, ?_, ?_⟩
  · obtain ⟨out, e, _⟩ := summaryLoop_ok ms d ms.length (Nat.le_refl _) (by omega)
    rw [List.take_length] at e
    exact ⟨out, e⟩
  · intro x hx
    unfold speedup_report at hx
    by_cases h : global_elapsed > 0 ∧ total_cpu_time > 0
    · rw [if_pos h] at hx
      cases hx
      exact ⟨h.1, h.2, rfl, le_of_lt (div_pos h.2 h.1)⟩
    · rw [if_neg h] at hx
      cases hx
  · intro h
    unfold speedup_report
    rw [if_pos h]
  · intro h
    unfold speedup_report
    rw [if_neg h]
  · unfold speedup_report
    rw [if_neg (fun h => lt_irrefl _ h.1)]

/-- Two workers with 3 s and 5 s of `total_time` and a wall-clock time of 4 s. -/
theorem speedup_summary_witness :
    ∃ out, summaryLoop
        [{ row_start := 0, row_end := 1, total_time := 3 },
         { row_start := 1, row_end := 2, total_time := 5 }] [(0, 1), (1, 2)]
        ([{ row_start := 0, row_end := 1, total_time := 3 },
          { row_start := 1, row_end := 2, total_time := 5 }] : List ThreadMetrics).length
      = some ((([{ row_start := 0, row_end := 1, total_time := 3 },
          { row_start := 1, row_end := 2, total_time := 5 }] : List ThreadMetrics).map
            (fun m => m.total_time)).sum, out) :=
  (speedup_summary
    [{ row_start := 0, row_end := 1, total_time := 3 },
     { row_start := 1, row_end := 2, total_time := 5 }] [(0, 1), (1, 2)] rfl 4 8).1

/-! ## Average and peak of the samples -/

/-- The accumulating loop over the samples, from any starting pair. -/
theorem stat_fold (l : List ℚ) :
    ∀ (a m : ℚ),
      (l.foldl (fun st c => (st.1 + c, if c > st.2 then c else st.2)) (a, m)).1 = a + l.sum ∧
      m ≤ (l.foldl (fun st c => (st.1 + c, if c > st.2 then c else st.2)) (a, m)).2 ∧
      (∀ c ∈ l, c ≤ (l.foldl (fun st c => (st.1 + c, if c > st.2 then c else st.2)) (a, m)).2) ∧
      ((l.foldl (fun st c => (st.1 + c, if c > st.2 then c else st.2)) (a, m)).2 = m ∨
        (l.foldl (fun st c => (st.1 + c, if c > st.2 then c else st.2)) (a, m)).2 ∈ l) := by
  induction l with
  | nil =>
    intro a m
    exact ⟨by simp, le_refl m, fun c hc => (by cases hc), Or.inl rfl⟩
  | cons x xs ih =>
    intro a m
    simp only [List.foldl_cons]
    obtain ⟨h1, h2, h3, h4⟩ := ih (a + x) (if x > m then x else m)
    have hm : m ≤ (if x > m then x else m) := by
      split_ifs with h
      · exact le_of_lt h
      · exact le_refl m
    have hx : x ≤ (if x > m then x else m) := by
      split_ifs with h
      · exact le_refl x
      · exact not_lt.1 h
    refine ⟨by rw [h1, List.sum_cons, add_assoc], le_trans hm h2, ?_, ?_⟩
    · intro c hc
      rcases List.mem_cons.1 hc with h | h
      · rw [h]; exact le_trans hx h2
      · exact h3 c h
    · rcases h4 with h | h
      · rw [h]
        split_ifs with hc
        · exact Or.inr (List.mem_cons_self _ _)
        · exact Or.inl rfl
      · exact Or.inr (List.mem_cons_of_mem _ h)

/-- For a non-empty list of non-negative samples the two printed values are the
arithmetic mean and the maximum. -/
theorem cpu_stats_mean_max {l : List ℚ} (hne : l ≠ []) (hpos : ∀ c ∈ l, 0 ≤ c) :
    (cpu_stats l).1 = l.sum / (l.length : ℚ) ∧ (cpu_stats l).2 ∈ l ∧
      ∀ c ∈ l, c ≤ (cpu_stats l).2 := by
  obtain ⟨h1, _, h3, h4⟩ := stat_fold l 0 0
  have hemp : l.isEmpty = false := by
    cases l with
    | nil => exact absurd rfl hne
    | cons x xs => rfl
  have e1 : (cpu_stats l).1 = (sample_loop l).1 / (l.length : ℚ) := by
    simp [cpu_stats, hemp]
  have e2 : (cpu_stats l).2 = (sample_loop l).2 := by
    simp [cpu_stats, hemp]
  rw [e1, e2]
  unfold sample_loop
  refine ⟨by rw [h1, zero_add], ?_, h3⟩
  rcases h4 with h | h
  · cases l with
    | nil => exact absurd rfl hne
    | cons x xs =>
      have hx0 : x ≤ 0 := by
        have := h3 x (List.mem_cons_self _ _)
        rwa [h] at this
      have hx : x = 0 := le_antisymm hx0 (hpos x (List.mem_cons_self _ _))
      rw [h, ← hx]
      exact List.mem_cons_self _ _
  · exact h

theorem sample_nonneg {dcpu dwall : ℚ} (h : 0 ≤ dcpu) : 0 ≤ sample dcpu dwall := by
  unfold sample
  split_ifs with hw
  · have hpos : (0 : ℚ) < dwall := lt_trans (by norm_num) hw
    exact mul_nonneg (div_nonneg h (le_of_lt hpos)) (by norm_num)
  · exact le_refl 0

/-- With non-decreasing readings of the thread CPU time, every sample that a worker
appends is non-negative. -/
theorem worker_samples_nonneg {A B C : Matrix} {info : ThreadMetrics} {env : Env}
    (hmono : Monotone env.cpu) (h0 : ∀ c ∈ info.cpu_samples, 0 ≤ c) :
    ∀ (n : Nat) (s : WState), worker_state A B C info env n = some s →
      ∀ c ∈ s.info.cpu_samples, 0 ≤ c := by
  intro n
  induction n with
  | zero =>
    intro s hs
    rw [worker_state_zero hs]
    exact h0
  | succ n ih =>
    intro s hs
    obtain ⟨s1, e1, hp, hn⟩ := worker_state_succ hs
    by_cases hr : reports (info.row_end - info.row_start) n
    · obtain ⟨i1, _⟩ := hp hr
      obtain ⟨_, _, _, _, _, hc, _⟩ := worker_state_static n s1 e1
      rw [i1, publish_cpu_samples]
      intro c hc2
      rcases List.mem_append.1 hc2 with h | h
      · exact ih s1 e1 c h
      · rw [List.mem_singleton] at h
        rw [h]
        apply sample_nonneg
        rw [hc]
        exact sub_nonneg.2 (hmono (Nat.sub_le _ _))
    · obtain ⟨i1, _⟩ := hn hr
      rw [i1]
      exact ih s1 e1

/-- C16. In the per-worker summary, for a worker with a non-empty list of CPU samples
(which are non-negative), the reported average is the arithmetic mean of the samples
and the reported peak is their maximum; and the samples that `worker_func` leaves in
a fresh record are non-negative whenever the readings of the thread CPU time do not
decrease. -/
theorem summary_mean_and_peak (ms : List ThreadMetrics) (d : List (Int × Int))
    (hlen : d.length = ms.length) (i : Nat) (m : ThreadMetrics) (hm : ms[i]? = some m)
    (hne : m.cpu_samples ≠ []) (hpos : ∀ c ∈ m.cpu_samples, 0 ≤ c) :
    (∃ total out rep, summaryLoop ms d ms.length = some (total, out) ∧ out[i]? = some rep ∧
      rep.avg_cpu = m.cpu_samples.sum / (m.cpu_samples.length : ℚ) ∧
      rep.max_cpu ∈ m.cpu_samples ∧ ∀ c ∈ m.cpu_samples, c ≤ rep.max_cpu) ∧
    (∀ (A B C : Matrix) (info : ThreadMetrics) (env : Env) (r : WState),
      Monotone env.cpu → info.cpu_samples = [] → worker_func A B C info env = some r →
      ∀ c ∈ r.info.cpu_samples, 0 ≤ c) := by
  constructor
  · obtain ⟨out, e, _, hrep⟩ := summaryLoop_ok ms d ms.length (Nat.le_refl _) (by omega)
    have hi : i < ms.length := by
      by_contra hcon
      rw [List.getElem?_eq_none (by omega)] at hm
      cases hm
    obtain ⟨rep, e1, _, e3, e4⟩ := hrep i m hi hm
    obtain ⟨c1, c2, c3⟩ := cpu_stats_mean_max hne hpos
    exact ⟨_, out, rep, e, e1, by rw [e3]; exact c1, by rw [e4]; exact c2,
      by rw [e4]; exact c3⟩
  · intro A B C info env r hmono hemp hr
    rw [worker_func_eq_state] at hr
    exact worker_samples_nonneg hmono (by rw [hemp]; intro c hc; cases hc) _ r hr

/-- The summary of one worker with the samples 50, 100 and 75. -/
theorem summary_mean_and_peak_witness :
    ∃ total out rep,
      summaryLoop [{ row_start := 0, row_end := 3, cpu_samples := [50, 100, 75] }] [(0, 3)]
        ([{ row_start := 0, row_end := 3, cpu_samples := [50, 100, 75] }]
          : List ThreadMetrics).length = some (total, out) ∧
      out[0]? = some rep ∧
      rep.avg_cpu = ([50, 100, 75] : List ℚ).sum / (([50, 100, 75] : List ℚ).length : ℚ) ∧
      rep.max_cpu ∈ ([50, 100, 75] : List ℚ) ∧ ∀ c ∈ ([50, 100, 75] : List ℚ), c ≤ rep.max_cpu :=
  (summary_mean_and_peak [{ row_start := 0, row_end := 3, cpu_samples := [50, 100, 75] }]
    [(0, 3)] rfl 0 { row_start := 0, row_end := 3, cpu_samples := [50, 100, 75] } rfl
    (by simp) (by
      intro c hc
      simp only [List.mem_cons, List.mem_singleton, List.not_mem_nil, or_false] at hc
      rcases hc with h | h | h <;> rw [h] <;> norm_num)).1

/-! ## `generate_matrix` and the determinism of a run -/

theorem genJ_ok (draw : Nat → Int) {r c i : Nat} (hi : i < r) :
    ∀ (n k : Nat) (M : Matrix), n ≤ c → hasShape M r c →
      ∃ M2, genJ draw i n (M, k) = some (M2, k + n) ∧ hasShape M2 r c := by
  intro n
  induction n with
  | zero =>
    intro k M _ hM
    exact ⟨M, rfl, hM⟩
  | succ n ih =>
    intro k M hn hM
    obtain ⟨M1, e1, sh1⟩ := ih k M (by omega) hM
    obtain ⟨M2, e2, sh2, _⟩ := store_ok sh1 hi (by omega : n < c) (draw (k + n))
    refine ⟨M2, ?_, sh2⟩
    rw [genJ, e1]
    simp only [e2]
    rfl

theorem genI_ok (draw : Nat → Int) {r c : Nat} :
    ∀ (n k : Nat) (M : Matrix), n ≤ r → hasShape M r c →
      ∃ M2, genI draw c n (M, k) = some (M2, k + n * c) ∧ hasShape M2 r c := by
  intro n
  induction n with
  | zero =>
    intro k M _ hM
    exact ⟨M, by simp [genI], hM⟩
  | succ n ih =>
    intro k M hn hM
    obtain ⟨M1, e1, sh1⟩ := ih k M (by omega) hM
    obtain ⟨M2, e2, sh2⟩ := genJ_ok draw (by omega : n < r) c (k + n * c) M1 (Nat.le_refl c) sh1
    refine ⟨M2, ?_, sh2⟩
    rw [genI, e1]
    simp only [e2]
    congr 2
    rw [Nat.succ_mul, Nat.add_assoc]

/-- The function `generate_matrix` with non-negative sizes returns a matrix of the shape
asked for and draws one value per cell. -/
theorem generate_matrix_ok (draw : Nat → Int) (r c k : Nat) :
    ∃ M, generate_matrix draw (r : Int) (c : Int) k = some (M, k + r * c) ∧ hasShape M r c := by
  obtain ⟨M, e, sh⟩ := genI_ok draw r k (List.replicate r (List.replicate c 0))
    (Nat.le_refl r) (zeros_shape r c)
  refine ⟨M, ?_, sh⟩
  have hdim : (0 : Int) ≤ (r : Int) ∧ (0 : Int) ≤ (c : Int) := ⟨by omega, by omega⟩
  rw [generate_matrix, if_pos hdim]
  simp only [Int.toNat_ofNat]
  exact e

/-- The matrices that `main` hands to `main_setup` depend on the dimensions and on the
values drawn only. -/
theorem main_prepare_eq (draw : Nat → Int) (ra ca cb : Nat) :
    ∃ A B, hasShape A ra ca ∧ hasShape B ca cb ∧
      ∀ hc, main_prepare draw hc (ra : Int) (ca : Int) (cb : Int)
        = main_setup A B (ra : Int) (cb : Int) hc := by
  obtain ⟨A, eA, shA⟩ := generate_matrix_ok draw ra ca 0
  obtain ⟨B, eB, shB⟩ := generate_matrix_ok draw ca cb (0 + ra * ca)
  refine ⟨A, B, shA, shB, ?_⟩
  intro hc
  rw [main_prepare, eA]
  simp only [eB]

theorem run_threads_inputs (envs : Nat → Env) :
    ∀ (ts : List Nat) (w w2 : World), run_threads envs w ts = some w2 →
      w2.A = w.A ∧ w2.B = w.B := by
  intro ts
  induction ts with
  | nil =>
    intro w w2 h
    simp only [run_threads, Option.some.injEq] at h
    subst h
    exact ⟨rfl, rfl⟩
  | cons t ts ih =>
    intro w w2 h
    rw [run_threads] at h
    cases e1 : run_thread envs w t with
    | none => simp [e1] at h
    | some w1 =>
      simp only [e1] at h
      obtain ⟨_, _, _, _, eA, eB, _⟩ := run_thread_some e1
      obtain ⟨a, b⟩ := ih w1 w2 h
      exact ⟨by rw [a, eA], by rw [b, eB]⟩

/-- The workers of the partition, in any order, leave in `C` what `multiply` returns. -/
theorem parallel_matches_multiply (A B : Matrix) (ra ca cb hc : Nat) (envs : Nat → Env)
    (hA : hasShape A ra ca) (hB : hasShape B ca cb)
    (h1 : 1 ≤ ra) (h2 : 1 ≤ ca) (h4 : 1 ≤ coreCount hc) :
    ∃ w0 Cm, main_setup A B (ra : Int) (cb : Int) hc = some w0 ∧ multiply A B = some Cm ∧
      w0.A = A ∧ w0.B = B ∧
      ∀ order : List Nat, order.Perm (List.range w0.metrics.length) →
        ∃ w, run_threads envs w0 order = some w ∧ w.C = Cm := by
  obtain ⟨w0, e0, hrun⟩ := parallel_run A B ra ca cb hc envs hA hB h1 h2 h4
  obtain ⟨Cm, em, shm, vm⟩ := multiply_ok hA hB h1 h2
  obtain ⟨T, base, rem, _, _, _, _, hset⟩ := main_setup_spec A B ra cb hc h1 h4
  rw [e0] at hset
  simp only [Option.some.injEq] at hset
  refine ⟨w0, Cm, e0, em, by rw [hset], by rw [hset], ?_⟩
  intro order hperm
  obtain ⟨w, e, sh, v⟩ := hrun order hperm
  refine ⟨w, e, matrix_ext sh shm ?_⟩
  intro i j hi hj
  rw [v i j hi hj, vm i j hi hj]

/-- C14. For `rows_a, cols_a, cols_b ≥ 1` and the values drawn by the generator seeded with
the fixed seed: there are matrices `A`, `B` and `Cm`, depending on the dimensions and on
these values only, with `Cm` what `multiply(A, B)` returns, such that every run — any
core count `≥ 1`, any clock readings, any order of the workers — generates `A` and `B`,
keeps them, and ends with `C = Cm`. -/
theorem runs_are_deterministic (draw : Nat → Int) (rows_a cols_a cols_b : Nat)
    (h1 : 1 ≤ rows_a) (h2 : 1 ≤ cols_a) (_h3 : 1 ≤ cols_b) :
    ∃ A B Cm, hasShape A rows_a cols_a ∧ hasShape B cols_a cols_b ∧ multiply A B = some Cm ∧
      ∀ (hc : Nat) (envs : Nat → Env), 1 ≤ coreCount hc →
        ∃ w0, main_prepare draw hc (rows_a : Int) (cols_a : Int) (cols_b : Int) = some w0 ∧
          w0.A = A ∧ w0.B = B ∧
          ∀ order : List Nat, order.Perm (List.range w0.metrics.length) →
            ∃ w, run_threads envs w0 order = some w ∧ w.A = A ∧ w.B = B ∧ w.C = Cm := by
  obtain ⟨A, B, shA, shB, hprep⟩ := main_prepare_eq draw rows_a cols_a cols_b
  obtain ⟨Cm, em, _⟩ := multiply_ok shA shB h1 h2
  refine ⟨A, B, Cm, shA, shB, em, ?_⟩
  intro hc envs h4
  obtain ⟨w0, Cm2, e0, em2, eA, eB, hrun⟩ :=
    parallel_matches_multiply A B rows_a cols_a cols_b hc envs shA shB h1 h2 h4
  rw [em] at em2
  cases em2
  refine ⟨w0, by rw [hprep hc]; exact e0, eA, eB, ?_⟩
  intro order hperm
  obtain ⟨w, e, eC⟩ := hrun order hperm
  obtain ⟨a, b⟩ := run_threads_inputs envs order w0 w e
  exact ⟨w, e, by rw [a, eA], by rw [b, eB], eC⟩

/-- Runs on 2 × 3 by 3 × 2 matrices drawn from the values 0, 1, ..., 9, 0, 1, ... -/
theorem runs_are_deterministic_witness :
    ∃ A B Cm, hasShape A 2 3 ∧ hasShape B 3 2 ∧ multiply A B = some Cm ∧
      ∀ (hc : Nat) (envs : Nat → Env), 1 ≤ coreCount hc →
        ∃ w0, main_prepare (fun n => ((n % 10 : Nat) : Int)) hc ((2 : Nat) : Int)
            ((3 : Nat) : Int) ((2 : Nat) : Int) = some w0 ∧
          w0.A = A ∧ w0.B = B ∧
          ∀ order : List Nat, order.Perm (List.range w0.metrics.length) →
            ∃ w, run_threads envs w0 order = some w ∧ w.A = A ∧ w.B = B ∧ w.C = Cm :=
  runs_are_deterministic (fun n => ((n % 10 : Nat) : Int)) 2 3 2 (by decide) (by decide)
    (by decide)

/-! ## Non-positive dimensions in `main` (MMP.cpp) -/

/-- C12 (what the code does). The `main` of MMP.cpp has no test of the dimensions. With
`rows_a = 2`, `cols_a = 2`, `cols_b = 0` (values drawn 0, 1, 2, ...; 8 cores) nothing is
rejected: `A` and `B` are generated, `C` is allocated, the rows are split into two
ranges, two metrics records are created and both workers run to completion. With
`rows_a = 0`, `cols_a = cols_b = 1` both matrices are generated as well, and the run
then stops in the division `rows_a / num_threads` by zero. -/
theorem main_accepts_zero_columns :
    (∃ w0, main_prepare (fun n => ((n % 10 : Nat) : Int)) 8 2 2 0 = some w0 ∧
      w0.A = [[0, 1], [2, 3]] ∧ w0.B = [[], []] ∧ w0.C = [[], []] ∧
      w0.metrics.length = 2 ∧
      ∃ w, run_threads (fun _ => ⟨fun n => n, fun n => n, none⟩) w0 [0, 1] = some w) ∧
    generate_matrix (fun n => ((n % 10 : Nat) : Int)) 0 1 0 = some ([], 0) ∧
    generate_matrix (fun n => ((n % 10 : Nat) : Int)) 1 1 0 = some ([[0]], 1) ∧
    distribute 8 0 = none ∧
    main_prepare (fun n => ((n % 10 : Nat) : Int)) 8 0 1 1 = none := by
  have hA0 : generate_matrix (fun n => ((n % 10 : Nat) : Int)) 0 1 0 = some ([], 0) := by
    decide
  have hB0 : generate_matrix (fun n => ((n % 10 : Nat) : Int)) 1 1 0 = some ([[0]], 1) := by
    decide
  have hd0 : distribute 8 0 = none := by decide
  have hnone : main_prepare (fun n => ((n % 10 : Nat) : Int)) 8 0 1 1 = none := by
    rw [main_prepare, hA0]
    simp only [hB0]
    rw [main_setup, hd0]
  refine ⟨?_, hA0, hB0, hd0, hnone⟩
  have hA : generate_matrix (fun n => ((n % 10 : Nat) : Int)) 2 2 0
      = some ([[0, 1], [2, 3]], 4) := by decide
  have hB : generate_matrix (fun n => ((n % 10 : Nat) : Int)) 2 0 4
      = some ([[], []], 4) := by decide
  have hprep : main_prepare (fun n => ((n % 10 : Nat) : Int)) 8 2 2 0
      = main_setup [[0, 1], [2, 3]] [[], []] 2 0 8 := by
    rw [main_prepare, hA]
    simp only [hB]
  obtain ⟨w0, e0, hrun⟩ := parallel_run [[0, 1], [2, 3]] [[], []] 2 2 0 8
    (fun _ => ⟨fun n => n, fun n => n, none⟩) (by decide) (by decide) (by decide) (by decide)
    (by decide)
  have e1 : main_setup [[0, 1], [2, 3]] [[], []] 2 0 8 = some w0 := e0
  have hval : (main_setup [[0, 1], [2, 3]] [[], []] 2 0 8).map
      (fun w => (w.A, w.B, w.C, w.metrics.length))
      = some ([[0, 1], [2, 3]], [[], []], [[], []], 2) := by decide
  rw [e1] at hval
  simp only [Option.map_some', Option.some.injEq, Prod.mk.injEq] at hval
  obtain ⟨a, b, c, l⟩ := hval
  obtain ⟨w, e, _⟩ := hrun [0, 1] (by rw [l]; decide)
  exact ⟨w0, by rw [hprep]; exact e1, a, b, c, l, w, e⟩

/-! ## Safety of the partition and of the element accesses -/

theorem coreCount_pos {hc : Nat} (h : hc < 2147483648) : 1 ≤ coreCount hc := by
  unfold coreCount num_cores wrap32
  split_ifs with h0
  · decide
  · have h1 : (1 : Int) ≤ (hc : Int) := by omega
    have h2 : (hc : Int) < 2147483648 := by omega
    omega

/-- C25. For `rows_a ≥ 1` and a value of `hardware_concurrency()` in `[0, 2^31)` (`0`
being replaced by `4`), the core count is at least `1`, `num_threads = min(core count,
rows_a)` is at least `1` when the partition is computed, and the partition is computed:
`rows_a / num_threads` and `rows_a % num_threads` do not divide by zero. -/
theorem num_threads_positive (hc : Nat) (rows_a : Int) (h1 : 1 ≤ rows_a)
    (h2 : hc < 2147483648) :
    1 ≤ coreCount hc ∧ 1 ≤ min (coreCount hc) rows_a ∧ min (coreCount hc) rows_a ≠ 0 ∧
      ∃ d, distribute hc rows_a = some d := by
  have hc1 := coreCount_pos h2
  have hmin : 1 ≤ min (coreCount hc) rows_a := le_min hc1 h1
  obtain ⟨T, base, rem, _, _, _, _, _, _, _, _, hd⟩ := distribute_spec hc rows_a h1 hc1
  exact ⟨hc1, hmin, by omega, _, hd⟩

/-- Seven rows when `hardware_concurrency()` returns `0`: four threads. -/
theorem num_threads_positive_witness :
    1 ≤ coreCount 0 ∧ 1 ≤ min (coreCount 0) 7 ∧ min (coreCount 0) 7 ≠ 0 ∧
      ∃ d, distribute 0 7 = some d :=
  num_threads_positive 0 7 (by decide) (by decide)

/-- C26. For `A` with `rows_a ≥ 1` rows of length `cols_a ≥ 1`, `B` with `cols_a` rows of
length `cols_b`, `C` with `rows_a` rows of length `cols_b` and a range
`0 ≤ row_start ≤ row_end ≤ rows_a`, every element access of `worker_func` is inside its
vector: `A[0]` and `B[0]` exist, every `A[i][k]`, `B[k][j]` and `C[i][j]` of the loops
exists, and the worker gets through every row and returns (a run in which an access
fell outside would have no result). -/
theorem worker_accesses_in_bounds (A B C : Matrix) (rows_a cols_a cols_b : Nat)
    (info : ThreadMetrics) (env : Env)
    (hA : hasShape A rows_a cols_a) (hB : hasShape B cols_a cols_b)
    (hC : hasShape C rows_a cols_b) (hra : 1 ≤ rows_a) (hca : 1 ≤ cols_a)
    (h0 : 0 ≤ info.row_start) (h1 : info.row_start ≤ info.row_end)
    (h2 : info.row_end ≤ (rows_a : Int)) :
    (∃ a0 b0, A[0]? = some a0 ∧ B[0]? = some b0) ∧
    (∀ i j k : Nat, info.row_start ≤ (i : Int) → (i : Int) < info.row_end → j < cols_b →
      k < cols_a →
      (∃ a, read A (i : Int) k = some a) ∧ (∃ b, entry B k j = some b) ∧
      ∀ x, ∃ C2, store C (i : Int) j x = some C2) ∧
    (∀ n : Nat, (n : Int) ≤ info.row_end - info.row_start →
      ∃ s, worker_state A B C info env n = some s) ∧
    ∃ r, worker_func A B C info env = some r := by
  obtain ⟨a0, ea, _⟩ := first_row hA hra
  obtain ⟨b0, eb, _⟩ := first_row hB hca
  refine ⟨⟨a0, b0, ea, eb⟩, ?_, ?_, ?_⟩
  · intro i j k hi1 hi2 hj hk
    have hi : i < rows_a := by omega
    refine ⟨⟨(A.getD i []).getD k 0, ?_⟩, ⟨_, entry_of_shape hB hk hj⟩, ?_⟩
    · rw [read_natCast]
      exact entry_of_shape hA hi hk
    · intro x
      obtain ⟨C2, e, _⟩ := store_ok hC hi hj x
      exact ⟨C2, e⟩
  · intro n hn
    exact worker_state_ok hA hB hC hra hca info env h0 n (by omega)
  · obtain ⟨r, e, _⟩ := worker_ok hA hB hC hra hca info env h0 h1 h2
    exact ⟨r, e⟩

/-- A worker on the second row of a 2 × 2 product. -/
theorem worker_accesses_in_bounds_witness :
    ∃ r, worker_func [[1, 2], [3, 4]] [[5, 6], [7, 8]] [[0, 0], [0, 0]]
      { row_start := 1, row_end := 2 } ⟨fun n => n, fun n => n, none⟩ = some r :=
  (worker_accesses_in_bounds [[1, 2], [3, 4]] [[5, 6], [7, 8]] [[0, 0], [0, 0]] 2 2 2
    { row_start := 1, row_end := 2 } ⟨fun n => n, fun n => n, none⟩
    (by decide) (by decide) (by decide) (by decide) (by decide) (by decide) (by decide)
    (by decide)).2.2.2

/-! ## The sequential product -/

/-- C30. For a non-empty `A` (`rows_a ≥ 1` rows of length `cols_a ≥ 1`) and `B` (`cols_a`
rows of length `cols_b`), `multiply(A, B)` of MMS.cpp returns a matrix with exactly
`rows_a` rows and `cols_b` columns whose entry `(i, j)` is the sum over `k < cols_a` of
`A[i][k] * B[k][j]` reduced to 32 bits. -/
theorem multiply_returns_product (A B : Matrix) (rows_a cols_a cols_b : Nat)
    (hA : hasShape A rows_a cols_a) (hB : hasShape B cols_a cols_b)
    (hra : 1 ≤ rows_a) (hca : 1 ≤ cols_a) :
    ∃ Cm, multiply A B = some Cm ∧ hasShape Cm rows_a cols_b ∧
      ∀ i j, i < rows_a → j < cols_b →
        entry Cm i j = some (wrap32 (dot A B i j cols_a)) :=
  multiply_ok hA hB hra hca

/-- The product of a 2 × 3 and a 3 × 2 matrix. -/
theorem multiply_returns_product_witness :
    ∃ Cm, multiply [[1, 2, 3], [4, 5, 6]] [[1, 0], [0, 1], [2, 2]] = some Cm ∧
      hasShape Cm 2 2 ∧
      ∀ i j, i < 2 → j < 2 →
        entry Cm i j
          = some (wrap32 (dot [[1, 2, 3], [4, 5, 6]] [[1, 0], [0, 1], [2, 2]] i j 3)) :=
  multiply_returns_product [[1, 2, 3], [4, 5, 6]] [[1, 0], [0, 1], [2, 2]] 2 3 2
    (by decide) (by decide) (by decide) (by decide)

/-! ## The accumulator on matrices of digits -/

theorem getD_digit {M : Matrix} (h : digits M) (i k : Nat) :
    0 ≤ (M.getD i []).getD k 0 ∧ (M.getD i []).getD k 0 ≤ 9 := by
  rw [List.getD_eq_getElem?_getD, List.getD_eq_getElem?_getD]
  cases hr : M[i]? with
  | none => simp
  | some row =>
    simp only [Option.getD_some]
    cases hx : row[k]? with
    | none => simp
    | some x => simpa using h row (List.getElem?_mem hr) x (List.getElem?_mem hx)

/-- The exact partial dot products of matrices of digits are between `0` and `81 n`. -/
theorem dot_bounds {A B : Matrix} (dA : digits A) (dB : digits B) (i j : Nat) :
    ∀ n : Nat, 0 ≤ dot A B i j n ∧ dot A B i j n ≤ 81 * (n : Int) := by
  intro n
  induction n with
  | zero => simp [dot]
  | succ n ih =>
    rw [dot_succ]
    obtain ⟨a0, a9⟩ := getD_digit dA i n
    obtain ⟨b0, b9⟩ := getD_digit dB n j
    have p0 : 0 ≤ (A.getD i []).getD n 0 * (B.getD n []).getD j 0 := mul_nonneg a0 b0
    have p1 : (A.getD i []).getD n 0 * (B.getD n []).getD j 0 ≤ 81 := by
      nlinarith [a0, a9, b0, b9]
    push_cast
    constructor
    · linarith [ih.1]
    · linarith [ih.2]

theorem wrap32_of_range {x : Int} (h0 : 0 ≤ x) (h1 : x ≤ 2147483647) : wrap32 x = x := by
  unfold wrap32
  omega

theorem store_digits {M M2 : Matrix} {i : Int} {j : Nat} {x : Int}
    (h : store M i j x = some M2) (dM : digits M) (hx : 0 ≤ x ∧ x ≤ 9) : digits M2 := by
  unfold store at h
  cases hrow : idx? M i with
  | none => simp [hrow] at h
  | some row =>
    simp only [hrow] at h
    by_cases hj : j < row.length
    · simp only [hj, if_true, Option.some.injEq] at h
      subst h
      have hmem : row ∈ M := by
        unfold idx? at hrow
        split at hrow
        · exact List.getElem?_mem hrow
        · cases hrow
      intro r hr y hy
      rcases List.mem_or_eq_of_mem_set hr with h1 | h1
      · exact dM r h1 y hy
      · subst h1
        rcases List.mem_or_eq_of_mem_set hy with h2 | h2
        · exact dM row hmem y h2
        · rw [h2]; exact hx
    · simp [hj] at h

theorem genJ_digits {draw : Nat → Int} (hd : ∀ n, 0 ≤ draw n ∧ draw n ≤ 9) (i : Nat) :
    ∀ (n : Nat) (s s2 : Matrix × Nat), genJ draw i n s = some s2 → digits s.1 → digits s2.1 := by
  intro n
  induction n with
  | zero =>
    intro s s2 h ds
    simp only [genJ, Option.some.injEq] at h
    subst h
    exact ds
  | succ n ih =>
    intro s s2 h ds
    rw [genJ] at h
    cases e1 : genJ draw i n s with
    | none => simp [e1] at h
    | some s1 =>
      simp only [e1] at h
      cases e2 : store s1.1 (i : Int) n (draw s1.2) with
      | none => simp [e2] at h
      | some m2 =>
        simp only [e2, Option.some.injEq] at h
        subst h
        exact store_digits e2 (ih s s1 e1 ds) (hd _)

theorem genI_digits {draw : Nat → Int} (hd : ∀ n, 0 ≤ draw n ∧ draw n ≤ 9) (cols : Nat) :
    ∀ (n : Nat) (s s2 : Matrix × Nat), genI draw cols n s = some s2 → digits s.1 →
      digits s2.1 := by
  intro n
  induction n with
  | zero =>
    intro s s2 h ds
    simp only [genI, Option.some.injEq] at h
    subst h
    exact ds
  | succ n ih =>
    intro s s2 h ds
    rw [genI] at h
    cases e1 : genI draw cols n s with
    | none => simp [e1] at h
    | some s1 =>
      simp only [e1] at h
      exact genJ_digits hd n cols s1 s2 h (ih s s1 e1 ds)

/-- Whatever `generate_matrix` returns is a matrix of digits, the values of `dist(rng)`
being in `[0, 9]`. -/
theorem generate_matrix_digits {draw : Nat → Int} (hd : ∀ n, 0 ≤ draw n ∧ draw n ≤ 9)
    {rows cols : Int} {k : Nat} {g : Matrix × Nat}
    (h : generate_matrix draw rows cols k = some g) : digits g.1 := by
  unfold generate_matrix at h
  split at h
  · refine genI_digits hd _ _ _ g h ?_
    intro row hrow x hx
    rw [List.eq_of_mem_replicate hrow] at hx
    rw [List.eq_of_mem_replicate hx]
    decide
  · cases h

/-- C27. For matrices whose entries all lie in `[0, 9]` (as those of `generate_matrix`
do) and `cols_a ≤ 26512143`: no partial sum of the accumulator leaves the 32-bit range,
the accumulator after `k` steps being the exact partial dot product, between `0` and
`81 k ≤ 2^31 - 1`; and every `C[i][j]` that a worker has computed is the exact dot
product, with `0 ≤ C[i][j] ≤ 81 * cols_a`. -/
theorem digit_product_exact (A B C : Matrix) (rows_a cols_a cols_b : Nat)
    (info : ThreadMetrics) (env : Env)
    (hA : hasShape A rows_a cols_a) (hB : hasShape B cols_a cols_b)
    (hC : hasShape C rows_a cols_b) (dA : digits A) (dB : digits B)
    (hca : cols_a ≤ 26512143)
    (h0 : 0 ≤ info.row_start) (h1 : info.row_start ≤ info.row_end)
    (h2 : info.row_end ≤ (rows_a : Int)) :
    (∀ i j k : Nat, i < rows_a → j < cols_b → k ≤ cols_a →
      sumLoop A B (i : Int) j k = some (dot A B i j k) ∧
      0 ≤ dot A B i j k ∧ dot A B i j k ≤ 81 * (k : Int) ∧ 81 * (k : Int) ≤ 2147483647) ∧
    (∀ r, worker_func A B C info env = some r →
      ∀ i j : Nat, info.row_start ≤ (i : Int) → (i : Int) < info.row_end → j < cols_b →
        entry r.C i j = some (dot A B i j cols_a) ∧
        0 ≤ dot A B i j cols_a ∧ dot A B i j cols_a ≤ 81 * (cols_a : Int)) ∧
    (1 ≤ cols_a → 1 ≤ rows_a → ∃ r, worker_func A B C info env = some r) ∧
    (∀ (draw : Nat → Int) (rows cols : Int) (k : Nat) (g : Matrix × Nat),
      (∀ n, 0 ≤ draw n ∧ draw n ≤ 9) → generate_matrix draw rows cols k = some g →
      digits g.1) := by
  have hexact : ∀ i j k : Nat, k ≤ cols_a → wrap32 (dot A B i j k) = dot A B i j k := by
    intro i j k hk
    obtain ⟨b0, b1⟩ := dot_bounds dA dB i j k
    exact wrap32_of_range b0 (by omega)
  refine ⟨?_, ?_, ?_, ?_⟩
  · intro i j k hi hj hk
    obtain ⟨b0, b1⟩ := dot_bounds dA dB i j k
    refine ⟨?_, b0, b1, by omega⟩
    rw [sumLoop_ok hA hB hi hj k hk, hexact i j k hk]
  · intro r hr i j hi1 hi2 hj
    obtain ⟨_, _, b0, eb, _⟩ := worker_frame hr
    have hca1 : 1 ≤ cols_a := by
      rw [← hB.1]
      cases B with
      | nil => simp at eb
      | cons x xs => simp
    obtain ⟨r2, e, _, v⟩ := worker_ok hA hB hC (by omega) hca1 info env h0 h1 h2
    rw [hr] at e
    cases e
    obtain ⟨b0, b1⟩ := dot_bounds dA dB i j cols_a
    exact ⟨by rw [v i j hi1 hi2 hj, hexact i j cols_a (Nat.le_refl _)], b0, b1⟩
  · intro hc1 hr1
    obtain ⟨r, e, _⟩ := worker_ok hA hB hC hr1 hc1 info env h0 h1 h2
    exact ⟨r, e⟩
  · intro draw rows cols k g hd hg
    exact generate_matrix_digits hd hg

/-- One worker over a 2 × 2 product of matrices of digits. -/
theorem digit_product_exact_witness :
    ∃ r, worker_func [[9, 9], [3, 4]] [[9, 6], [9, 8]] [[0, 0], [0, 0]]
        { row_start := 0, row_end := 2 } ⟨fun n => n, fun n => n, none⟩ = some r ∧
      ∀ i j : Nat, ({ row_start := 0, row_end := 2 } : ThreadMetrics).row_start ≤ (i : Int) →
        (i : Int) < ({ row_start := 0, row_end := 2 } : ThreadMetrics).row_end → j < 2 →
        entry r.C i j = some (dot [[9, 9], [3, 4]] [[9, 6], [9, 8]] i j 2) ∧
        0 ≤ dot [[9, 9], [3, 4]] [[9, 6], [9, 8]] i j 2 ∧
        dot [[9, 9], [3, 4]] [[9, 6], [9, 8]] i j 2 ≤ 81 * ((2 : Nat) : Int) := by
  have h := digit_product_exact [[9, 9], [3, 4]] [[9, 6], [9, 8]] [[0, 0], [0, 0]] 2 2 2
    { row_start := 0, row_end := 2 } ⟨fun n => n, fun n => n, none⟩
    (by decide) (by decide) (by decide) (by decide) (by decide) (by decide) (by decide)
    (by decide) (by decide)
  obtain ⟨r, e⟩ := h.2.2.1 (by decide) (by decide)
  exact ⟨r, e, h.2.1 r e⟩

/-! ## The number of publishes -/

/-- The number of samples in the record after `n` rows: one more for each row followed
by a publish. -/
theorem worker_samples_count {A B C : Matrix} {info : ThreadMetrics} {env : Env} :
    ∀ (n : Nat) (s : WState), worker_state A B C info env n = some s →
      s.info.cpu_samples.length = info.cpu_samples.length
        + (List.range n).countP
            (fun idx => decide (reports (info.row_end - info.row_start) idx)) := by
  intro n
  induction n with
  | zero =>
    intro s hs
    rw [worker_state_zero hs]
    rfl
  | succ n ih =>
    intro s hs
    obtain ⟨s1, e1, _⟩ := worker_state_succ hs
    rw [List.range_succ, List.countP_append]
    by_cases hr : reports (info.row_end - info.row_start) n
    · obtain ⟨i1, _⟩ := worker_publish_step e1 hs hr
      rw [i1, publish_cpu_samples, List.length_append, ih s1 e1]
      simp [hr, Nat.add_assoc]
    · obtain ⟨i1, _⟩ := worker_silent_step e1 hs hr
      rw [i1, ih s1 e1]
      simp [hr]

/-- The report test for a worker with `t ≥ 1` rows, in natural numbers. -/
theorem reports_nat (t idx : Nat) (ht : 1 ≤ t) :
    reports (t : Int) idx ↔ (max 1 (t / 20) ∣ idx + 1 ∨ idx + 1 = t) := by
  rw [reports_iff (by omega : (1 : Int) ≤ (t : Int)) idx]
  have hI : ((max 1 (t / 20) : Nat) : Int) = max 1 ((t : Int) / 20) := by
    push_cast
    rfl
  rw [← hI]
  have hc : (idx : Int) + 1 = ((idx + 1 : Nat) : Int) := by push_cast; rfl
  rw [hc, Int.natCast_dvd_natCast]
  constructor
  · rintro (h | h)
    · exact Or.inl h
    · exact Or.inr (by omega)
  · rintro (h | h)
    · exact Or.inl h
    · exact Or.inr (by omega)

theorem count_multiples (I : Nat) :
    ∀ n, (List.range n).countP (fun idx => decide (I ∣ idx + 1)) = n / I := by
  intro n
  induction n with
  | zero => simp
  | succ n ih =>
    rw [List.range_succ, List.countP_append, ih, Nat.succ_div]
    simp [List.countP_cons]

/-- A worker with `t ≥ 1` rows publishes `(t - 1) / interval + 1` times. -/
theorem count_reports (t : Nat) (ht : 1 ≤ t) :
    (List.range t).countP (fun idx => decide (reports (t : Int) idx))
      = (t - 1) / max 1 (t / 20) + 1 := by
  obtain ⟨m, hm⟩ : ∃ m, t = m + 1 := ⟨t - 1, by omega⟩
  have hlast : reports (t : Int) m := (reports_nat t m ht).2 (Or.inr hm.symm)
  have hfirst : (List.range m).countP (fun idx => decide (reports (t : Int) idx))
      = (List.range m).countP (fun idx => decide (max 1 (t / 20) ∣ idx + 1)) := by
    apply List.countP_congr
    intro idx hidx
    have hlt : idx < m := List.mem_range.1 hidx
    simp only [decide_eq_true_eq]
    rw [reports_nat t idx ht]
    constructor
    · rintro (h | h)
      · exact h
      · omega
    · intro h
      exact Or.inl h
  have hsub : t - 1 = m := by omega
  rw [hsub]
  conv_lhs => rw [hm]
  rw [List.range_succ, List.countP_append, ← hm, hfirst, count_multiples]
  simp [hlast]

/-- The number of publishes is the ceiling of `t / interval` and lies between 1 and 39. -/
theorem publish_count_bounds (t : Nat) (ht : 1 ≤ t) :
    max 1 (t / 20) * ((t - 1) / max 1 (t / 20) + 1 - 1) < t ∧
    t ≤ max 1 (t / 20) * ((t - 1) / max 1 (t / 20) + 1) ∧
    1 ≤ (t - 1) / max 1 (t / 20) + 1 ∧ (t - 1) / max 1 (t / 20) + 1 ≤ 39 := by
  have hI : 0 < max 1 (t / 20) := lt_of_lt_of_le Nat.zero_lt_one (le_max_left _ _)
  refine ⟨?_, ?_, Nat.le_add_left _ _, ?_⟩
  · have := Nat.mul_div_le (t - 1) (max 1 (t / 20))
    simp only [Nat.add_sub_cancel]
    omega
  · have := Nat.lt_mul_div_succ (t - 1) hI
    omega
  · have hlt : (t - 1) / max 1 (t / 20) < 39 := by
      rw [Nat.div_lt_iff_lt_mul hI]
      by_cases h20 : t < 20
      · have : max 1 (t / 20) = 1 := by
          have : t / 20 = 0 := by omega
          rw [this]
          rfl
        rw [this]
        omega
      · have h1 : 1 ≤ t / 20 := by omega
        have : max 1 (t / 20) = t / 20 := max_eq_right h1
        rw [this]
        omega
    omega

/-- C28. For a worker with `total ≥ 1` rows that returns, the number of CPU samples
appended over the whole run, which is the number of snapshots published, is the
ceiling of `total / interval` for `interval = max(1, total / 20)` (integer division):
`interval * (count - 1) < total ≤ interval * count`; it is at least 1 and at most 39. -/
theorem publish_count (A B C : Matrix) (info : ThreadMetrics) (env : Env) (r : WState)
    (h1 : info.row_start < info.row_end) (hr : worker_func A B C info env = some r) :
    ∃ count : Nat,
      r.info.cpu_samples.length = info.cpu_samples.length + count ∧
      (worker_snapshots A B C info env (info.row_end - info.row_start).toNat).length = count ∧
      max 1 ((info.row_end - info.row_start) / 20) * ((count : Int) - 1)
        < info.row_end - info.row_start ∧
      info.row_end - info.row_start
        ≤ max 1 ((info.row_end - info.row_start) / 20) * (count : Int) ∧
      1 ≤ count ∧ count ≤ 39 := by
  obtain ⟨t, ht⟩ := Int.eq_ofNat_of_zero_le (by omega : 0 ≤ info.row_end - info.row_start)
  have ht1 : 1 ≤ t := by omega
  rw [worker_func_eq_state] at hr
  have hcount := worker_samples_count _ r hr
  obtain ⟨_, _, _, hsnap⟩ :=
    worker_snapshots_inv A B C info env (info.row_end - info.row_start).toNat
  have hsn := hsnap r hr
  rw [ht] at hcount hsn ⊢
  simp only [Int.toNat_ofNat] at hcount hsn ⊢
  rw [count_reports t ht1] at hcount hsn
  obtain ⟨b1, b2, b3, b4⟩ := publish_count_bounds t ht1
  have hI : ((max 1 (t / 20) : Nat) : Int) = max 1 ((t : Int) / 20) := by
    push_cast
    rfl
  refine ⟨(t - 1) / max 1 (t / 20) + 1, hcount, hsn, ?_, ?_, b3, b4⟩
  · rw [← hI]
    have : (((t - 1) / max 1 (t / 20) + 1 : Nat) : Int) - 1
        = (((t - 1) / max 1 (t / 20) + 1 - 1 : Nat) : Int) := by
      push_cast
      simp
    rw [this]
    exact_mod_cast b1
  · rw [← hI]
    exact_mod_cast b2

/-- A worker with 45 rows publishes 23 times (interval 2). -/
theorem publish_count_witness :
    ∃ r : WState, ∃ count : Nat,
      r.info.cpu_samples.length
        = ({ row_start := 0, row_end := 45 } : ThreadMetrics).cpu_samples.length + count ∧
      1 ≤ count ∧ count ≤ 39 := by
  obtain ⟨r, er, _⟩ := worker_ok (by decide : hasShape (List.replicate 45 [1]) 45 1)
    (by decide : hasShape [[1]] 1 1) (by decide : hasShape (List.replicate 45 [0]) 45 1)
    (by decide) (by decide)
    { row_start := 0, row_end := 45 } ⟨fun n => n, fun n => n, none⟩ (by decide) (by decide)
    (by decide)
  obtain ⟨count, c1, _, _, _, c5, c6⟩ := publish_count (List.replicate 45 [1]) [[1]]
    (List.replicate 45 [0]) { row_start := 0, row_end := 45 }
    ⟨fun n => n, fun n => n, none⟩ r (by decide) er
  exact ⟨r, count, c1, c5, c6⟩

/-! ## The invariant of the metrics record -/

theorem publish_done (env : Env) (total : Int) (sw : ℚ) (idx : Nat) (s : WState) :
    (publish env total sw idx s).info.done = true ↔
      ((idx : Int) = total - 1 ∨ s.info.done = true) := by
  simp only [publish]
  split
  · rename_i h
    exact ⟨fun _ => Or.inl h, fun _ => rfl⟩
  · rename_i h
    exact ⟨fun hd => Or.inr hd, fun hd => hd.resolve_left h⟩

/-- What holds of the record after `n` rows of a worker that started from a fresh
record: `rows_done` is between `0` and `n`, `progress` is `rows_done * 100 / total`, and
`done` is set only with `rows_done = total`. -/
theorem worker_state_inv {A B C : Matrix} {info : ThreadMetrics} {env : Env}
    (h_rd : info.rows_done = 0) (h_pr : info.progress = 0) (h_dn : info.done = false) :
    ∀ (n : Nat) (s : WState), (n : Int) ≤ info.row_end - info.row_start →
      worker_state A B C info env n = some s →
      0 ≤ s.info.rows_done ∧ s.info.rows_done ≤ (n : Int) ∧
      s.info.progress
        = (s.info.rows_done : ℚ) * 100 / ((info.row_end - info.row_start : Int) : ℚ) ∧
      (s.info.done = true → s.info.rows_done = info.row_end - info.row_start) := by
  intro n
  induction n with
  | zero =>
    intro s _ hs
    rw [worker_state_zero hs]
    simp only [worker_start, h_rd, h_pr, h_dn]
    refine ⟨le_refl 0, by simp, by simp, fun h => by cases h⟩
  | succ n ih =>
    intro s hn hs
    obtain ⟨s1, e1, _⟩ := worker_state_succ hs
    obtain ⟨a, b, c, d⟩ := ih s1 (by push_cast at hn; omega) e1
    by_cases hr : reports (info.row_end - info.row_start) n
    · obtain ⟨i1, _⟩ := worker_publish_step e1 hs hr
      rw [i1, publish_rows_done, publish_progress]
      refine ⟨by omega, by push_cast; omega, rfl, ?_⟩
      intro hd
      rcases (publish_done _ _ _ _ _).1 hd with h | h
      · omega
      · have := d h
        push_cast at hn
        omega
    · obtain ⟨i1, _⟩ := worker_silent_step e1 hs hr
      rw [i1]
      exact ⟨a, by push_cast; omega, c, d⟩

/-- C29. For a worker started on a record as `main` creates it (`rows_done = 0`,
`total_rows = 0`, `progress = 0`, `done = false`) with `row_start ≤ row_end`: the fresh
record and the record after each row of the run satisfy `0 ≤ rows_done ≤ total_rows`,
`0 ≤ progress ≤ 100`, and `done` implies `started` and `rows_done = total_rows`;
`started` is true from the first row state on and `done`, once true, stays true. -/
theorem metrics_invariant (A B C : Matrix) (info : ThreadMetrics) (env : Env)
    (h_rd : info.rows_done = 0) (h_tr : info.total_rows = 0) (h_pr : info.progress = 0)
    (h_dn : info.done = false) (_hrange : info.row_start ≤ info.row_end) :
    (0 ≤ info.rows_done ∧ info.rows_done ≤ info.total_rows ∧ 0 ≤ info.progress ∧
      info.progress ≤ 100 ∧
      (info.done = true → info.started = true ∧ info.rows_done = info.total_rows)) ∧
    (∀ (n : Nat) (s : WState), (n : Int) ≤ info.row_end - info.row_start →
      worker_state A B C info env n = some s →
      0 ≤ s.info.rows_done ∧ s.info.rows_done ≤ s.info.total_rows ∧ 0 ≤ s.info.progress ∧
      s.info.progress ≤ 100 ∧
      (s.info.done = true → s.info.started = true ∧ s.info.rows_done = s.info.total_rows) ∧
      s.info.started = true) ∧
    (∀ (m n : Nat) (s1 s2 : WState), m ≤ n → (n : Int) ≤ info.row_end - info.row_start →
      worker_state A B C info env m = some s1 → worker_state A B C info env n = some s2 →
      (s1.info.started = true → s2.info.started = true) ∧
      (s1.info.done = true → s2.info.done = true)) := by
  refine ⟨?_, ?_, ?_⟩
  · rw [h_rd, h_tr, h_pr, h_dn]
    exact ⟨le_refl 0, le_refl 0, le_refl 0, by norm_num, fun h => by cases h⟩
  · intro n s hn hs
    obtain ⟨a, b, c, d⟩ := worker_state_inv h_rd h_pr h_dn n s hn hs
    obtain ⟨htot, hst, _⟩ := worker_state_static n s hs
    have hle : s.info.rows_done ≤ info.row_end - info.row_start := le_trans b hn
    have hq0 : (0 : ℚ) ≤ (s.info.rows_done : ℚ) := by exact_mod_cast a
    have hqt : (s.info.rows_done : ℚ) ≤ ((info.row_end - info.row_start : Int) : ℚ) := by
      exact_mod_cast hle
    have htq : (0 : ℚ) ≤ ((info.row_end - info.row_start : Int) : ℚ) := le_trans hq0 hqt
    refine ⟨a, by rw [htot]; exact hle, ?_, ?_, fun hd => ⟨hst, by rw [htot]; exact d hd⟩, hst⟩
    · rw [c]
      exact div_nonneg (mul_nonneg hq0 (by norm_num)) htq
    · rw [c]
      rcases eq_or_lt_of_le htq with h0 | hpos
      · rw [← h0, div_zero]
        norm_num
      · rw [div_le_iff₀ hpos]
        linarith
  · intro m n s1 s2 hmn hn h1 h2
    obtain ⟨_, hst, _⟩ := worker_state_static n s2 h2
    refine ⟨fun _ => hst, ?_⟩
    intro hd
    obtain ⟨_, b, _, d⟩ := worker_state_inv h_rd h_pr h_dn m s1 (by omega) h1
    have hm : m = n := by
      have := d hd
      omega
    subst hm
    rw [h1] at h2
    cases h2
    exact hd

/-- A worker of three rows started on a fresh record, after two of its rows. -/
theorem metrics_invariant_witness :
    ∃ s : WState,
      worker_state [[1], [2], [3]] [[4]] [[0], [0], [0]] { row_start := 0, row_end := 3 }
        ⟨fun n => n, fun n => n, none⟩ 2 = some s ∧
      0 ≤ s.info.rows_done ∧ s.info.rows_done ≤ s.info.total_rows ∧ 0 ≤ s.info.progress ∧
      s.info.progress ≤ 100 ∧
      (s.info.done = true → s.info.started = true ∧ s.info.rows_done = s.info.total_rows) ∧
      s.info.started = true := by
  obtain ⟨s, e⟩ := worker_state_ok (by decide : hasShape [[1], [2], [3]] 3 1)
    (by decide : hasShape [[4]] 1 1) (by decide : hasShape [[0], [0], [0]] 3 1)
    (by decide) (by decide)
    { row_start := 0, row_end := 3 } ⟨fun n => n, fun n => n, none⟩ (by decide) 2 (by decide)
  exact ⟨s, e, (metrics_invariant [[1], [2], [3]] [[4]] [[0], [0], [0]]
    { row_start := 0, row_end := 3 } ⟨fun n => n, fun n => n, none⟩ rfl rfl rfl rfl
    (by decide)).2.1 2 s (by decide) e⟩

/-! ## The monitor thread -/

/-- The snapshot loop after `n` iterations has printed the lines of the started records
among the first `n`, in order. -/
theorem snapshotLoop_eq (ms : List ThreadMetrics) (mem : ℚ) (n : Nat) (hn : n ≤ ms.length) :
    snapshotLoop ms mem n
      = some ((((ms.take n).filter (fun m => m.started)).map
            (fun m => MonitorOut.line (monitor_line m mem))),
          (ms.take n).any (fun m => m.started)) := by
  induction n with
  | zero => simp [snapshotLoop]
  | succ n ih =>
    have hlt : n < ms.length := hn
    rw [snapshotLoop, ih (Nat.le_of_lt hlt)]
    have hget : ms[n]? = some ms[n] := List.getElem?_eq_getElem hlt
    have htake : ms.take (n + 1) = ms.take n ++ [ms[n]] := by
      rw [List.take_succ, hget]; rfl
    simp only [hget, htake, List.filter_append, List.map_append, List.any_append]
    cases hst : ms[n].started <;> simp [List.filter, hst]

/-- The scan of the waiting loop finds a started record exactly when there is one. -/
theorem startedLoop_eq (ms : List ThreadMetrics) (n : Nat) (hn : n ≤ ms.length) :
    startedLoop ms n = some ((ms.take n).any (fun m => m.started)) := by
  induction n with
  | zero => simp [startedLoop]
  | succ n ih =>
    have hlt : n < ms.length := hn
    have hget : ms[n]? = some ms[n] := List.getElem?_eq_getElem hlt
    have htake : ms.take (n + 1) = ms.take n ++ [ms[n]] := by
      rw [List.take_succ, hget]; rfl
    rw [startedLoop, ih (Nat.le_of_lt hlt), htake, List.any_append]
    cases hany : (ms.take n).any (fun m => m.started) <;> simp [hget]

/-- The scan over all the records. -/
theorem startedLoop_all (ms : List ThreadMetrics) :
    startedLoop ms ms.length = some (ms.any (fun m => m.started)) := by
  rw [startedLoop_eq ms ms.length (Nat.le_refl _), List.take_length]

/-- One snapshot over all the records. -/
theorem monitor_snapshot_eq (ms : List ThreadMetrics) (mem : ℚ) :
    monitor_snapshot ms ms.length mem
      = some (((ms.filter (fun m => m.started)).map
            (fun m => MonitorOut.line (monitor_line m mem)))
          ++ (if ms.any (fun m => m.started) then [MonitorOut.blank] else [])) := by
  rw [monitor_snapshot, snapshotLoop_eq ms mem ms.length (Nat.le_refl _), List.take_length]
  cases h : ms.any (fun m => m.started) <;> simp

/-- A stopped monitor does nothing more. -/
theorem monitor_iter_stopped (env : MonitorEnv) (s : MonitorState)
    (h : s.phase = Phase.stopped) : monitor_iter env s = some s := by
  simp [monitor_iter, h]

/-- A stopped monitor stays as it is for any number of iterations. -/
theorem monitor_from_stopped (env : MonitorEnv) (s : MonitorState)
    (h : s.phase = Phase.stopped) (n : Nat) : monitor_from env s n = some s := by
  induction n with
  | zero => rfl
  | succ n ih => rw [monitor_from, ih]; exact monitor_iter_stopped env s h

/-- Iterating from `s` for `m + n` iterations is iterating `n` more from the state after
`m`. -/
theorem monitor_from_add (env : MonitorEnv) (s s1 : MonitorState) (m n : Nat)
    (h : monitor_from env s m = some s1) :
    monitor_from env s (m + n) = monitor_from env s1 n := by
  induction n with
  | zero => simpa [monitor_from] using h
  | succ n ih => rw [← Nat.add_assoc, monitor_from, ih, monitor_from]

/-- One iteration of the waiting loop: what it reads decides where it goes. -/
theorem monitor_iter_waiting (env : MonitorEnv) (s : MonitorState)
    (h : s.phase = Phase.waiting) :
    monitor_iter env s
      = if env.flag s.loads then
          some { s with
            phase := Phase.polling
            loads := s.loads + 1
            trace := s.trace ++ [MonitorEvent.load true] }
        else if (env.metrics s.passes).any (fun m => m.started) then
          some { s with
            phase := Phase.polling
            loads := s.loads + 1
            passes := s.passes + 1
            trace := s.trace ++ [MonitorEvent.load false, MonitorEvent.scan true] }
        else
          some { s with
            loads := s.loads + 1
            passes := s.passes + 1
            trace := s.trace
              ++ [MonitorEvent.load false, MonitorEvent.scan false, MonitorEvent.yield] } := by
  rw [monitor_iter]
  simp only [h, startedLoop_all]
  cases hany : (env.metrics s.passes).any (fun m => m.started) <;> simp

/-- One iteration of the polling loop. -/
theorem monitor_iter_polling (env : MonitorEnv) (s : MonitorState)
    (h : s.phase = Phase.polling) :
    monitor_iter env s
      = if env.flag s.loads then
          some { s with
            phase := Phase.stopped
            loads := s.loads + 1
            trace := s.trace ++ [MonitorEvent.load true] }
        else if s.first_print then
          some { s with
            first_print := false
            loads := s.loads + 1
            passes := s.passes + 1
            trace := s.trace ++ [MonitorEvent.load false, MonitorEvent.snapshot s.passes]
            output := s.output
              ++ (((env.metrics s.passes).filter (fun m => m.started)).map
                    (fun m => MonitorOut.line (monitor_line m (env.mem s.passes)))
                  ++ (if (env.metrics s.passes).any (fun m => m.started)
                      then [MonitorOut.blank] else [])) }
        else if env.flag (s.loads + 1) then
          some { s with
            phase := Phase.stopped
            loads := s.loads + 2
            trace := s.trace
              ++ [MonitorEvent.load false, MonitorEvent.sleep 50, MonitorEvent.load true] }
        else
          some { s with
            first_print := false
            loads := s.loads + 2
            passes := s.passes + 1
            trace := s.trace
              ++ [MonitorEvent.load false, MonitorEvent.sleep 50, MonitorEvent.load false,
                  MonitorEvent.snapshot s.passes]
            output := s.output
              ++ (((env.metrics s.passes).filter (fun m => m.started)).map
                    (fun m => MonitorOut.line (monitor_line m (env.mem s.passes)))
                  ++ (if (env.metrics s.passes).any (fun m => m.started)
                      then [MonitorOut.blank] else [])) } := by
  rw [monitor_iter]
  simp only [h, monitor_snapshot_eq]

/-- While nothing is seen the monitor stays in its waiting loop, and its state is known. -/
theorem monitor_run_quiet (env : MonitorEnv) (n : Nat) (hq : quiet env n) :
    monitor_run env n
      = some ⟨Phase.waiting, true, n, n, quiet_rounds n, []⟩ := by
  induction n with
  | zero => rfl
  | succ n ih =>
    have hq1 : quiet env n := fun i hi => hq i (Nat.lt_succ_of_lt hi)
    have hn := hq n (Nat.lt_succ_self n)
    rw [monitor_run, monitor_from]
    rw [monitor_run] at ih
    rw [ih hq1]
    simp only []
    rw [monitor_iter_waiting env _ rfl]
    simp [hn.1, hn.2, quiet_rounds]

/-- A monitor that has left its waiting loop never comes back to it. -/
theorem monitor_iter_left (env : MonitorEnv) (s s1 : MonitorState)
    (h : s.phase ≠ Phase.waiting) (h1 : monitor_iter env s = some s1) :
    s1.phase ≠ Phase.waiting := by
  cases hp : s.phase with
  | waiting => exact absurd hp h
  | stopped =>
    rw [monitor_iter_stopped env s hp] at h1
    cases h1; rw [hp]; decide
  | polling =>
    rw [monitor_iter_polling env s hp] at h1
    split_ifs at h1 <;> cases h1 <;> simp [hp]

/-- The monitor always completes an iteration. -/
theorem monitor_iter_some (env : MonitorEnv) (s : MonitorState) :
    ∃ s1, monitor_iter env s = some s1 := by
  cases hp : s.phase with
  | waiting => rw [monitor_iter_waiting env s hp]; split_ifs <;> exact ⟨_, rfl⟩
  | stopped => exact ⟨s, monitor_iter_stopped env s hp⟩
  | polling => rw [monitor_iter_polling env s hp]; split_ifs <;> exact ⟨_, rfl⟩

/-- The monitor has a state after any number of iterations. -/
theorem monitor_from_some (env : MonitorEnv) (s : MonitorState) (n : Nat) :
    ∃ s1, monitor_from env s n = some s1 := by
  induction n with
  | zero => exact ⟨s, rfl⟩
  | succ n ih =>
    obtain ⟨s1, h1⟩ := ih
    rw [monitor_from, h1]
    exact monitor_iter_some env s1

/-- The monitor is in its waiting loop after `n` iterations exactly when nothing was
seen in them. -/
theorem monitor_waiting_iff (env : MonitorEnv) (n : Nat) (s : MonitorState)
    (h : monitor_run env n = some s) : s.phase = Phase.waiting ↔ quiet env n := by
  constructor
  · intro hw
    induction n generalizing s with
    | zero => intro i hi; exact absurd hi (Nat.not_lt_zero i)
    | succ n ih =>
      obtain ⟨s0, h0⟩ := monitor_from_some env monitor_init n
      have hstep : monitor_iter env s0 = some s := by
        rw [monitor_run, monitor_from, h0] at h; exact h
      have hw0 : s0.phase = Phase.waiting := by
        by_contra hne
        exact monitor_iter_left env s0 s hne hstep hw
      have hq : quiet env n := ih s0 h0 hw0
      have hs0 := monitor_run_quiet env n hq
      rw [monitor_run, h0] at hs0
      cases hs0
      rw [monitor_iter_waiting env _ rfl] at hstep
      simp only [] at hstep
      intro i hi
      rcases Nat.lt_succ_iff_lt_or_eq.mp hi with hlt | heq
      · exact hq i hlt
      · subst heq
        cases hf : env.flag i with
        | true => rw [hf] at hstep; simp at hstep; cases hstep; simp at hw
        | false =>
          cases ha : (env.metrics i).any (fun m => m.started) with
          | true => rw [hf, ha] at hstep; simp at hstep; cases hstep; simp at hw
          | false => exact ⟨rfl, rfl⟩
  · intro hq
    rw [monitor_run_quiet env n hq] at h
    cases h; rfl

/-- **C21.** One snapshot of the monitor over the `num_threads` records prints one line
for each record whose `started` flag is set, in increasing index order and with the
values of that record, prints nothing for the others, and adds the blank separator line
exactly when at least one record was started. -/
theorem snapshot_lines (ms : List ThreadMetrics) (mem : ℚ) :
    monitor_snapshot ms ms.length mem
      = some (((ms.filter (fun m => m.started)).map
            (fun m => MonitorOut.line (monitor_line m mem)))
          ++ (if ms.any (fun m => m.started) then [MonitorOut.blank] else [])) :=
  monitor_snapshot_eq ms mem

/-- **C22.** From the moment the monitor enters its polling loop (with `first_print`
set), after any number `k` of loop iterations it is in one of two situations, and which
one is decided by the values that the loads of the flag returned. Either every load so
far returned false: the monitor is still polling, it has made one load for the first
snapshot and two for each later one, its events are exactly `k` rounds (a load followed
at once by the first snapshot, then for every later snapshot a load, one sleep of 50 ms,
a second load, and the snapshot), and it has printed exactly these `k` snapshots, each
from the records as they were on that pass. Or it has stopped after `j < k` snapshots
on the first load that returned true, which is either the load of the loop test or the
load made right after a sleep: that load is its last event, it has printed exactly the
`j` snapshots made before it and nothing after it, and no further iteration changes its
state. -/
theorem polling_rounds (env : MonitorEnv) (s0 : MonitorState) (k : Nat)
    (hp : s0.phase = Phase.polling) (hf : s0.first_print = true) :
    ∃ s, monitor_from env s0 k = some s ∧
      ((s.phase = Phase.polling ∧ s.first_print = decide (k = 0) ∧
          (∀ i, i < poll_loads k → env.flag (s0.loads + i) = false) ∧
          s.loads = s0.loads + poll_loads k ∧
          s.passes = s0.passes + k ∧
          s.trace = s0.trace ++ poll_rounds s0.passes k ∧
          s.output = s0.output ++ poll_output env s0.passes k)
        ∨ (s.phase = Phase.stopped ∧ ∃ j, j < k ∧
            (∀ i, i < poll_loads j → env.flag (s0.loads + i) = false) ∧
            s.passes = s0.passes + j ∧
            s.output = s0.output ++ poll_output env s0.passes j ∧
            ((env.flag (s0.loads + poll_loads j) = true ∧
                s.loads = s0.loads + poll_loads j + 1 ∧
                s.trace = s0.trace ++ poll_rounds s0.passes j ++ [MonitorEvent.load true])
              ∨ (1 ≤ j ∧ env.flag (s0.loads + poll_loads j) = false ∧
                  env.flag (s0.loads + poll_loads j + 1) = true ∧
                  s.loads = s0.loads + poll_loads j + 2 ∧
                  s.trace = s0.trace ++ poll_rounds s0.passes j
                    ++ [MonitorEvent.load false, MonitorEvent.sleep 50,
                        MonitorEvent.load true])) ∧
            ∀ n, monitor_from env s n = some s)) := by
  induction k with
  | zero =>
    refine ⟨s0, rfl, Or.inl ⟨hp, ?_, ?_, rfl, rfl, ?_, ?_⟩⟩
    · simpa using hf
    · intro i hi; exact absurd hi (Nat.not_lt_zero i)
    · simp [poll_rounds]
    · simp [poll_output]
  | succ k ih =>
    obtain ⟨s, hs, hcase⟩ := ih
    rw [monitor_from, hs]
    simp only []
    rcases hcase with ⟨hph, hfp, hfl, hld, hpass, htr, hout⟩ |
      ⟨hph, j, hj, hfl, hpass, hout, htr, hfix⟩
    · rw [monitor_iter_polling env s hph]
      by_cases hl : env.flag s.loads = true
      · rw [if_pos hl]
        refine ⟨_, rfl, Or.inr ⟨rfl, k, Nat.lt_succ_self k, hfl, hpass, hout, Or.inl ⟨?_, ?_, ?_⟩,
          ?_⟩⟩
        · rw [← hld]; exact hl
        · simp only [hld]
        · simp only [htr]
        · intro n; exact monitor_from_stopped env _ rfl n
      · rw [if_neg hl]
        have hl0 : env.flag (s0.loads + poll_loads k) = false := by
          rw [← hld]; simpa using hl
        cases k with
        | zero =>
          have hfp1 : s.first_print = true := by simpa using hfp
          rw [if_pos hfp1]
          refine ⟨_, rfl, Or.inl ⟨hph, by simp, ?_, ?_, by simp [hpass], ?_, ?_⟩⟩
          · intro i hi
            have hi0 : i = 0 := by simp only [poll_loads] at hi; omega
            subst hi0
            exact hl0
          · simp only [hld, poll_loads]
          · simp [htr, hpass, poll_rounds]
          · simp [hout, hpass, poll_output]
        | succ k =>
          have hfp1 : ¬ s.first_print = true := by simp [hfp]
          rw [if_neg hfp1]
          by_cases hl2 : env.flag (s.loads + 1) = true
          · rw [if_pos hl2]
            refine ⟨_, rfl, Or.inr ⟨rfl, k + 1, Nat.lt_succ_self _, hfl, hpass, hout,
              Or.inr ⟨Nat.succ_le_succ (Nat.zero_le k), hl0, ?_, ?_, ?_⟩, ?_⟩⟩
            · rw [← hld]; exact hl2
            · simp only [hld]
            · simp only [htr]
            · intro n; exact monitor_from_stopped env _ rfl n
          · rw [if_neg hl2]
            have hl1 : env.flag (s0.loads + poll_loads (k + 1) + 1) = false := by
              rw [← hld]; simpa using hl2
            refine ⟨_, rfl, Or.inl ⟨hph, by simp, ?_, ?_, ?_, ?_, ?_⟩⟩
            · intro i hi
              simp only [poll_loads] at hi hfl hl0 hl1
              by_cases h1 : i < 2 * k + 1
              · exact hfl i h1
              · by_cases h2 : i = 2 * k + 1
                · subst h2; exact hl0
                · have h3 : i = 2 * k + 1 + 1 := by omega
                  subst h3; exact hl1
            · simp only [hld, poll_loads]; omega
            · simp only [hpass]; omega
            · simp only [htr, hpass, poll_rounds, List.append_assoc]
              simp [Nat.add_assoc]
            · simp only [hout, hpass, poll_output, List.append_assoc]
    · refine ⟨s, monitor_iter_stopped env s hph, Or.inr ⟨hph, j, Nat.lt_succ_of_lt hj, hfl,
        hpass, hout, htr, hfix⟩⟩

/-- **C23.** The monitor always has a state after `n` iterations of its loops, and it
is still in the waiting loop exactly when, in each of those iterations, the termination
flag was read false and no record was read with `started` set; its events are then `n`
rounds of load, scan and yield and it has printed nothing. If after `n` such iterations
the flag is read true, and stays true at the next load, the monitor is stopped two
iterations later and for ever after, with the two loads as its only further events and
with nothing printed; this includes a run with zero workers, where no scan can find a
started record. -/
theorem waiting_exit (env : MonitorEnv) (n : Nat) :
    (∃ s, monitor_run env n = some s ∧ (s.phase = Phase.waiting ↔ quiet env n)) ∧
    (quiet env n →
      monitor_run env n = some ⟨Phase.waiting, true, n, n, quiet_rounds n, []⟩) ∧
    (quiet env n → env.flag n = true → env.flag (n + 1) = true →
      ∀ k, monitor_run env (n + 2 + k)
        = some ⟨Phase.stopped, true, n + 2, n,
            quiet_rounds n ++ [MonitorEvent.load true, MonitorEvent.load true], []⟩) ∧
    ((∀ p, env.metrics p = []) → (∀ i, i < n → env.flag i = false) → quiet env n) := by
  refine ⟨?_, monitor_run_quiet env n, ?_, ?_⟩
  · obtain ⟨s, hs⟩ := monitor_from_some env monitor_init n
    exact ⟨s, hs, monitor_waiting_iff env n s hs⟩
  · intro hq h1 h2 k
    have h0 := monitor_run_quiet env n hq
    rw [monitor_run] at h0
    have hstep2 : monitor_from env monitor_init (n + 2)
        = some ⟨Phase.stopped, true, n + 2, n,
            quiet_rounds n ++ [MonitorEvent.load true, MonitorEvent.load true], []⟩ := by
      rw [monitor_from_add env monitor_init _ n 2 h0]
      rw [monitor_from, monitor_from, monitor_from]
      simp only []
      rw [monitor_iter_waiting env _ rfl]
      simp only [h1, if_true]
      rw [monitor_iter_polling env _ rfl]
      simp [h2]
    rw [monitor_run, monitor_from_add env monitor_init _ (n + 2) k hstep2]
    exact monitor_from_stopped env _ rfl k
  · intro hempty hflag i hi
    exact ⟨hflag i hi, by rw [hempty i]; rfl⟩

/-- A monitor that enters its polling loop over one started record and reads the flag
false four times and then, right after its second sleep, true: two snapshots with one
sleep of 50 ms between them, the stop after the second sleep, and the two snapshots as
the whole output. -/
theorem polling_rounds_witness :
    ∃ s, monitor_from
        ⟨fun n => decide (4 ≤ n), fun _ => [{ thread_id := 7, started := true }], fun _ => 5⟩
        ⟨Phase.polling, true, 0, 0, [], []⟩ 3 = some s ∧
      s.phase = Phase.stopped ∧
      s.trace = [MonitorEvent.load false, MonitorEvent.snapshot 0, MonitorEvent.load false,
        MonitorEvent.sleep 50, MonitorEvent.load false, MonitorEvent.snapshot 1,
        MonitorEvent.load false, MonitorEvent.sleep 50, MonitorEvent.load true] ∧
      s.output
        = [MonitorOut.line (monitor_line { thread_id := 7, started := true } 5),
            MonitorOut.blank,
            MonitorOut.line (monitor_line { thread_id := 7, started := true } 5),
            MonitorOut.blank] := by
  obtain ⟨s, hs, _⟩ := polling_rounds
    ⟨fun n => decide (4 ≤ n), fun _ => [{ thread_id := 7, started := true }], fun _ => 5⟩
    ⟨Phase.polling, true, 0, 0, [], []⟩ 3 rfl rfl
  refine ⟨s, hs, ?_⟩
  have e : monitor_from
      ⟨fun n => decide (4 ≤ n), fun _ => [{ thread_id := 7, started := true }], fun _ => 5⟩
      ⟨Phase.polling, true, 0, 0, [], []⟩ 3
      = some ⟨Phase.stopped, false, 5, 2,
          [MonitorEvent.load false, MonitorEvent.snapshot 0, MonitorEvent.load false,
            MonitorEvent.sleep 50, MonitorEvent.load false, MonitorEvent.snapshot 1,
            MonitorEvent.load false, MonitorEvent.sleep 50, MonitorEvent.load true],
          [MonitorOut.line (monitor_line { thread_id := 7, started := true } 5),
            MonitorOut.blank,
            MonitorOut.line (monitor_line { thread_id := 7, started := true } 5),
            MonitorOut.blank]⟩ := by
    simp [monitor_from, monitor_iter, monitor_snapshot, snapshotLoop]
  rw [e] at hs
  cases hs
  exact ⟨rfl, rfl, rfl⟩

/-- A run with zero workers in which the flag is set at the third load: the monitor is
stopped after four iterations and has printed nothing. -/
theorem waiting_exit_witness :
    quiet ⟨fun n => decide (2 ≤ n), fun _ => [], fun _ => 0⟩ 2 ∧
    monitor_run ⟨fun n => decide (2 ≤ n), fun _ => [], fun _ => 0⟩ 5
      = some ⟨Phase.stopped, true, 4, 2,
          quiet_rounds 2 ++ [MonitorEvent.load true, MonitorEvent.load true], []⟩ :=
  have hq : quiet ⟨fun n => decide (2 ≤ n), fun _ => [], fun _ => 0⟩ 2 :=
    (waiting_exit ⟨fun n => decide (2 ≤ n), fun _ => [], fun _ => 0⟩ 2).2.2.2
      (fun _ => rfl) (fun i hi => by simpa using hi)
  ⟨hq, (waiting_exit ⟨fun n => decide (2 ≤ n), fun _ => [], fun _ => 0⟩ 2).2.2.1
    hq rfl rfl 1⟩

/-! ## Lock discipline -/

/-- The unguarded accesses of two runs of accesses one after the other. -/
theorem unguarded_append (held : Bool) (xs ys : List Access) :
    unguarded held (xs ++ ys) = unguarded held xs ++ unguarded (held_after held xs) ys := by
  induction xs generalizing held with
  | nil => simp [unguarded, held_after]
  | cons a xs ih =>
    cases a with
    | lock => simp [unguarded, held_after, ih]
    | unlock => simp [unguarded, held_after, ih]
    | write f => cases held <;> simp [unguarded, held_after, ih]
    | read f => cases held <;> simp [unguarded, held_after, ih]

/-- Whether the mutex is held after two runs of accesses. -/
theorem held_after_append (held : Bool) (xs ys : List Access) :
    held_after held (xs ++ ys) = held_after (held_after held xs) ys := by
  induction xs generalizing held with
  | nil => simp [held_after]
  | cons a xs ih => cases a <;> simp [held_after, ih]

/-- The publishing block is one lock scope. -/
theorem publish_accesses_guarded (total : Int) (idx : Nat) :
    unguarded false (publish_accesses total idx) = [] ∧
    held_after false (publish_accesses total idx) = false := by
  unfold publish_accesses
  split_ifs <;> simp [unguarded, held_after]

/-- The worker does not hold the mutex between two iterations of its row loop. -/
theorem worker_accesses_released (env : Env) (total : Int) (n : Nat) :
    held_after false (worker_accesses env total n) = false := by
  induction n with
  | zero =>
    cases h : env.tid <;> simp [worker_accesses, worker_start_accesses, h, held_after]
  | succ n ih =>
    rw [worker_accesses, held_after_append, ih]
    split_ifs
    · exact (publish_accesses_guarded total n).2
    · rfl

/-- The unguarded accesses of the worker are those of its first statements. -/
theorem worker_accesses_unguarded (env : Env) (total : Int) (n : Nat) :
    unguarded false (worker_accesses env total n)
      = unguarded false (worker_start_accesses env) := by
  induction n with
  | zero => rfl
  | succ n ih =>
    rw [worker_accesses, unguarded_append, ih, worker_accesses_released]
    split_ifs
    · rw [(publish_accesses_guarded total n).1, List.append_nil]
    · simp [unguarded]

/-- **C24.** In the build for Windows, where `worker_func` stores the thread id, the
write of `native_tid` is the one access of the worker to its record that is made
without holding the mutex of the record, whatever the number of rows and however far
the worker has come; every other write of the worker is inside a lock scope, as is every
write in the build that has no thread id, and every read of the monitor (waiting loop
and snapshot) and of the final summary loop is inside a lock scope. -/
theorem native_tid_written_unlocked :
    (∀ (wall cpu : Nat → ℚ) (tid : Nat) (total : Int) (n : Nat),
      unguarded false (worker_accesses ⟨wall, cpu, some tid⟩ total n)
        = [Access.write MetricsField.native_tid]) ∧
    (∀ (wall cpu : Nat → ℚ) (total : Int) (n : Nat),
      unguarded false (worker_accesses ⟨wall, cpu, none⟩ total n) = []) ∧
    unguarded false scan_accesses = [] ∧
    (∀ m : ThreadMetrics, unguarded false (snapshot_accesses m) = []) ∧
    unguarded false summary_accesses = [] := by
  refine ⟨?_, ?_, by simp [scan_accesses, unguarded], ?_, by simp [summary_accesses, unguarded]⟩
  · intro wall cpu tid total n
    rw [worker_accesses_unguarded]
    simp [worker_start_accesses, unguarded]
  · intro wall cpu total n
    rw [worker_accesses_unguarded]
    simp [worker_start_accesses, unguarded]
  · intro m
    cases h : m.started <;> simp [snapshot_accesses, h, unguarded]

end MatMul
